import Mathlib

/-!
# critbit: a shallow embedding of `critbit.c`

The C program keeps a binary trie whose references are tagged pointers: an
odd pointer is a branch node (`struct critbit_node`), an even pointer is a
key owned by the caller.  The embedding replaces the pointer graph by an
inductive tree.  A branch node carries its own address, so that the node
handed to the release callback can be named; a leaf carries the key
reference together with the bytes the key buffer holds.

Conventions of the embedding:

* bytes are natural numbers; well-formed storage holds values below 256;
* a key buffer is the list of bytes found at the address `keybuf` returns;
  storage past the end of the list reads as 0, which for a string is its
  terminator;
* byte indices (`uint32_t`) and lengths (`size_t`, and the `int` length
  difference of `critbit_str_keycmp`) are natural numbers or integers; the
  well-formedness predicates bound key lengths by `2 ^ 31`, where none of
  them wraps;
* the release callback is not run: every call of `ct_node_free` is appended
  to the trace `calls` of the tree, as the pair (first argument, node);
* an inductive tree cannot hold one node twice, so the embedding describes
  runs in which the node given to an insertion is not linked in the tree at
  that moment.
-/

namespace Critbit

/-! ## Data model -/

/-- Key reference: `ref` is the pointer stored in the tree (what the
operations return), `mem` the bytes that `keybuf` reaches through it. -/
structure critbit_key where
  ref : Nat
  mem : List Nat
deriving DecidableEq, Repr

/-- Tagged reference `struct critbit_ref *`: either a key (even pointer) or
a branch node `struct critbit_node` at address `addr` with its two children,
its `byte` and its `otherbits`. -/
inductive critbit_ref where
  | key (k : critbit_key)
  | node (addr : Nat) (child0 child1 : critbit_ref) (byte otherbits : Nat)
deriving DecidableEq, Repr

/-- Tree head `struct critbit_tree`.  `self` is the address of the tree
object, `calls` the trace of the invocations of `ct_node_free`. -/
structure critbit_tree where
  self : Nat
  ct_root : Option critbit_ref
  ct_keylen : Nat
  ct_free_arg : Nat
  calls : List (Nat × Nat)
deriving DecidableEq, Repr

/-- Function `critbit_init`: null root, the key length and the callback
argument are stored; no callback has been called yet. -/
def critbit_init (self freearg keylen : Nat) : critbit_tree :=
  { self := self, ct_root := none, ct_keylen := keylen, ct_free_arg := freearg, calls := [] }

/-- Function `critbit_node_free`: calls `t->ct_node_free(t, node)`. -/
def critbit_node_free (t : critbit_tree) (node : Nat) : critbit_tree :=
  { t with calls := t.calls ++ [(t.self, node)] }

/-! ## Key domains -/

/-- Read of one byte, `p[i]`. -/
def rd (p : List Nat) (i : Nat) : Nat := p.getD i 0

/-- Function `strlen`: index of the first zero byte. -/
def strlen (a : List Nat) : Nat := (a.takeWhile (fun b => b != 0)).length

/-- Loop of `memcmp` from index `i` over `n` more bytes: 0 when all are equal,
otherwise the difference of the first two bytes that differ. -/
def memcmp_from (a b : List Nat) : Nat → Nat → Int
  | _, 0 => 0
  | i, n + 1 =>
    if rd a i != rd b i then (rd a i : Int) - (rd b i : Int)
    else memcmp_from a b (i + 1) n

/-- Function `memcmp(a, b, n)`. -/
def memcmp (a b : List Nat) (n : Nat) : Int := memcmp_from a b 0 n

/-- Function `critbit_buf_keybuf`: the key pointer is the buffer. -/
def critbit_buf_keybuf (key : critbit_key) : List Nat := key.mem

/-- Function `critbit_str_keybuf`: the key pointer points to the string
pointer. -/
def critbit_str_keybuf (key : critbit_key) : List Nat := key.mem

/-- Function `critbit_buf_keylen`. -/
def critbit_buf_keylen (t : critbit_tree) : Nat := t.ct_keylen

/-- Function `critbit_str_keylen`. -/
def critbit_str_keylen (a : List Nat) : Nat := strlen a

/-- Function `critbit_buf_keycmp`. -/
def critbit_buf_keycmp (a b : List Nat) (blen : Nat) : Int := memcmp a b blen

/-- Function `critbit_str_keycmp`: the length difference when it is not
zero, else `memcmp`. -/
def critbit_str_keycmp (a b : List Nat) (blen : Nat) : Int :=
  let alen := strlen a
  let rv : Int := (alen : Int) - (blen : Int)
  if rv != 0 then rv else memcmp a b blen

/-! ## The three algorithms -/

/-- Branch-free direction `(1 + (otherbits | c)) >> 8`. -/
def direction (otherbits c : Nat) : Nat := (1 + (otherbits ||| c)) >>> 8

/-- Byte of the probe that a node looks at: `c = 0; if (byte < keylen)
c = ubytes[byte];`. -/
def probe_byte (ubytes : List Nat) (keylen byte : Nat) : Nat :=
  if byte < keylen then rd ubytes byte else 0

/-- Descent loop `while (critbit_ref_is_internal(p))` of get and insert:
follows `child[direction]` down to a key.  For `uint8_t` operands the index
`direction` is 0 or 1 (`direction_le_one`); the embedding takes `child[1]`
for every index other than 0. -/
def descend (ubytes : List Nat) (keylen : Nat) : critbit_ref → critbit_key
  | .key k => k
  | .node _ c0 c1 byte otherbits =>
    if direction otherbits (probe_byte ubytes keylen byte) = 0 then descend ubytes keylen c0
    else descend ubytes keylen c1

/-- Function `critbit_get_impl`. -/
def critbit_get_impl (t : critbit_tree) (key : List Nat) (keylen : Nat)
    (keycmp : List Nat → List Nat → Nat → Int) (keybuf : critbit_key → List Nat) :
    Option critbit_key :=
  match t.ct_root with
  | none => none
  | some ref =>
    let k := descend key keylen ref
    if keycmp (keybuf k) key keylen = 0 then some k else none

/-- Search for the differing byte in `critbit_insert_impl`: the `for` loop
over `newbyte < keylen` (here with `n` iterations left), then the test
`pkey[newbyte] != 0`.  The result is `(newbyte, newotherbits)` at the label
`different_byte_found`, or `none` when the label is not reached. -/
def different_byte (pkey ubytes : List Nat) : Nat → Nat → Option (Nat × Nat)
  | newbyte, 0 => if rd pkey newbyte != 0 then some (newbyte, rd pkey newbyte) else none
  | newbyte, n + 1 =>
    if rd pkey newbyte != rd ubytes newbyte then
      some (newbyte, rd pkey newbyte ^^^ rd ubytes newbyte)
    else different_byte pkey ubytes (newbyte + 1) n

/-- Loop `while ((x & (x - 1)) != 0) x &= x - 1;` run for at most `fuel`
iterations. -/
def clear_low_bits : Nat → Nat → Nat
  | 0, x => x
  | fuel + 1, x => if x &&& (x - 1) != 0 then clear_low_bits fuel (x &&& (x - 1)) else x

/-- The loop run to its end: every iteration lowers `x`, so `x` iterations
are enough (see `msb_loop_done`). -/
def msb_loop (x : Nat) : Nat := clear_low_bits x x

/-- Node written by the insertion: `newnode` with the new key in
`child[1 - newdirection]` and the old content of the slot in
`child[newdirection]`. -/
def attach (newnode : Nat) (key : critbit_key) (newbyte newotherbits newdirection : Nat)
    (old : critbit_ref) : critbit_ref :=
  if newdirection = 0 then .node newnode old (.key key) newbyte newotherbits
  else .node newnode (.key key) old newbyte newotherbits

/-- Second descent of `critbit_insert_impl` (the `wherep` loop) together
with the two final stores: the slot where the loop breaks receives the new
node. -/
def splice (newnode : Nat) (key : critbit_key) (ubytes : List Nat) (keylen : Nat)
    (newbyte newotherbits newdirection : Nat) : critbit_ref → critbit_ref
  | .key k => attach newnode key newbyte newotherbits newdirection (.key k)
  | .node a c0 c1 byte otherbits =>
    if byte > newbyte then
      attach newnode key newbyte newotherbits newdirection (.node a c0 c1 byte otherbits)
    else if byte = newbyte ∧ otherbits > newotherbits then
      attach newnode key newbyte newotherbits newdirection (.node a c0 c1 byte otherbits)
    else if direction otherbits (probe_byte ubytes keylen byte) = 0 then
      .node a (splice newnode key ubytes keylen newbyte newotherbits newdirection c0) c1
        byte otherbits
    else
      .node a c0 (splice newnode key ubytes keylen newbyte newotherbits newdirection c1)
        byte otherbits

/-- Function `critbit_insert_impl`: the new tree and the returned key
(`none` is `NULL`). -/
def critbit_insert_impl (t : critbit_tree) (newnode : Nat) (key : critbit_key) (keylen : Nat)
    (keybuf : critbit_key → List Nat) : critbit_tree × Option critbit_key :=
  let ubytes := keybuf key
  match t.ct_root with
  | none => (critbit_node_free { t with ct_root := some (.key key) } newnode, none)
  | some p =>
    let pk := descend ubytes keylen p
    let pkey := keybuf pk
    match different_byte pkey ubytes 0 keylen with
    | none => (critbit_node_free t newnode, some pk)
    | some (newbyte, x) =>
      let newotherbits := msb_loop x ^^^ 255
      let newdirection := direction newotherbits (rd pkey newbyte)
      ({ t with ct_root := some (splice newnode key ubytes keylen newbyte newotherbits
          newdirection p) }, none)

/-- Outcome of the descent of `critbit_remove_impl` below one slot:
`mismatch` when the key reached differs from the probe; `hit k` when the slot
itself holds the matching key (so `whereq` is still the slot above);
`done r node k` when a node below the slot was unlinked: `r` is the new
content of the slot, `node` the node passed to `critbit_node_free`. -/
inductive remove_result where
  | mismatch
  | hit (k : critbit_key)
  | done (r : critbit_ref) (node : Nat) (k : critbit_key)
deriving DecidableEq, Repr

/-- Descent of `critbit_remove_impl` with the store `*whereq =
q->child[1 - direction]`. -/
def remove_below (ubytes : List Nat) (keylen : Nat)
    (keycmp : List Nat → List Nat → Nat → Int) (keybuf : critbit_key → List Nat) :
    critbit_ref → remove_result
  | .key k => if keycmp (keybuf k) ubytes keylen != 0 then .mismatch else .hit k
  | .node a c0 c1 byte otherbits =>
    if direction otherbits (probe_byte ubytes keylen byte) = 0 then
      match remove_below ubytes keylen keycmp keybuf c0 with
      | .mismatch => .mismatch
      | .hit k => .done c1 a k
      | .done r node k => .done (.node a r c1 byte otherbits) node k
    else
      match remove_below ubytes keylen keycmp keybuf c1 with
      | .mismatch => .mismatch
      | .hit k => .done c0 a k
      | .done r node k => .done (.node a c0 r byte otherbits) node k

/-- Function `critbit_remove_impl`. -/
def critbit_remove_impl (t : critbit_tree) (key : List Nat) (keylen : Nat)
    (keycmp : List Nat → List Nat → Nat → Int) (keybuf : critbit_key → List Nat) :
    critbit_tree × Option critbit_key :=
  match t.ct_root with
  | none => (t, none)
  | some p =>
    match remove_below key keylen keycmp keybuf p with
    | .mismatch => (t, none)
    | .hit k => ({ t with ct_root := none }, some k)
    | .done r node k => (critbit_node_free { t with ct_root := some r } node, some k)

/-! ## Entry points -/

/-- Function `critbit_buf_get`. -/
def critbit_buf_get (t : critbit_tree) (key : List Nat) : Option critbit_key :=
  critbit_get_impl t key (critbit_buf_keylen t) critbit_buf_keycmp critbit_buf_keybuf

/-- Function `critbit_buf_insert`. -/
def critbit_buf_insert (t : critbit_tree) (newnode : Nat) (key : critbit_key) :
    critbit_tree × Option critbit_key :=
  critbit_insert_impl t newnode key (critbit_buf_keylen t) critbit_buf_keybuf

/-- Function `critbit_buf_remove`. -/
def critbit_buf_remove (t : critbit_tree) (key : List Nat) : critbit_tree × Option critbit_key :=
  critbit_remove_impl t key (critbit_buf_keylen t) critbit_buf_keycmp critbit_buf_keybuf

/-- Function `critbit_str_get`. -/
def critbit_str_get (t : critbit_tree) (key : List Nat) : Option critbit_key :=
  critbit_get_impl t key (critbit_str_keylen key) critbit_str_keycmp critbit_str_keybuf

/-- Function `critbit_str_insert`. -/
def critbit_str_insert (t : critbit_tree) (newnode : Nat) (key : critbit_key) :
    critbit_tree × Option critbit_key :=
  critbit_insert_impl t newnode key (critbit_str_keylen key.mem) critbit_str_keybuf

/-- Function `critbit_str_remove`. -/
def critbit_str_remove (t : critbit_tree) (key : List Nat) : critbit_tree × Option critbit_key :=
  critbit_remove_impl t key (critbit_str_keylen key) critbit_str_keycmp critbit_str_keybuf

/-! ## Specification vocabulary -/

/-- Shape of `otherbits` in a node written by the insertion: all bits of a
byte set but one. -/
def IsMask (ob : Nat) : Prop := ∃ i, i < 8 ∧ ob = 255 ^^^ 2 ^ i

instance : DecidablePred IsMask := fun ob => by unfold IsMask; infer_instance

/-- Keys below a reference, child 0 before child 1. -/
def leaves : critbit_ref → List critbit_key
  | .key k => [k]
  | .node _ c0 c1 _ _ => leaves c0 ++ leaves c1

/-- Keys stored in a tree. -/
def keys (t : critbit_tree) : List critbit_key :=
  match t.ct_root with
  | none => []
  | some r => leaves r

/-- Two byte sequences cannot be told apart by any test that comes before
the test `(byte, ob)`: they are equal below `byte`, and at `byte` every more
significant bit has the same value in both. -/
def AgreeBefore (f g : Nat → Nat) (byte ob : Nat) : Prop :=
  (∀ i, i < byte → f i = g i) ∧
  ∀ m, m < ob → IsMask m → direction m (f byte) = direction m (g byte)

/-- Relation that a node `(byte, ob)` imposes on any two keys below it.
`view k` is the byte sequence of `k` as a probe sees it; `cl byte` says that
`byte` lies past the end of every key (only possible for buffers), where the
keys below the node are equal as probes. -/
def Sim (view : critbit_key → Nat → Nat) (cl : Nat → Prop) (byte ob : Nat)
    (k k' : critbit_key) : Prop :=
  (cl byte → view k = view k') ∧ (¬ cl byte → AgreeBefore (view k) (view k') byte ob)

/-- Invariant of a subtree: below every node the keys are related by `Sim`,
and when the node tests a byte inside the keys its mask is well-formed and
each key lies on the side its own bit selects. -/
def Good (view : critbit_key → Nat → Nat) (cl : Nat → Prop) : critbit_ref → Prop
  | .key _ => True
  | .node _ c0 c1 byte ob =>
    (∀ k ∈ leaves c0 ++ leaves c1, ∀ k' ∈ leaves c0 ++ leaves c1, Sim view cl byte ob k k') ∧
    (¬ cl byte → IsMask ob ∧ (∀ k ∈ leaves c0, direction ob (view k byte) = 0) ∧
      (∀ k ∈ leaves c1, direction ob (view k byte) = 1)) ∧
    Good view cl c0 ∧ Good view cl c1

/-- Lookup below one reference: the descent followed by the comparison. -/
def get_below (u : List Nat) (n : Nat) (keycmp : List Nat → List Nat → Nat → Int)
    (keybuf : critbit_key → List Nat) (r : critbit_ref) : Option critbit_key :=
  if keycmp (keybuf (descend u n r)) u n = 0 then some (descend u n r) else none

/-- Well-formed string: no zero byte, bytes below 256, length below `2 ^ 31`. -/
def IsStr (s : List Nat) : Prop := s.length < 2 ^ 31 ∧ ∀ b ∈ s, 0 < b ∧ b < 256

instance : DecidablePred IsStr := fun s => by unfold IsStr; infer_instance

/-- Well-formed storage of a buffer key of length `N`: at least `N` bytes,
all below 256.  Bytes after the first `N` belong to the caller. -/
def IsBuf (N : Nat) (s : List Nat) : Prop := N < 2 ^ 31 ∧ N ≤ s.length ∧ ∀ b ∈ s, b < 256

instance (N : Nat) : DecidablePred (IsBuf N) := fun s => by unfold IsBuf; infer_instance

/-- Byte sequence of a stored string as a probe sees it. -/
def str_view (k : critbit_key) : Nat → Nat := probe_byte k.mem (strlen k.mem)

/-- Byte sequence of a stored buffer as a probe sees it. -/
def buf_view (N : Nat) (k : critbit_key) : Nat → Nat := probe_byte k.mem N

/-- Invariant of a String-domain tree. -/
def StrInv (t : critbit_tree) : Prop :=
  (∀ r, t.ct_root = some r → Good str_view (fun _ => False) r) ∧
  (∀ k ∈ keys t, IsStr k.mem) ∧ ((keys t).map (fun k => k.mem)).Nodup

/-- Invariant of a Buffer-domain tree with key length `N`. -/
def BufInv (N : Nat) (t : critbit_tree) : Prop :=
  t.ct_keylen = N ∧ (∀ r, t.ct_root = some r → Good (buf_view N) (fun b => N ≤ b) r) ∧
  ∀ k ∈ keys t, IsBuf N k.mem

/-- One call made by the user of a tree. -/
inductive Op where
  | insert (newnode : Nat) (key : critbit_key)
  | remove (key : List Nat)
deriving DecidableEq, Repr

/-- Effect of one call on a String-domain tree. -/
def str_step (t : critbit_tree) : Op → critbit_tree
  | .insert newnode key => (critbit_str_insert t newnode key).1
  | .remove key => (critbit_str_remove t key).1

/-- Effect of a sequence of calls on a String-domain tree. -/
def str_run (t : critbit_tree) (ops : List Op) : critbit_tree := ops.foldl str_step t

/-- Calls whose keys are well-formed strings. -/
def StrOp : Op → Prop
  | .insert _ key => IsStr key.mem
  | .remove key => IsStr key

instance : DecidablePred StrOp
  | .insert _ key => inferInstanceAs (Decidable (IsStr key.mem))
  | .remove key => inferInstanceAs (Decidable (IsStr key))

/-- String-domain trees reachable from an empty tree by Insert and Remove. -/
def StrReachable (t : critbit_tree) : Prop :=
  ∃ self freearg keylen ops, (∀ op ∈ ops, StrOp op) ∧
    t = str_run (critbit_init self freearg keylen) ops

/-- Effect of one call on a Buffer-domain tree. -/
def buf_step (t : critbit_tree) : Op → critbit_tree
  | .insert newnode key => (critbit_buf_insert t newnode key).1
  | .remove key => (critbit_buf_remove t key).1

/-- Effect of a sequence of calls on a Buffer-domain tree. -/
def buf_run (t : critbit_tree) (ops : List Op) : critbit_tree := ops.foldl buf_step t

/-- Calls whose keys are well-formed buffers of length `N`. -/
def BufOp (N : Nat) : Op → Prop
  | .insert _ key => IsBuf N key.mem
  | .remove key => IsBuf N key

instance (N : Nat) : DecidablePred (BufOp N)
  | .insert _ key => inferInstanceAs (Decidable (IsBuf N key.mem))
  | .remove key => inferInstanceAs (Decidable (IsBuf N key))

/-- Buffer-domain trees of key length `N` reachable from an empty tree. -/
def BufReachable (N : Nat) (t : critbit_tree) : Prop :=
  ∃ self freearg ops, (∀ op ∈ ops, BufOp N op) ∧ t = buf_run (critbit_init self freearg N) ops

/-- Reference set of the String domain: the keys inserted and not removed
since.  An insertion of a string that is already there changes nothing. -/
def ref_step (s : List critbit_key) : Op → List critbit_key
  | .insert _ key => if s.any (fun k => decide (k.mem = key.mem)) then s else key :: s
  | .remove key => s.filter (fun k => decide (k.mem ≠ key))

/-- Reference set after a sequence of calls. -/
def ref_run (ops : List Op) : List critbit_key := ops.foldl ref_step []

/-- Lookup in the reference set. -/
def ref_lookup (s : List critbit_key) (p : List Nat) : Option critbit_key :=
  s.find? (fun k => decide (k.mem = p))

/-- Calls that insert the given (node, key) pairs in order. -/
def inserts (l : List (Nat × critbit_key)) : List Op := l.map (fun e => Op.insert e.1 e.2)

/-- Removal of the given strings in order, with the result of every call. -/
def str_removes (t : critbit_tree) : List (List Nat) → critbit_tree × List (Option critbit_key)
  | [] => (t, [])
  | p :: ps =>
    let r := critbit_str_remove t p
    let rest := str_removes r.1 ps
    (rest.1, r.2 :: rest.2)

/-- Insertion of the given (node, key) pairs into a Buffer-domain tree, with
the result of every call. -/
def buf_inserts (t : critbit_tree) : List (Nat × critbit_key) →
    critbit_tree × List (Option critbit_key)
  | [] => (t, [])
  | e :: es =>
    let r := critbit_buf_insert t e.1 e.2
    let rest := buf_inserts r.1 es
    (rest.1, r.2 :: rest.2)

/-- Insertion of the given (node, key) pairs into a String-domain tree, with
the result of every call. -/
def str_inserts (t : critbit_tree) : List (Nat × critbit_key) →
    critbit_tree × List (Option critbit_key)
  | [] => (t, [])
  | e :: es =>
    let r := critbit_str_insert t e.1 e.2
    let rest := str_inserts r.1 es
    (rest.1, r.2 :: rest.2)

/-- The tree stores the keys of the reference set `s`. -/
def Rep (t : critbit_tree) (s : List critbit_key) : Prop := StrInv t ∧ (keys t).Perm s

/-- The eight strings of the test program, `"a", "aa", "b", "bb", "ab",
"ba", "aba", "bab"`, each with a key reference and a node of its own. -/
def elems : List (Nat × critbit_key) :=
  [(11, ⟨100, [97]⟩), (13, ⟨102, [97, 97]⟩), (15, ⟨104, [98]⟩), (17, ⟨106, [98, 98]⟩),
   (19, ⟨108, [97, 98]⟩), (21, ⟨110, [98, 97]⟩), (23, ⟨112, [97, 98, 97]⟩),
   (25, ⟨114, [98, 97, 98]⟩)]

/-! ## Tagged pointers and further vocabulary -/

/-- Function `critbit_ref_is_internal`: `((intptr_t)ref) & 1`, on a 64-bit
address. -/
def critbit_ref_is_internal (ref : Nat) : Nat := ref &&& 1

/-- Function `critbit_ref_get_node`: `((uint8_t *)ref) - 1`. -/
def critbit_ref_get_node (ref : Nat) : Nat := (ref + 2 ^ 64 - 1) % 2 ^ 64

/-- Function `critbit_ref_set_node`: the value stored, `(uint8_t *)node + 1`. -/
def critbit_ref_set_node (node : Nat) : Nat := (node + 1) % 2 ^ 64

/-- Function `critbit_ref_set_key`: the value stored, the key pointer itself. -/
def critbit_ref_set_key (key : Nat) : Nat := key

/-- Function `critbit_ref_get_key`: the reference itself. -/
def critbit_ref_get_key (ref : Nat) : Nat := ref

/-- Addresses of the branch nodes below a reference. -/
def nodes : critbit_ref → List Nat
  | .key _ => []
  | .node a c0 c1 _ _ => a :: (nodes c0 ++ nodes c1)

/-- Addresses of the branch nodes linked in a tree. -/
def tree_nodes (t : critbit_tree) : List Nat :=
  match t.ct_root with
  | none => []
  | some r => nodes r

/-- A branch node at address `addr` with the given `byte` and `otherbits`
occurs below the reference. -/
def HasNode : critbit_ref → Nat → Nat → Nat → Prop
  | .key _, _, _, _ => False
  | .node a c0 c1 b ob, addr, byte, otherbits =>
    (a = addr ∧ b = byte ∧ ob = otherbits) ∨ HasNode c0 addr byte otherbits ∨
      HasNode c1 addr byte otherbits

/-- Calls of the release callback made by one insertion that started from
`t` and ended with `r`: one call on the supplied node when the tree was empty
or when a stored key is returned, no call otherwise. -/
def InsertRelease (t : critbit_tree) (newnode : Nat) (r : critbit_tree × Option critbit_key) :
    Prop :=
  (t.ct_root = none → r.2 = none ∧ r.1.calls = t.calls ++ [(t.self, newnode)]) ∧
  (t.ct_root ≠ none → r.2 = none → r.1.calls = t.calls) ∧
  (∀ K, r.2 = some K → r.1.calls = t.calls ++ [(t.self, newnode)] ∧ r.1.ct_root = t.ct_root)

/-- Calls of the release callback made by one removal that started from `t`
and ended with `r`: either no branch node left the tree and no call was made,
or exactly one branch node `f` left the tree and the one call made is on
`f`. -/
def RemoveRelease (t : critbit_tree) (r : critbit_tree × Option critbit_key) : Prop :=
  (tree_nodes r.1 = tree_nodes t ∧ r.1.calls = t.calls) ∨
  ∃ f, (tree_nodes t).Perm (f :: tree_nodes r.1) ∧ r.1.calls = t.calls ++ [(t.self, f)]

/-- Effect of a removal that returned a key: the tree loses exactly that
leaf; when the root was a leaf the tree becomes empty, no branch node exists
or is removed and the callback is not called; when the root was a branch node
exactly one branch node `f` is removed and released by one call. -/
def RemoveShrinks (t : critbit_tree) (r : critbit_tree × Option critbit_key) : Prop :=
  ∀ k, r.2 = some k →
    (keys t).Perm (k :: keys r.1) ∧ (keys r.1).length + 1 = (keys t).length ∧
    (∀ k0, t.ct_root = some (.key k0) →
      r.1.ct_root = none ∧ tree_nodes t = [] ∧ tree_nodes r.1 = [] ∧ r.1.calls = t.calls) ∧
    (∀ a c0 c1 b ob, t.ct_root = some (.node a c0 c1 b ob) →
      ∃ f, (tree_nodes t).Perm (f :: tree_nodes r.1) ∧
        (tree_nodes r.1).length + 1 = (tree_nodes t).length ∧
        r.1.calls = t.calls ++ [(t.self, f)])

/-- Pairs `(byte, otherbits)` of the branch nodes met along each path from
the reference down to a key, upper node first. -/
def paths : critbit_ref → List (List (Nat × Nat))
  | .key _ => [[]]
  | .node _ c0 c1 b ob => (paths c0 ++ paths c1).map (fun π => (b, ob) :: π)

/-- Root-to-leaf paths of a tree. -/
def tree_paths (t : critbit_tree) : List (List (Nat × Nat)) :=
  match t.ct_root with
  | none => []
  | some r => paths r

/-- Order of two successive tests `p` (upper) and `q` (deeper) that the
splice search keeps: the byte index ascends, and for equal byte index
`otherbits` increases. -/
def LexBefore (p q : Nat × Nat) : Prop := p.1 < q.1 ∨ (p.1 = q.1 ∧ p.2 < q.2)

instance (p q : Nat × Nat) : Decidable (LexBefore p q) := by unfold LexBefore; infer_instance

/-- The same order in terms of the discriminating bit `otherbits XOR 255`:
the byte index ascends, and for equal byte index the deeper test looks at
the less significant bit. -/
def TestBefore (p q : Nat × Nat) : Prop :=
  p.1 < q.1 ∨ (p.1 = q.1 ∧ q.2 ^^^ 255 < p.2 ^^^ 255)

instance (p q : Nat × Nat) : Decidable (TestBefore p q) := by unfold TestBefore; infer_instance

/-- The test `(byte, ob)` comes before the test at the root of the subtree,
when that root tests a byte inside the keys. -/
def Above (cl : Nat → Prop) (byte ob : Nat) : critbit_ref → Prop
  | .key _ => True
  | .node _ _ _ b2 ob2 => ¬ cl b2 → LexBefore (byte, ob) (b2, ob2)

/-- Every branch node comes before its child nodes. -/
def Ordered (cl : Nat → Prop) : critbit_ref → Prop
  | .key _ => True
  | .node _ c0 c1 b ob => Above cl b ob c0 ∧ Above cl b ob c1 ∧ Ordered cl c0 ∧ Ordered cl c1

/-- Content of the slot reached from `r` by the child indices in `path`
(`[]` is the slot that holds `r` itself). -/
def slot_at : critbit_ref → List Nat → Option critbit_ref
  | r, [] => some r
  | .key _, _ :: _ => none
  | .node _ c0 c1 _ _, i :: path => if i = 0 then slot_at c0 path else slot_at c1 path

/-- The structure `r` after the slot at `path` has been rewritten to `new`;
every other node and slot is kept. -/
def slot_set : critbit_ref → List Nat → critbit_ref → critbit_ref
  | _, [], new => new
  | .key k, _ :: _, _ => .key k
  | .node a c0 c1 b ob, i :: path, new =>
    if i = 0 then .node a (slot_set c0 path new) c1 b ob
    else .node a c0 (slot_set c1 path new) b ob

/-- Slot at which the `wherep` loop of the insertion stops, as the list of
child indices taken from the root. -/
def splice_slot (ubytes : List Nat) (keylen newbyte newotherbits : Nat) :
    critbit_ref → List Nat
  | .key _ => []
  | .node _ c0 c1 byte otherbits =>
    if byte > newbyte then []
    else if byte = newbyte ∧ otherbits > newotherbits then []
    else if direction otherbits (probe_byte ubytes keylen byte) = 0 then
      0 :: splice_slot ubytes keylen newbyte newotherbits c0
    else 1 :: splice_slot ubytes keylen newbyte newotherbits c1

/-! ## Vocabulary of the tree-wide invariants -/

/-- Lexicographic order of byte strings, bytes compared as unsigned numbers:
a proper prefix comes before its extensions, otherwise the first byte that
differs decides. -/
def str_lt (a b : List Nat) : Prop := List.Lex (fun x y => x < y) a b

instance (a b : List Nat) : Decidable (str_lt a b) := by unfold str_lt; infer_instance

/-- Nodes handed to Insert by a sequence of calls, in the order of the
calls. -/
def supplied (ops : List Op) : List Nat :=
  ops.filterMap (fun op => match op with
    | .insert newnode _ => some newnode
    | .remove _ => none)

/-- Nodes passed to the release callback so far, in the order of the calls. -/
def released (t : critbit_tree) : List Nat := t.calls.map Prod.snd

/-- Node conservation for the nodes `s` supplied so far: each of them is
either linked in the tree (once) and not released, or not linked and released
exactly once; and nothing else is linked or released. -/
def Conserved (s : List Nat) (t : critbit_tree) : Prop :=
  (∀ x ∈ s, ((tree_nodes t).count x = 1 ∧ (released t).count x = 0) ∨
    ((tree_nodes t).count x = 0 ∧ (released t).count x = 1)) ∧
  ∀ x, x ∈ tree_nodes t ∨ x ∈ released t → x ∈ s

/-! # Lemmas -/

/-! ## Bit-level facts -/

set_option maxRecDepth 100000 in
theorem direction_mask_aux :
    ∀ i, i < 8 → ∀ c, c < 256 → direction (255 ^^^ 2 ^ i) c = if c.testBit i then 1 else 0 := by
  decide

set_option maxRecDepth 100000 in
theorem msb_loop_aux :
    ∀ x, x < 256 → 0 < x → ∃ i, i < 8 ∧ msb_loop x = 2 ^ i ∧ x.testBit i = true ∧
      ∀ j, j < 8 → i < j → x.testBit j = false := by
  decide

theorem mask_lt_aux : ∀ i, i < 8 → ∀ j, j < 8 → (255 ^^^ 2 ^ j < 255 ^^^ 2 ^ i ↔ i < j) := by
  decide

theorem clear_low_bits_done (fuel x : Nat) (h : x ≤ fuel) :
    clear_low_bits fuel x &&& (clear_low_bits fuel x - 1) = 0 := by
  induction fuel generalizing x with
  | zero =>
    have : x = 0 := by omega
    subst this
    rfl
  | succ fuel ih =>
    simp only [clear_low_bits]
    by_cases hx : x &&& (x - 1) = 0
    · simp [hx]
    · have hne : (x &&& (x - 1) != 0) = true := by simpa using hx
      simp only [hne, if_true]
      apply ih
      have h1 : x &&& (x - 1) ≤ x - 1 := Nat.and_le_right
      have h2 : 0 < x := by
        rcases Nat.eq_zero_or_pos x with h0 | h0
        · subst h0; simp at hx
        · exact h0
      omega

/-- The fuel given to the loop is enough: the value returned satisfies the
exit condition of the `while`. -/
theorem msb_loop_done (x : Nat) : msb_loop x &&& (msb_loop x - 1) = 0 :=
  clear_low_bits_done x x (le_refl x)

theorem direction_le_one {ob c : Nat} (hob : IsMask ob) (hc : c < 256) : direction ob c ≤ 1 := by
  obtain ⟨i, hi, rfl⟩ := hob
  rw [direction_mask_aux i hi c hc]
  split <;> simp

/-- The critical bit computed at `different_byte_found` separates the two
bytes, and no more significant bit does. -/
theorem crit_bit_spec {a b : Nat} (ha : a < 256) (hb : b < 256) (hab : a ≠ b) :
    IsMask (msb_loop (a ^^^ b) ^^^ 255) ∧
    direction (msb_loop (a ^^^ b) ^^^ 255) a ≠ direction (msb_loop (a ^^^ b) ^^^ 255) b ∧
    ∀ m, m < msb_loop (a ^^^ b) ^^^ 255 → IsMask m → direction m a = direction m b := by
  have hx : a ^^^ b < 256 := @Nat.xor_lt_two_pow a b 8 ha hb
  have hx0 : 0 < a ^^^ b := by
    rcases Nat.eq_zero_or_pos (a ^^^ b) with h | h
    · exact absurd (Nat.xor_eq_zero.mp h) hab
    · exact h
  obtain ⟨i, hi, hm, hbit, hhigh⟩ := msb_loop_aux (a ^^^ b) hx hx0
  rw [hm, Nat.xor_comm (2 ^ i) 255]
  refine ⟨⟨i, hi, rfl⟩, ?_, ?_⟩
  · rw [direction_mask_aux i hi a ha, direction_mask_aux i hi b hb]
    rw [Nat.testBit_xor] at hbit
    cases h1 : a.testBit i <;> cases h2 : b.testBit i <;> simp_all
  · rintro m hlt ⟨j, hj, rfl⟩
    have hij : i < j := (mask_lt_aux i hi j hj).mp hlt
    have h := hhigh j hj hij
    rw [Nat.testBit_xor] at h
    rw [direction_mask_aux j hj a ha, direction_mask_aux j hj b hb]
    cases h1 : a.testBit j <;> cases h2 : b.testBit j <;> simp_all

/-! ## The trie invariant -/

theorem agree_refl (f : Nat → Nat) (byte ob : Nat) : AgreeBefore f f byte ob :=
  ⟨fun _ _ => rfl, fun _ _ _ => rfl⟩

theorem agree_symm {f g : Nat → Nat} {byte ob : Nat} (h : AgreeBefore f g byte ob) :
    AgreeBefore g f byte ob :=
  ⟨fun i hi => (h.1 i hi).symm, fun m hm hmask => (h.2 m hm hmask).symm⟩

theorem agree_trans {f g h : Nat → Nat} {byte ob : Nat} (h1 : AgreeBefore f g byte ob)
    (h2 : AgreeBefore g h byte ob) : AgreeBefore f h byte ob :=
  ⟨fun i hi => (h1.1 i hi).trans (h2.1 i hi),
   fun m hm hmask => (h1.2 m hm hmask).trans (h2.2 m hm hmask)⟩

/-- Agreement before a test implies agreement before any earlier test. -/
theorem agree_mono {f g : Nat → Nat} {byte ob byte2 ob2 : Nat}
    (h : AgreeBefore f g byte ob) (hle : byte2 < byte ∨ (byte2 = byte ∧ ob2 ≤ ob)) :
    AgreeBefore f g byte2 ob2 := by
  rcases hle with hlt | ⟨rfl, hob⟩
  · refine ⟨fun i hi => h.1 i (by omega), fun m _ _ => ?_⟩
    rw [h.1 byte2 hlt]
  · exact ⟨h.1, fun m hm hmask => h.2 m (by omega) hmask⟩

theorem sim_refl (view : critbit_key → Nat → Nat) (cl : Nat → Prop) (byte ob : Nat)
    (k : critbit_key) : Sim view cl byte ob k k :=
  ⟨fun _ => rfl, fun _ => agree_refl _ _ _⟩

theorem sim_symm {view : critbit_key → Nat → Nat} {cl : Nat → Prop} {byte ob : Nat}
    {k k' : critbit_key} (h : Sim view cl byte ob k k') : Sim view cl byte ob k' k :=
  ⟨fun hc => (h.1 hc).symm, fun hc => agree_symm (h.2 hc)⟩

theorem sim_trans {view : critbit_key → Nat → Nat} {cl : Nat → Prop} {byte ob : Nat}
    {k1 k2 k3 : critbit_key} (h1 : Sim view cl byte ob k1 k2) (h2 : Sim view cl byte ob k2 k3) :
    Sim view cl byte ob k1 k3 :=
  ⟨fun hc => (h1.1 hc).trans (h2.1 hc), fun hc => agree_trans (h1.2 hc) (h2.2 hc)⟩

/-- Relation `Sim` at a test carries over to any earlier test. -/
theorem sim_mono {view : critbit_key → Nat → Nat} {cl : Nat → Prop}
    (hup : ∀ a b, cl a → a ≤ b → cl b) {byte ob byte2 ob2 : Nat} {k k' : critbit_key}
    (h : Sim view cl byte ob k k') (hle : byte2 < byte ∨ (byte2 = byte ∧ ob2 ≤ ob)) :
    Sim view cl byte2 ob2 k k' := by
  have hb : byte2 ≤ byte := by rcases hle with h | ⟨h, _⟩ <;> omega
  refine ⟨fun hc => h.1 (hup _ _ hc hb), fun hc => ?_⟩
  by_cases hcb : cl byte
  · rw [h.1 hcb]; exact agree_refl _ _ _
  · exact agree_mono (h.2 hcb) hle

/-- Two keys related at a later test take the same direction at an earlier
one. -/
theorem sim_direction_eq {view : critbit_key → Nat → Nat} {cl : Nat → Prop}
    {byte ob byte2 ob2 : Nat} {k k' : critbit_key}
    (h : Sim view cl byte ob k k') (hlt : byte2 < byte ∨ (byte2 = byte ∧ ob2 < ob))
    (hmask : IsMask ob2) : direction ob2 (view k byte2) = direction ob2 (view k' byte2) := by
  by_cases hcb : cl byte
  · rw [h.1 hcb]
  · rcases hlt with hlt | ⟨rfl, hob⟩
    · rw [(h.2 hcb).1 byte2 hlt]
    · exact (h.2 hcb).2 ob2 hob hmask

theorem descend_mem (u : List Nat) (n : Nat) (r : critbit_ref) : descend u n r ∈ leaves r := by
  induction r with
  | key k => simp [descend, leaves]
  | node a c0 c1 byte ob ih0 ih1 =>
    simp only [descend, leaves, List.mem_append]
    split
    · exact Or.inl ih0
    · exact Or.inr ih1

/-- A probe that looks like a stored key reaches a key that looks like the
probe. -/
theorem descend_view {view : critbit_key → Nat → Nat} {cl : Nat → Prop} (u : List Nat) (n : Nat)
    (r : critbit_ref) (hg : Good view cl r) (K : critbit_key) (hK : K ∈ leaves r)
    (hv : view K = probe_byte u n) : view (descend u n r) = probe_byte u n := by
  induction r with
  | key k =>
    simp only [leaves, List.mem_singleton] at hK
    subst hK
    simp only [descend]
    exact hv
  | node a c0 c1 byte ob ih0 ih1 =>
    obtain ⟨hsim, hdir, hg0, hg1⟩ := hg
    by_cases hcb : cl byte
    · have h := (hsim _ (descend_mem u n (.node a c0 c1 byte ob)) K hK).1 hcb
      rw [h, hv]
    · obtain ⟨_, hd0, hd1⟩ := hdir hcb
      simp only [leaves, List.mem_append] at hK
      simp only [descend]
      split
      · rename_i hd
        rcases hK with hK | hK
        · exact ih0 hg0 hK
        · have := hd1 K hK
          rw [hv] at this
          omega
      · rename_i hd
        rcases hK with hK | hK
        · have := hd0 K hK
          rw [hv] at this
          omega
        · exact ih1 hg1 hK

theorem leaves_attach (newnode : Nat) (X : critbit_key) (d ob nd : Nat) (old : critbit_ref) :
    (leaves (attach newnode X d ob nd old)).Perm (X :: leaves old) := by
  unfold attach
  split
  · simp [leaves]
  · simp [leaves]

theorem good_attach {view : critbit_key → Nat → Nat} {cl : Nat → Prop} (newnode : Nat)
    (X : critbit_key) (d ob nd : Nat) (old : critbit_ref) (L : critbit_key)
    (hg : Good view cl old)
    (hall : ∀ k ∈ leaves old, Sim view cl d ob k L)
    (hdirs : ¬ cl d → ∀ k ∈ leaves old, direction ob (view k d) = direction ob (view L d))
    (hsim : Sim view cl d ob L X)
    (hdir : ¬ cl d → IsMask ob ∧ direction ob (view L d) = nd ∧
      direction ob (view X d) = 1 - nd ∧ nd ≤ 1) :
    Good view cl (attach newnode X d ob nd old) := by
  have hrel : ∀ k, k ∈ leaves old ∨ k = X → Sim view cl d ob k L := by
    rintro k (hk | rfl)
    · exact hall k hk
    · exact sim_symm hsim
  unfold attach
  split
  · rename_i hnd
    refine ⟨?_, ?_, hg, trivial⟩
    · intro k hk k' hk'
      simp only [leaves, List.mem_append, List.mem_singleton] at hk hk'
      exact sim_trans (hrel k hk) (sim_symm (hrel k' hk'))
    · intro hc
      obtain ⟨hm, hdL, hdX, _⟩ := hdir hc
      refine ⟨hm, fun k hk => ?_, fun k hk => ?_⟩
      · rw [hdirs hc k hk, hdL, hnd]
      · simp only [leaves, List.mem_singleton] at hk
        subst hk
        rw [hdX, hnd]
  · rename_i hnd
    refine ⟨?_, ?_, trivial, hg⟩
    · intro k hk k' hk'
      simp only [leaves, List.mem_append, List.mem_singleton] at hk hk'
      exact sim_trans (hrel k hk.symm) (sim_symm (hrel k' hk'.symm))
    · intro hc
      obtain ⟨hm, hdL, hdX, hle⟩ := hdir hc
      have h1 : nd = 1 := by omega
      refine ⟨hm, fun k hk => ?_, fun k hk => ?_⟩
      · simp only [leaves, List.mem_singleton] at hk
        subst hk
        rw [hdX, h1]
      · rw [hdirs hc k hk, hdL, h1]

/-- The splice keeps the invariant and adds exactly the new key.  `d`, `ob`
and `nd` are `newbyte`, `newotherbits` and `newdirection`; the key reached
by the first descent and the new key are related at `(d, ob)` and, when `d`
lies inside the keys, take opposite directions there. -/
theorem splice_spec {view : critbit_key → Nat → Nat} {cl : Nat → Prop}
    (hup : ∀ a b, cl a → a ≤ b → cl b) (newnode : Nat) (X : critbit_key) (u : List Nat)
    (n d ob nd : Nat) (hX : probe_byte u n = view X) (hXb : ∀ i, view X i < 256)
    (r : critbit_ref) (hg : Good view cl r)
    (hsim : Sim view cl d ob (descend u n r) X)
    (hdir : ¬ cl d → IsMask ob ∧ direction ob (view (descend u n r) d) = nd ∧
      direction ob (view X d) = 1 - nd ∧ nd ≤ 1) :
    Good view cl (splice newnode X u n d ob nd r) ∧
    (leaves (splice newnode X u n d ob nd r)).Perm (X :: leaves r) := by
  induction r with
  | key k =>
    simp only [splice]
    refine ⟨good_attach newnode X d ob nd (.key k) k trivial ?_ ?_ hsim hdir, leaves_attach _ _ _ _ _ _⟩
    · intro k' hk'
      simp only [leaves, List.mem_singleton] at hk'
      subst hk'
      exact sim_refl _ _ _ _ _
    · intro _ k' hk'
      simp only [leaves, List.mem_singleton] at hk'
      subst hk'
      rfl
  | node a c0 c1 byte obq ih0 ih1 =>
    have hLmem := descend_mem u n (.node a c0 c1 byte obq)
    obtain ⟨hsimall, hdirq, hg0, hg1⟩ := id hg
    have hstop : (d < byte ∨ (d = byte ∧ ob < obq)) →
        Good view cl (attach newnode X d ob nd (.node a c0 c1 byte obq)) := by
      intro hlt
      refine good_attach newnode X d ob nd _ (descend u n (.node a c0 c1 byte obq)) hg ?_ ?_
        hsim hdir
      · intro k hk
        refine sim_mono hup (hsimall k hk _ hLmem) ?_
        rcases hlt with h | ⟨h1, h2⟩
        · exact Or.inl h
        · exact Or.inr ⟨h1, by omega⟩
      · intro hc k hk
        exact sim_direction_eq (hsimall k hk _ hLmem) hlt (hdir hc).1
    simp only [splice]
    split
    · rename_i h1
      exact ⟨hstop (Or.inl h1), leaves_attach _ _ _ _ _ _⟩
    · rename_i h1
      split
      · rename_i h2
        exact ⟨hstop (Or.inr ⟨h2.1.symm, h2.2⟩), leaves_attach _ _ _ _ _ _⟩
      · rename_i h2
        have hle : byte < d ∨ (byte = d ∧ obq ≤ ob) := by
          by_cases h3 : byte = d
          · right
            refine ⟨h3, ?_⟩
            by_contra h4
            exact h2 ⟨h3, by omega⟩
          · left; omega
        have hXL : Sim view cl byte obq X (descend u n (.node a c0 c1 byte obq)) :=
          sim_symm (sim_mono hup hsim hle)
        have hrel : ∀ k, (k = X ∨ k ∈ leaves c0 ++ leaves c1) →
            Sim view cl byte obq k (descend u n (.node a c0 c1 byte obq)) := by
          rintro k (rfl | hk)
          · exact hXL
          · exact hsimall k hk _ hLmem
        split
        · rename_i hd
          have hdesc : descend u n (.node a c0 c1 byte obq) = descend u n c0 := by
            simp [descend, hd]
          rw [hdesc] at hsim hdir
          obtain ⟨ihg, ihp⟩ := ih0 hg0 hsim hdir
          have hmem : ∀ k, k ∈ leaves (splice newnode X u n d ob nd c0) ↔ k = X ∨ k ∈ leaves c0 := by
            intro k
            rw [ihp.mem_iff, List.mem_cons]
          refine ⟨⟨?_, ?_, ihg, hg1⟩, ?_⟩
          · intro k hk k' hk'
            rw [List.mem_append, hmem] at hk hk'
            refine sim_trans (hrel k ?_) (sim_symm (hrel k' ?_))
            · rcases hk with (h | h) | h
              · exact Or.inl h
              · exact Or.inr (List.mem_append_left _ h)
              · exact Or.inr (List.mem_append_right _ h)
            · rcases hk' with (h | h) | h
              · exact Or.inl h
              · exact Or.inr (List.mem_append_left _ h)
              · exact Or.inr (List.mem_append_right _ h)
          · intro hc
            obtain ⟨hm, hd0, hd1⟩ := hdirq hc
            refine ⟨hm, fun k hk => ?_, hd1⟩
            rcases (hmem k).mp hk with rfl | hk
            · rw [← hX]; exact hd
            · exact hd0 k hk
          · simp only [leaves]
            exact (ihp.append_right _).trans (by simp)
        · rename_i hd
          have hdesc : descend u n (.node a c0 c1 byte obq) = descend u n c1 := by
            simp [descend, hd]
          rw [hdesc] at hsim hdir
          obtain ⟨ihg, ihp⟩ := ih1 hg1 hsim hdir
          have hmem : ∀ k, k ∈ leaves (splice newnode X u n d ob nd c1) ↔ k = X ∨ k ∈ leaves c1 := by
            intro k
            rw [ihp.mem_iff, List.mem_cons]
          refine ⟨⟨?_, ?_, hg0, ihg⟩, ?_⟩
          · intro k hk k' hk'
            rw [List.mem_append, hmem] at hk hk'
            refine sim_trans (hrel k ?_) (sim_symm (hrel k' ?_))
            · rcases hk with h | h | h
              · exact Or.inr (List.mem_append_left _ h)
              · exact Or.inl h
              · exact Or.inr (List.mem_append_right _ h)
            · rcases hk' with h | h | h
              · exact Or.inr (List.mem_append_left _ h)
              · exact Or.inl h
              · exact Or.inr (List.mem_append_right _ h)
          · intro hc
            obtain ⟨hm, hd0, hd1⟩ := hdirq hc
            refine ⟨hm, hd0, fun k hk => ?_⟩
            rcases (hmem k).mp hk with rfl | hk
            · have hle1 := direction_le_one hm (hXb byte)
              rw [← hX] at hle1 ⊢
              omega
            · exact hd1 k hk
          · simp only [leaves]
            exact (ihp.append_left _).trans List.perm_middle

theorem good_node_subset {view : critbit_key → Nat → Nat} {cl : Nat → Prop}
    {a byte ob : Nat} {c0 c1 d0 d1 : critbit_ref} (hg : Good view cl (.node a c0 c1 byte ob))
    (h0 : ∀ k ∈ leaves d0, k ∈ leaves c0) (h1 : ∀ k ∈ leaves d1, k ∈ leaves c1)
    (hg0 : Good view cl d0) (hg1 : Good view cl d1) : Good view cl (.node a d0 d1 byte ob) := by
  obtain ⟨hsim, hdir, _, _⟩ := hg
  have hsub : ∀ k ∈ leaves d0 ++ leaves d1, k ∈ leaves c0 ++ leaves c1 := by
    intro k hk
    rcases List.mem_append.mp hk with h | h
    · exact List.mem_append_left _ (h0 k h)
    · exact List.mem_append_right _ (h1 k h)
  refine ⟨fun k hk k' hk' => hsim k (hsub k hk) k' (hsub k' hk'), fun hc => ?_, hg0, hg1⟩
  obtain ⟨hm, hd0, hd1⟩ := hdir hc
  exact ⟨hm, fun k hk => hd0 k (h0 k hk), fun k hk => hd1 k (h1 k hk)⟩

/-- What the descent of the removal returns, case by case. -/
theorem remove_below_spec (u : List Nat) (n : Nat) (keycmp : List Nat → List Nat → Nat → Int)
    (keybuf : critbit_key → List Nat) (r : critbit_ref) :
    (remove_below u n keycmp keybuf r = .mismatch → keycmp (keybuf (descend u n r)) u n ≠ 0) ∧
    (∀ k, remove_below u n keycmp keybuf r = .hit k → r = .key k ∧ keycmp (keybuf k) u n = 0) ∧
    (∀ r2 f k, remove_below u n keycmp keybuf r = .done r2 f k →
        k = descend u n r ∧ keycmp (keybuf k) u n = 0 ∧
        (leaves r).Perm (k :: leaves r2) ∧
        ∀ (view : critbit_key → Nat → Nat) (cl : Nat → Prop), Good view cl r → Good view cl r2) := by
  induction r with
  | key k =>
    simp only [remove_below, descend]
    by_cases hc : keycmp (keybuf k) u n = 0
    · simp [hc]
    · simp [hc]
  | node a c0 c1 byte ob ih0 ih1 =>
    obtain ⟨im0, ih0h, id0⟩ := ih0
    obtain ⟨im1, ih1h, id1⟩ := ih1
    by_cases hd : direction ob (probe_byte u n byte) = 0
    · simp only [remove_below, descend, hd, if_true]
      cases h : remove_below u n keycmp keybuf c0 with
      | mismatch => simpa using im0 h
      | hit k0 =>
        obtain ⟨rfl, hc⟩ := ih0h k0 h
        simp only [false_implies, reduceCtorEq, implies_true, true_and,
          remove_result.done.injEq]
        rintro r2 f k ⟨rfl, rfl, rfl⟩
        refine ⟨by simp [descend], hc, by simp [leaves], ?_⟩
        intro view cl hg
        exact hg.2.2.2
      | done r0 f0 k0 =>
        obtain ⟨hk, hc, hp, hgood⟩ := id0 r0 f0 k0 h
        simp only [false_implies, reduceCtorEq, implies_true, true_and,
          remove_result.done.injEq]
        rintro r2 f k ⟨rfl, rfl, rfl⟩
        refine ⟨hk, hc, ?_, ?_⟩
        · simp only [leaves]
          exact (hp.append_right _).trans (by simp)
        · intro view cl hg
          refine good_node_subset hg (fun k2 hk2 => ?_) (fun _ h => h) (hgood view cl hg.2.2.1)
            hg.2.2.2
          exact hp.mem_iff.mpr (List.mem_cons_of_mem _ hk2)
    · simp only [remove_below, descend, hd, if_false]
      cases h : remove_below u n keycmp keybuf c1 with
      | mismatch => simpa using im1 h
      | hit k0 =>
        obtain ⟨rfl, hc⟩ := ih1h k0 h
        simp only [false_implies, reduceCtorEq, implies_true, true_and,
          remove_result.done.injEq]
        rintro r2 f k ⟨rfl, rfl, rfl⟩
        refine ⟨by simp [descend], hc, ?_, ?_⟩
        · simp [leaves]
        · intro view cl hg
          exact hg.2.2.1
      | done r0 f0 k0 =>
        obtain ⟨hk, hc, hp, hgood⟩ := id1 r0 f0 k0 h
        simp only [false_implies, reduceCtorEq, implies_true, true_and,
          remove_result.done.injEq]
        rintro r2 f k ⟨rfl, rfl, rfl⟩
        refine ⟨hk, hc, ?_, ?_⟩
        · simp only [leaves]
          exact (hp.append_left _).trans List.perm_middle
        · intro view cl hg
          refine good_node_subset hg (fun _ h => h) (fun k2 hk2 => ?_) hg.2.2.1
            (hgood view cl hg.2.2.2)
          exact hp.mem_iff.mpr (List.mem_cons_of_mem _ hk2)

/-- Removing one key does not change the lookup of a probe that looks
different from the removed one. -/
theorem remove_below_frame {view : critbit_key → Nat → Nat} {cl : Nat → Prop}
    (u : List Nat) (n : Nat) (u2 : List Nat) (n2 : Nat)
    (keycmp : List Nat → List Nat → Nat → Int) (keybuf : critbit_key → List Nat)
    (hne : probe_byte u n ≠ probe_byte u2 n2)
    (r : critbit_ref) (hg : Good view cl r)
    (hcmp : ∀ k ∈ leaves r, keycmp (keybuf k) u n = 0 → view k = probe_byte u n)
    (hcmp2 : ∀ k ∈ leaves r, keycmp (keybuf k) u2 n2 = 0 → view k = probe_byte u2 n2)
    (r2 : critbit_ref) (f : Nat) (k : critbit_key)
    (h : remove_below u n keycmp keybuf r = .done r2 f k) :
    get_below u2 n2 keycmp keybuf r2 = get_below u2 n2 keycmp keybuf r := by
  induction r generalizing r2 f k with
  | key k0 =>
    simp only [remove_below] at h
    split at h <;> simp at h
  | node a c0 c1 byte ob ih0 ih1 =>
    obtain ⟨hsim, hdir, hg0, hg1⟩ := hg
    have hcmp0 : ∀ k ∈ leaves c0, keycmp (keybuf k) u n = 0 → view k = probe_byte u n :=
      fun k hk => hcmp k (by simp [leaves, hk])
    have hcmp1 : ∀ k ∈ leaves c1, keycmp (keybuf k) u n = 0 → view k = probe_byte u n :=
      fun k hk => hcmp k (by simp [leaves, hk])
    have hcmp20 : ∀ k ∈ leaves c0, keycmp (keybuf k) u2 n2 = 0 → view k = probe_byte u2 n2 :=
      fun k hk => hcmp2 k (by simp [leaves, hk])
    have hcmp21 : ∀ k ∈ leaves c1, keycmp (keybuf k) u2 n2 = 0 → view k = probe_byte u2 n2 :=
      fun k hk => hcmp2 k (by simp [leaves, hk])
    simp only [remove_below] at h
    split at h
    · rename_i hd
      have hs := (remove_below_spec u n keycmp keybuf c0).2.1
      cases hrb : remove_below u n keycmp keybuf c0 with
      | mismatch => simp [hrb] at h
      | hit k0 =>
        rw [hrb] at h
        obtain ⟨rfl, hc⟩ := hs k0 hrb
        simp only [remove_result.done.injEq] at h
        obtain ⟨rfl, rfl, rfl⟩ := h
        have hvk : view k0 = probe_byte u n := hcmp0 k0 (by simp [leaves]) hc
        unfold get_below
        simp only [descend]
        by_cases hd2 : direction ob (probe_byte u2 n2 byte) = 0
        · simp only [hd2, if_true]
          have hW := descend_mem u2 n2 c1
          have h1 : keycmp (keybuf k0) u2 n2 ≠ 0 := by
            intro h0
            exact hne (hvk.symm.trans (hcmp20 k0 (by simp [leaves]) h0))
          have h2 : keycmp (keybuf (descend u2 n2 c1)) u2 n2 ≠ 0 := by
            intro h0
            have hv := hcmp21 _ hW h0
            by_cases hc : cl byte
            · have := (hsim (descend u2 n2 c1) (List.mem_append_right _ hW) k0
                (by simp [leaves])).1 hc
              exact hne (hvk.symm.trans (this.symm.trans hv))
            · have := (hdir hc).2.2 _ hW
              rw [hv] at this
              omega
          simp [h1, h2]
        · simp [hd2]
      | done r0 f0 k0 =>
        rw [hrb] at h
        simp only [remove_result.done.injEq] at h
        obtain ⟨rfl, rfl, rfl⟩ := h
        have ih := ih0 hg0 hcmp0 hcmp20 r0 f0 k0 hrb
        unfold get_below at ih ⊢
        simp only [descend]
        split
        · exact ih
        · rfl
    · rename_i hd
      have hs := (remove_below_spec u n keycmp keybuf c1).2.1
      cases hrb : remove_below u n keycmp keybuf c1 with
      | mismatch => simp [hrb] at h
      | hit k0 =>
        rw [hrb] at h
        obtain ⟨rfl, hc⟩ := hs k0 hrb
        simp only [remove_result.done.injEq] at h
        obtain ⟨rfl, rfl, rfl⟩ := h
        have hvk : view k0 = probe_byte u n := hcmp1 k0 (by simp [leaves]) hc
        unfold get_below
        simp only [descend]
        by_cases hd2 : direction ob (probe_byte u2 n2 byte) = 0
        · simp [hd2]
        · simp only [hd2, if_false]
          have hW := descend_mem u2 n2 c0
          have h1 : keycmp (keybuf k0) u2 n2 ≠ 0 := by
            intro h0
            exact hne (hvk.symm.trans (hcmp21 k0 (by simp [leaves]) h0))
          have h2 : keycmp (keybuf (descend u2 n2 c0)) u2 n2 ≠ 0 := by
            intro h0
            have hv := hcmp20 _ hW h0
            by_cases hc : cl byte
            · have := (hsim (descend u2 n2 c0) (List.mem_append_left _ hW) k0
                (by simp [leaves])).1 hc
              exact hne (hvk.symm.trans (this.symm.trans hv))
            · have := (hdir hc).2.1 _ hW
              rw [hv] at this
              omega
          simp [h1, h2]
      | done r0 f0 k0 =>
        rw [hrb] at h
        simp only [remove_result.done.injEq] at h
        obtain ⟨rfl, rfl, rfl⟩ := h
        have ih := ih1 hg1 hcmp1 hcmp21 r0 f0 k0 hrb
        unfold get_below at ih ⊢
        simp only [descend]
        split
        · rfl
        · exact ih

theorem strlen_eq_length {s : List Nat} (h : IsStr s) : strlen s = s.length := by
  unfold strlen
  rw [List.takeWhile_eq_self_iff.mpr]
  intro b hb
  have := (h.2 b hb).1
  simp; omega

theorem rd_of_lt {s : List Nat} {i : Nat} (h : i < s.length) : rd s i = s[i] := by
  unfold rd
  exact List.getD_eq_getElem _ _ h

theorem rd_of_le {s : List Nat} {i : Nat} (h : s.length ≤ i) : rd s i = 0 := by
  unfold rd
  exact List.getD_eq_default _ _ h

theorem rd_lt_of_bytes {s : List Nat} (h : ∀ b ∈ s, b < 256) (i : Nat) : rd s i < 256 := by
  by_cases hi : i < s.length
  · rw [rd_of_lt hi]; exact h _ (List.getElem_mem _)
  · rw [rd_of_le (by omega)]; omega

theorem rd_pos_iff {s : List Nat} (h : IsStr s) (i : Nat) : rd s i ≠ 0 ↔ i < s.length := by
  by_cases hi : i < s.length
  · rw [rd_of_lt hi]
    have := (h.2 _ (List.getElem_mem hi)).1
    simp [hi]; omega
  · rw [rd_of_le (by omega)]; simp [hi]

theorem probe_byte_str {s : List Nat} (h : IsStr s) (i : Nat) :
    probe_byte s (strlen s) i = rd s i := by
  unfold probe_byte
  rw [strlen_eq_length h]
  split
  · rfl
  · rw [rd_of_le (by omega)]

theorem str_ext {a b : List Nat} (ha : IsStr a) (hb : IsStr b) (h : ∀ i, rd a i = rd b i) :
    a = b := by
  have hl : a.length = b.length := by
    have h1 := rd_pos_iff ha
    have h2 := rd_pos_iff hb
    rcases Nat.lt_trichotomy a.length b.length with hlt | heq | hgt
    · have := (h2 a.length).mpr hlt
      rw [← h] at this
      have := (h1 a.length).mp this
      omega
    · exact heq
    · have := (h1 b.length).mpr hgt
      rw [h] at this
      have := (h2 b.length).mp this
      omega
  apply List.ext_getElem hl
  intro n h1 h2
  have := h n
  rwa [rd_of_lt h1, rd_of_lt h2] at this

theorem str_view_eq_iff {a b : critbit_key} (ha : IsStr a.mem) (hb : IsStr b.mem) :
    str_view a = str_view b ↔ a.mem = b.mem := by
  constructor
  · intro h
    apply str_ext ha hb
    intro i
    have := congrFun h i
    simpa only [str_view, probe_byte_str ha, probe_byte_str hb] using this
  · intro h
    unfold str_view
    rw [h]

theorem memcmp_from_eq_zero (a b : List Nat) (i n : Nat) :
    memcmp_from a b i n = 0 ↔ ∀ j, i ≤ j → j < i + n → rd a j = rd b j := by
  induction n generalizing i with
  | zero => simp [memcmp_from]; intro j h1 h2; omega
  | succ n ih =>
    simp only [memcmp_from]
    by_cases h : rd a i = rd b i
    · simp only [h, bne_self_eq_false, Bool.false_eq_true, if_false]
      rw [ih]
      constructor
      · intro hh j h1 h2
        by_cases hj : j = i
        · subst hj; exact h
        · exact hh j (by omega) (by omega)
      · intro hh j h1 h2
        exact hh j (by omega) (by omega)
    · have hne : (rd a i != rd b i) = true := by simpa using h
      simp only [hne, if_true]
      constructor
      · intro hh
        exfalso
        apply h
        omega
      · intro hh
        exact absurd (hh i (le_refl _) (by omega)) h

theorem memcmp_eq_zero (a b : List Nat) (n : Nat) :
    memcmp a b n = 0 ↔ ∀ j, j < n → rd a j = rd b j := by
  unfold memcmp
  rw [memcmp_from_eq_zero]
  constructor
  · intro h j hj; exact h j (Nat.zero_le _) (by omega)
  · intro h j _ hj; exact h j (by omega)

theorem str_keycmp_eq_zero {a b : List Nat} (ha : IsStr a) (hb : IsStr b) :
    critbit_str_keycmp a b (strlen b) = 0 ↔ a = b := by
  unfold critbit_str_keycmp
  simp only [strlen_eq_length ha, strlen_eq_length hb]
  constructor
  · intro h
    by_cases hl : a.length = b.length
    · simp only [hl, sub_self, bne_self_eq_false, Bool.false_eq_true, if_false] at h
      rw [memcmp_eq_zero] at h
      apply str_ext ha hb
      intro i
      by_cases hi : i < b.length
      · exact h i hi
      · rw [rd_of_le (by omega), rd_of_le (by omega)]
    · have hne : ((a.length : Int) - (b.length : Int) != 0) = true := by
        simp; omega
      simp only [hne, if_true] at h
      omega
  · rintro rfl
    simp only [sub_self, bne_self_eq_false, Bool.false_eq_true, if_false]
    rw [memcmp_eq_zero]
    intro j _; rfl

theorem different_byte_spec (a b : List Nat) (i n : Nat) :
    (different_byte a b i n = none →
      (∀ j, i ≤ j → j < i + n → rd a j = rd b j) ∧ rd a (i + n) = 0) ∧
    (∀ d x, different_byte a b i n = some (d, x) →
      i ≤ d ∧ (∀ j, i ≤ j → j < d → rd a j = rd b j) ∧
      ((d < i + n ∧ rd a d ≠ rd b d ∧ x = rd a d ^^^ rd b d) ∨
       (d = i + n ∧ rd a d ≠ 0 ∧ x = rd a d))) := by
  induction n generalizing i with
  | zero =>
    simp only [different_byte]
    by_cases h : rd a i = 0
    · simp [h]; intro j h1 h2; omega
    · have hne : (rd a i != 0) = true := by simpa using h
      simp only [hne, if_true, reduceCtorEq, false_implies, true_and, Option.some.injEq,
        Prod.mk.injEq]
      rintro d x ⟨rfl, rfl⟩
      refine ⟨le_refl _, fun j h1 h2 => by omega, Or.inr ⟨rfl, h, rfl⟩⟩
  | succ n ih =>
    simp only [different_byte]
    by_cases h : rd a i = rd b i
    · simp only [h, bne_self_eq_false, Bool.false_eq_true, if_false]
      obtain ⟨ih1, ih2⟩ := ih (i + 1)
      constructor
      · intro hn
        obtain ⟨h1, h2⟩ := ih1 hn
        refine ⟨fun j hj1 hj2 => ?_, by rw [← h2]; congr 1; omega⟩
        by_cases hj : j = i
        · subst hj; exact h
        · exact h1 j (by omega) (by omega)
      · intro d x hs
        obtain ⟨h1, h2, h3⟩ := ih2 d x hs
        refine ⟨by omega, fun j hj1 hj2 => ?_, ?_⟩
        · by_cases hj : j = i
          · subst hj; exact h
          · exact h2 j (by omega) hj2
        · rcases h3 with ⟨h4, h5⟩ | ⟨h4, h5⟩
          · exact Or.inl ⟨by omega, h5⟩
          · exact Or.inr ⟨by omega, h5⟩
    · have hne : (rd a i != rd b i) = true := by simpa using h
      simp only [hne, if_true, reduceCtorEq, false_implies, true_and, Option.some.injEq,
        Prod.mk.injEq]
      rintro d x ⟨rfl, rfl⟩
      exact ⟨le_refl _, fun j h1 h2 => by omega, Or.inl ⟨by omega, h, rfl⟩⟩

theorem leaves_ne_nil (r : critbit_ref) : leaves r ≠ [] := by
  cases r with
  | key k => simp [leaves]
  | node a c0 c1 byte ob =>
    intro h
    have := descend_mem [] 0 (.node a c0 c1 byte ob)
    rw [h] at this
    simp at this

theorem keys_eq_nil_iff (t : critbit_tree) : keys t = [] ↔ t.ct_root = none := by
  unfold keys
  cases h : t.ct_root with
  | none => simp
  | some r => simp [leaves_ne_nil]

theorem mem_unique {l : List critbit_key} (hn : (l.map (fun k => k.mem)).Nodup)
    {a b : critbit_key} (ha : a ∈ l) (hb : b ∈ l) (h : a.mem = b.mem) : a = b :=
  List.inj_on_of_nodup_map hn ha hb h

/-- The three exits of `critbit_insert_impl`. -/
theorem insert_impl_cases (t : critbit_tree) (nn : Nat) (X : critbit_key) (n : Nat)
    (kb : critbit_key → List Nat) :
    (t.ct_root = none → critbit_insert_impl t nn X n kb =
      (critbit_node_free { t with ct_root := some (.key X) } nn, none)) ∧
    (∀ r, t.ct_root = some r →
      (different_byte (kb (descend (kb X) n r)) (kb X) 0 n = none →
        critbit_insert_impl t nn X n kb = (critbit_node_free t nn, some (descend (kb X) n r))) ∧
      (∀ d x, different_byte (kb (descend (kb X) n r)) (kb X) 0 n = some (d, x) →
        critbit_insert_impl t nn X n kb =
          ({ t with ct_root := some (splice nn X (kb X) n d (msb_loop x ^^^ 255)
              (direction (msb_loop x ^^^ 255) (rd (kb (descend (kb X) n r)) d)) r) }, none))) := by
  refine ⟨fun h => ?_, fun r h => ⟨fun hdb => ?_, fun d x hdb => ?_⟩⟩
  · simp [critbit_insert_impl, h]
  · simp [critbit_insert_impl, h, hdb]
  · simp [critbit_insert_impl, h, hdb]

theorem str_different_byte_none {a b : List Nat} (ha : IsStr a) (hb : IsStr b)
    (h : different_byte a b 0 (strlen b) = none) : a = b := by
  obtain ⟨h1, h2⟩ := (different_byte_spec a b 0 (strlen b)).1 h
  rw [strlen_eq_length hb] at h1 h2
  apply str_ext ha hb
  intro i
  by_cases hi : i < b.length
  · exact h1 i (Nat.zero_le _) (by omega)
  · have hal : a.length ≤ b.length := by
      by_contra hc
      have := (rd_pos_iff ha (0 + b.length)).mpr (by omega)
      exact this h2
    rw [rd_of_le (by omega), rd_of_le (by omega)]

theorem str_different_byte_some {a b : List Nat} (hb : IsStr b) {d x : Nat}
    (h : different_byte a b 0 (strlen b) = some (d, x)) :
    (∀ j, j < d → rd a j = rd b j) ∧ rd a d ≠ rd b d ∧ x = rd a d ^^^ rd b d := by
  obtain ⟨_, h2, h3⟩ := (different_byte_spec a b 0 (strlen b)).2 d x h
  rw [strlen_eq_length hb] at h3
  refine ⟨fun j hj => h2 j (Nat.zero_le _) hj, ?_⟩
  rcases h3 with ⟨_, h4, h5⟩ | ⟨h4, h5, h6⟩
  · exact ⟨h4, h5⟩
  · have hz : rd b d = 0 := rd_of_le (by omega)
    rw [hz]
    exact ⟨h5, by simpa using h6⟩

theorem str_different_byte_self {a b : List Nat} (hb : IsStr b) (hab : a = b) :
    different_byte a b 0 (strlen b) = none := by
  cases h : different_byte a b 0 (strlen b) with
  | none => rfl
  | some p =>
    obtain ⟨d, x⟩ := p
    have := (str_different_byte_some hb h).2.1
    rw [hab] at this
    exact absurd rfl this

theorem str_view_lt {k : critbit_key} (h : IsStr k.mem) (i : Nat) : str_view k i < 256 := by
  unfold str_view
  rw [probe_byte_str h]
  exact rd_lt_of_bytes (fun b hb => (h.2 b hb).2) i

/-- Hypotheses of `splice_spec` from the first differing byte of two byte
sequences. -/
theorem first_diff_sim {f g : Nat → Nat} {d x : Nat} (hf : ∀ i, f i < 256) (hg : ∀ i, g i < 256)
    (heq : ∀ j, j < d → f j = g j) (hne : f d ≠ g d) (hx : x = f d ^^^ g d) :
    AgreeBefore f g d (msb_loop x ^^^ 255) ∧ IsMask (msb_loop x ^^^ 255) ∧
    direction (msb_loop x ^^^ 255) (g d) = 1 - direction (msb_loop x ^^^ 255) (f d) ∧
    direction (msb_loop x ^^^ 255) (f d) ≤ 1 := by
  subst hx
  obtain ⟨hm, hd, hlow⟩ := crit_bit_spec (hf d) (hg d) hne
  have h1 := direction_le_one hm (hf d)
  have h2 := direction_le_one hm (hg d)
  exact ⟨⟨heq, hlow⟩, hm, by omega, h1⟩

theorem get_impl_eq (t : critbit_tree) (u : List Nat) (n : Nat)
    (keycmp : List Nat → List Nat → Nat → Int) (kb : critbit_key → List Nat) :
    critbit_get_impl t u n keycmp kb =
      match t.ct_root with
      | none => none
      | some r => get_below u n keycmp kb r := by
  unfold critbit_get_impl get_below
  cases t.ct_root <;> rfl

/-- The three exits of `critbit_remove_impl`. -/
theorem remove_impl_cases (t : critbit_tree) (u : List Nat) (n : Nat)
    (keycmp : List Nat → List Nat → Nat → Int) (kb : critbit_key → List Nat) :
    (t.ct_root = none → critbit_remove_impl t u n keycmp kb = (t, none)) ∧
    (∀ r, t.ct_root = some r →
      (remove_below u n keycmp kb r = .mismatch →
        critbit_remove_impl t u n keycmp kb = (t, none)) ∧
      (∀ k, remove_below u n keycmp kb r = .hit k →
        critbit_remove_impl t u n keycmp kb = ({ t with ct_root := none }, some k)) ∧
      (∀ r2 f k, remove_below u n keycmp kb r = .done r2 f k →
        critbit_remove_impl t u n keycmp kb =
          (critbit_node_free { t with ct_root := some r2 } f, some k))) := by
  refine ⟨fun h => ?_, fun r h => ⟨fun hr => ?_, fun k hr => ?_, fun r2 f k hr => ?_⟩⟩
  · simp [critbit_remove_impl, h]
  · simp [critbit_remove_impl, h, hr]
  · simp [critbit_remove_impl, h, hr]
  · simp [critbit_remove_impl, h, hr]

/-- A probe that no stored key matches is not removed: the tree is returned
as it was. -/
theorem remove_impl_absent (t : critbit_tree) (u : List Nat) (n : Nat)
    (keycmp : List Nat → List Nat → Nat → Int) (kb : critbit_key → List Nat)
    (h : ∀ k ∈ keys t, keycmp (kb k) u n ≠ 0) :
    critbit_remove_impl t u n keycmp kb = (t, none) := by
  obtain ⟨h0, h1⟩ := remove_impl_cases t u n keycmp kb
  cases hr : t.ct_root with
  | none => exact h0 hr
  | some r =>
    obtain ⟨hm, hh, hd⟩ := h1 r hr
    have hk : keys t = leaves r := by simp [keys, hr]
    obtain ⟨_, sh, sd⟩ := remove_below_spec u n keycmp kb r
    cases hb : remove_below u n keycmp kb r with
    | mismatch => exact hm hb
    | hit k =>
      obtain ⟨rfl, hc⟩ := sh k hb
      exact absurd hc (h k (by simp [hk, leaves]))
    | done r2 f k =>
      obtain ⟨hkd, hc, _, _⟩ := sd r2 f k hb
      exact absurd hc (h k (by rw [hk, hkd]; exact descend_mem _ _ _))

theorem get_impl_absent (t : critbit_tree) (u : List Nat) (n : Nat)
    (keycmp : List Nat → List Nat → Nat → Int) (kb : critbit_key → List Nat)
    (h : ∀ k ∈ keys t, keycmp (kb k) u n ≠ 0) :
    critbit_get_impl t u n keycmp kb = none := by
  rw [get_impl_eq]
  cases hr : t.ct_root with
  | none => rfl
  | some r =>
    have hk : keys t = leaves r := by simp [keys, hr]
    simp only [get_below]
    rw [if_neg]
    exact h _ (by rw [hk]; exact descend_mem _ _ _)

/-! ## String domain -/

theorem str_descend_eq {r : critbit_ref} (hg : Good str_view (fun _ => False) r)
    (hs : ∀ k ∈ leaves r, IsStr k.mem) (hn : ((leaves r).map (fun k => k.mem)).Nodup)
    {K : critbit_key} (hK : K ∈ leaves r) {p : List Nat} (hp : K.mem = p) :
    descend p (strlen p) r = K := by
  have hv : str_view K = probe_byte p (strlen p) := by rw [← hp]; rfl
  have h1 := descend_view p (strlen p) r hg K hK hv
  have hm := descend_mem p (strlen p) r
  rw [← hv] at h1
  exact mem_unique hn hm hK ((str_view_eq_iff (hs _ hm) (hs _ hK)).mp h1)

theorem str_get_mem {t : critbit_tree} (hinv : StrInv t) {K : critbit_key} (hK : K ∈ keys t) :
    critbit_str_get t K.mem = some K := by
  obtain ⟨hg, hs, hn⟩ := hinv
  unfold critbit_str_get
  rw [get_impl_eq]
  cases hr : t.ct_root with
  | none => simp [keys, hr] at hK
  | some r =>
    have hk : keys t = leaves r := by simp [keys, hr]
    rw [hk] at hK hs hn
    simp only [get_below, critbit_str_keylen, critbit_str_keybuf]
    rw [str_descend_eq (hg r hr) hs hn hK rfl]
    rw [if_pos ((str_keycmp_eq_zero (hs K hK) (hs K hK)).mpr rfl)]

theorem str_get_absent {t : critbit_tree} (hs : ∀ k ∈ keys t, IsStr k.mem) {p : List Nat}
    (hp : IsStr p) (h : ∀ K ∈ keys t, K.mem ≠ p) : critbit_str_get t p = none := by
  unfold critbit_str_get
  apply get_impl_absent
  intro k hk hc
  exact h k hk ((str_keycmp_eq_zero (hs k hk) hp).mp hc)

theorem str_remove_absent {t : critbit_tree} (hs : ∀ k ∈ keys t, IsStr k.mem) {p : List Nat}
    (hp : IsStr p) (h : ∀ K ∈ keys t, K.mem ≠ p) : critbit_str_remove t p = (t, none) := by
  unfold critbit_str_remove
  apply remove_impl_absent
  intro k hk hc
  exact h k hk ((str_keycmp_eq_zero (hs k hk) hp).mp hc)

theorem str_insert_dup {t : critbit_tree} (hinv : StrInv t) (nn : Nat) {X K : critbit_key}
    (hK : K ∈ keys t) (hX : X.mem = K.mem) :
    critbit_str_insert t nn X = (critbit_node_free t nn, some K) := by
  obtain ⟨hg, hs, hn⟩ := hinv
  unfold critbit_str_insert
  cases hr : t.ct_root with
  | none => simp [keys, hr] at hK
  | some r =>
    have hk : keys t = leaves r := by simp [keys, hr]
    rw [hk] at hK hs hn
    have hd : descend X.mem (strlen X.mem) r = K := str_descend_eq (hg r hr) hs hn hK hX.symm
    have hXs : IsStr X.mem := by rw [hX]; exact hs K hK
    have := ((insert_impl_cases t nn X (critbit_str_keylen X.mem) critbit_str_keybuf).2 r hr).1
    simp only [critbit_str_keybuf, critbit_str_keylen, hd] at this
    exact this (str_different_byte_self hXs hX.symm)

theorem str_insert_new {t : critbit_tree} (hinv : StrInv t) (nn : Nat) {X : critbit_key}
    (hX : IsStr X.mem) (hnew : ∀ K ∈ keys t, K.mem ≠ X.mem) :
    (critbit_str_insert t nn X).2 = none ∧ StrInv (critbit_str_insert t nn X).1 ∧
    (keys (critbit_str_insert t nn X).1).Perm (X :: keys t) := by
  obtain ⟨hg, hs, hn⟩ := hinv
  have hfin : ∀ t2 : critbit_tree, (∀ r, t2.ct_root = some r → Good str_view (fun _ => False) r) →
      (keys t2).Perm (X :: keys t) → StrInv t2 ∧ (keys t2).Perm (X :: keys t) := by
    intro t2 hg2 hp
    refine ⟨⟨hg2, fun k hk => ?_, ?_⟩, hp⟩
    · rcases List.mem_cons.mp (hp.mem_iff.mp hk) with rfl | h
      · exact hX
      · exact hs k h
    · rw [(hp.map (fun k => k.mem)).nodup_iff, List.map_cons, List.nodup_cons]
      refine ⟨?_, hn⟩
      intro hm
      obtain ⟨K, hK, hKm⟩ := List.mem_map.mp hm
      exact hnew K hK hKm
  unfold critbit_str_insert
  obtain ⟨c0, c1⟩ := insert_impl_cases t nn X (critbit_str_keylen X.mem) critbit_str_keybuf
  cases hr : t.ct_root with
  | none =>
    rw [c0 hr]
    refine ⟨rfl, hfin _ ?_ ?_⟩
    · intro r h
      simp only [critbit_node_free, Option.some.injEq] at h
      subst h
      trivial
    · simp [keys, critbit_node_free, hr, leaves]
  | some r =>
    have hk : keys t = leaves r := by simp [keys, hr]
    obtain ⟨_, c3⟩ := c1 r hr
    simp only [critbit_str_keybuf, critbit_str_keylen] at c3 ⊢
    have hLm := descend_mem X.mem (strlen X.mem) r
    have hLs : IsStr (descend X.mem (strlen X.mem) r).mem := hs _ (by rw [hk]; exact hLm)
    cases hdb : different_byte (descend X.mem (strlen X.mem) r).mem X.mem 0 (strlen X.mem) with
    | none =>
      exact absurd (str_different_byte_none hLs hX hdb) (hnew _ (by rw [hk]; exact hLm))
    | some p =>
      obtain ⟨d, x⟩ := p
      rw [c3 d x hdb]
      obtain ⟨h1, h2, h3⟩ := str_different_byte_some hX hdb
      have hvL : ∀ i, str_view (descend X.mem (strlen X.mem) r) i =
          rd (descend X.mem (strlen X.mem) r).mem i := fun i => probe_byte_str hLs i
      have hvX : ∀ i, str_view X i = rd X.mem i := fun i => probe_byte_str hX i
      obtain ⟨ha, hm, hdX, hdL⟩ := @first_diff_sim (str_view (descend X.mem (strlen X.mem) r))
        (str_view X) d x (str_view_lt hLs) (str_view_lt hX)
        (fun j hj => by rw [hvL, hvX]; exact h1 j hj) (by rw [hvL, hvX]; exact h2)
        (by rw [hvL, hvX]; exact h3)
      rw [hvL] at hdX hdL
      obtain ⟨sg, sp⟩ := @splice_spec str_view (fun _ => False)
        (fun _ _ h _ => h) nn X X.mem (strlen X.mem) d (msb_loop x ^^^ 255)
        (direction (msb_loop x ^^^ 255) (rd (descend X.mem (strlen X.mem) r).mem d))
        rfl (str_view_lt hX) r (hg r hr) ⟨fun h => h.elim, fun _ => ha⟩
        (fun _ => ⟨hm, by rw [hvL], hdX, hdL⟩)
      refine ⟨rfl, hfin _ ?_ ?_⟩
      · intro r2 h
        simp only [Option.some.injEq] at h
        subst h
        exact sg
      · simpa [keys, hr] using sp

theorem str_remove_mem {t : critbit_tree} (hinv : StrInv t) {K : critbit_key} (hK : K ∈ keys t) :
    (critbit_str_remove t K.mem).2 = some K ∧ StrInv (critbit_str_remove t K.mem).1 ∧
    (keys t).Perm (K :: keys (critbit_str_remove t K.mem).1) := by
  obtain ⟨hg, hs, hn⟩ := hinv
  have hfin : ∀ t2 : critbit_tree, (∀ r, t2.ct_root = some r → Good str_view (fun _ => False) r) →
      (keys t).Perm (K :: keys t2) → StrInv t2 ∧ (keys t).Perm (K :: keys t2) := by
    intro t2 hg2 hp
    refine ⟨⟨hg2, fun k hk => hs k (hp.mem_iff.mpr (List.mem_cons_of_mem _ hk)), ?_⟩, hp⟩
    have := (hp.map (fun k => k.mem)).nodup_iff.mp hn
    rw [List.map_cons, List.nodup_cons] at this
    exact this.2
  unfold critbit_str_remove
  obtain ⟨_, c1⟩ := remove_impl_cases t K.mem (critbit_str_keylen K.mem) critbit_str_keycmp
    critbit_str_keybuf
  cases hr : t.ct_root with
  | none => simp [keys, hr] at hK
  | some r =>
    have hk : keys t = leaves r := by simp [keys, hr]
    obtain ⟨_, ch, cd⟩ := c1 r hr
    rw [hk] at hK hs hn
    have hd : descend K.mem (strlen K.mem) r = K := str_descend_eq (hg r hr) hs hn hK rfl
    obtain ⟨sm, sh, sd⟩ := remove_below_spec K.mem (critbit_str_keylen K.mem) critbit_str_keycmp
      critbit_str_keybuf r
    simp only [critbit_str_keylen, critbit_str_keybuf] at sm sh sd ch cd ⊢
    cases hb : remove_below K.mem (strlen K.mem) critbit_str_keycmp critbit_str_keybuf r with
    | mismatch =>
      have := sm hb
      rw [hd] at this
      exact absurd ((str_keycmp_eq_zero (hs K hK) (hs K hK)).mpr rfl) this
    | hit k =>
      obtain ⟨rfl, _⟩ := sh k hb
      rw [ch k hb]
      simp only [leaves, List.mem_singleton] at hK
      subst hK
      refine ⟨rfl, hfin _ ?_ ?_⟩
      · intro r2 h
        simp at h
      · simp [keys, hr, leaves]
    | done r2 f k =>
      obtain ⟨hkd, _, hp, hgood⟩ := sd r2 f k hb
      rw [cd r2 f k hb]
      rw [hd] at hkd
      subst hkd
      refine ⟨rfl, hfin _ ?_ ?_⟩
      · intro r3 h
        simp only [critbit_node_free, Option.some.injEq] at h
        subst h
        exact hgood _ _ (hg r hr)
      · simpa [keys, hr, critbit_node_free] using hp

theorem keys_node_free (t : critbit_tree) (nn : Nat) : keys (critbit_node_free t nn) = keys t := rfl

theorem strinv_node_free {t : critbit_tree} (h : StrInv t) (nn : Nat) :
    StrInv (critbit_node_free t nn) := h

theorem strinv_init (self freearg keylen : Nat) : StrInv (critbit_init self freearg keylen) := by
  refine ⟨fun r h => ?_, fun k hk => ?_, ?_⟩
  · simp [critbit_init] at h
  · simp [critbit_init, keys] at hk
  · simp [critbit_init, keys]

theorem rep_step {t : critbit_tree} {s : List critbit_key} (h : Rep t s) {op : Op}
    (hop : StrOp op) : Rep (str_step t op) (ref_step s op) := by
  obtain ⟨hinv, hp⟩ := h
  cases op with
  | insert nn X =>
    simp only [str_step, ref_step]
    by_cases hex : ∃ K ∈ s, K.mem = X.mem
    · obtain ⟨K, hK, hKm⟩ := hex
      have hany : s.any (fun k => decide (k.mem = X.mem)) = true := by
        rw [List.any_eq_true]
        exact ⟨K, hK, by simpa using hKm⟩
      rw [hany, if_pos rfl, str_insert_dup hinv nn (hp.mem_iff.mpr hK) hKm.symm]
      exact ⟨strinv_node_free hinv nn, hp⟩
    · have hany : ¬ (s.any (fun k => decide (k.mem = X.mem)) = true) := by
        rw [List.any_eq_true]
        rintro ⟨K, hK, hd⟩
        exact hex ⟨K, hK, by simpa using hd⟩
      rw [if_neg hany]
      obtain ⟨_, h2, h3⟩ := str_insert_new hinv nn hop
        (fun K hK hKm => hex ⟨K, hp.mem_iff.mp hK, hKm⟩)
      exact ⟨h2, h3.trans (hp.cons X)⟩
  | remove p =>
    simp only [str_step, ref_step]
    by_cases hex : ∃ K ∈ keys t, K.mem = p
    · obtain ⟨K, hK, rfl⟩ := hex
      obtain ⟨_, h2, h3⟩ := str_remove_mem hinv hK
      refine ⟨h2, ?_⟩
      have hn := (h3.map (fun k => k.mem)).nodup_iff.mp hinv.2.2
      rw [List.map_cons, List.nodup_cons] at hn
      have hf : (K :: keys (critbit_str_remove t K.mem).1).filter
          (fun k => decide (k.mem ≠ K.mem)) = keys (critbit_str_remove t K.mem).1 := by
        rw [List.filter_cons_of_neg (by simp)]
        rw [List.filter_eq_self]
        intro k hk
        simp only [ne_eq, decide_not, Bool.not_eq_eq_eq_not, Bool.not_true, decide_eq_false_iff_not]
        intro hkm
        exact hn.1 (List.mem_map.mpr ⟨k, hk, hkm⟩)
      rw [← hf]
      exact (h3.symm.trans hp).filter _
    · have hab : ∀ K ∈ keys t, K.mem ≠ p := fun K hK hKm => hex ⟨K, hK, hKm⟩
      rw [str_remove_absent hinv.2.1 hop hab]
      refine ⟨hinv, ?_⟩
      rw [List.filter_eq_self.mpr]
      · exact hp
      · intro k hk
        simpa using hab k (hp.mem_iff.mpr hk)

theorem rep_run {t : critbit_tree} {s : List critbit_key} (h : Rep t s) (ops : List Op)
    (hops : ∀ op ∈ ops, StrOp op) : Rep (str_run t ops) (ops.foldl ref_step s) := by
  induction ops generalizing t s with
  | nil => exact h
  | cons op ops ih =>
    simp only [str_run, List.foldl_cons]
    exact ih (rep_step h (hops op (List.mem_cons_self _ _)))
      (fun o ho => hops o (List.mem_cons_of_mem _ ho))

theorem rep_init_run (self freearg keylen : Nat) (ops : List Op) (hops : ∀ op ∈ ops, StrOp op) :
    Rep (str_run (critbit_init self freearg keylen) ops) (ref_run ops) :=
  rep_run ⟨strinv_init self freearg keylen, by simp [critbit_init, keys]⟩ ops hops

theorem strinv_of_reachable {t : critbit_tree} (h : StrReachable t) : StrInv t := by
  obtain ⟨self, freearg, keylen, ops, hops, rfl⟩ := h
  exact (rep_init_run self freearg keylen ops hops).1

theorem inserts_strop {l : List (Nat × critbit_key)} (h : ∀ e ∈ l, IsStr e.2.mem) :
    ∀ op ∈ inserts l, StrOp op := by
  intro op hop
  obtain ⟨e, he, rfl⟩ := List.mem_map.mp hop
  exact h e he

/-- Inserting pairwise different strings that are not yet in the tree stores
all of them. -/
theorem str_run_inserts {t : critbit_tree} (hinv : StrInv t) (l : List (Nat × critbit_key))
    (hwf : ∀ e ∈ l, IsStr e.2.mem) (hdist : (l.map (fun e => e.2.mem)).Nodup)
    (hnew : ∀ e ∈ l, ∀ K ∈ keys t, K.mem ≠ e.2.mem) :
    StrInv (str_run t (inserts l)) ∧
    (keys (str_run t (inserts l))).Perm (l.map (fun e => e.2) ++ keys t) := by
  induction l generalizing t with
  | nil => exact ⟨hinv, by simp [str_run, inserts]⟩
  | cons e l ih =>
    simp only [inserts, List.map_cons, str_run, List.foldl_cons, str_step]
    rw [List.map_cons, List.nodup_cons] at hdist
    obtain ⟨_, h2, h3⟩ := str_insert_new hinv e.1 (hwf e (List.mem_cons_self _ _))
      (hnew e (List.mem_cons_self _ _))
    have hnew2 : ∀ e2 ∈ l, ∀ K ∈ keys (critbit_str_insert t e.1 e.2).1, K.mem ≠ e2.2.mem := by
      intro e2 he2 K hK
      rcases List.mem_cons.mp (h3.mem_iff.mp hK) with rfl | hK
      · intro hm
        exact hdist.1 (List.mem_map.mpr ⟨e2, he2, hm.symm⟩)
      · exact hnew e2 (List.mem_cons_of_mem _ he2) K hK
    obtain ⟨i1, i2⟩ := ih h2 (fun e2 he2 => hwf e2 (List.mem_cons_of_mem _ he2)) hdist.2 hnew2
    refine ⟨i1, i2.trans ?_⟩
    refine (List.Perm.append_left _ h3).trans ?_
    simp only [List.cons_append]
    exact List.perm_middle

/-- Removal keeps the invariant of every subtree, returns only stored keys
and leaves the other fields of the tree head alone, except for the trace. -/
theorem remove_impl_sub {view : critbit_key → Nat → Nat} {cl : Nat → Prop} (t : critbit_tree)
    (u : List Nat) (n : Nat) (keycmp : List Nat → List Nat → Nat → Int)
    (kb : critbit_key → List Nat) (hg : ∀ r, t.ct_root = some r → Good view cl r) :
    (∀ r, (critbit_remove_impl t u n keycmp kb).1.ct_root = some r → Good view cl r) ∧
    (∀ k ∈ keys (critbit_remove_impl t u n keycmp kb).1, k ∈ keys t) ∧
    (critbit_remove_impl t u n keycmp kb).1.ct_keylen = t.ct_keylen ∧
    (critbit_remove_impl t u n keycmp kb).1.self = t.self := by
  obtain ⟨c0, c1⟩ := remove_impl_cases t u n keycmp kb
  cases hr : t.ct_root with
  | none =>
    rw [c0 hr]
    exact ⟨hg, fun _ h => h, rfl, rfl⟩
  | some r =>
    obtain ⟨cm, ch, cd⟩ := c1 r hr
    obtain ⟨_, _, sd⟩ := remove_below_spec u n keycmp kb r
    cases hb : remove_below u n keycmp kb r with
    | mismatch =>
      rw [cm hb]
      exact ⟨hg, fun _ h => h, rfl, rfl⟩
    | hit k =>
      rw [ch k hb]
      refine ⟨fun r2 h => by simp at h, fun k2 hk2 => by simp [keys] at hk2, rfl, rfl⟩
    | done r2 f k =>
      rw [cd r2 f k hb]
      obtain ⟨_, _, hp, hgood⟩ := sd r2 f k hb
      refine ⟨fun r3 h => ?_, fun k2 hk2 => ?_, rfl, rfl⟩
      · simp only [critbit_node_free, Option.some.injEq] at h
        subst h
        exact hgood _ _ (hg r hr)
      · simp only [keys, critbit_node_free] at hk2
        simp only [keys, hr]
        exact hp.mem_iff.mpr (List.mem_cons_of_mem _ hk2)

/-- Removing a probe does not change the lookup of a probe that looks
different. -/
theorem remove_impl_frame {view : critbit_key → Nat → Nat} {cl : Nat → Prop} (t : critbit_tree)
    (u : List Nat) (n : Nat) (u2 : List Nat) (n2 : Nat)
    (keycmp : List Nat → List Nat → Nat → Int) (kb : critbit_key → List Nat)
    (hg : ∀ r, t.ct_root = some r → Good view cl r)
    (hne : probe_byte u n ≠ probe_byte u2 n2)
    (hcmp : ∀ k ∈ keys t, keycmp (kb k) u n = 0 → view k = probe_byte u n)
    (hcmp2 : ∀ k ∈ keys t, keycmp (kb k) u2 n2 = 0 → view k = probe_byte u2 n2) :
    critbit_get_impl (critbit_remove_impl t u n keycmp kb).1 u2 n2 keycmp kb =
      critbit_get_impl t u2 n2 keycmp kb := by
  obtain ⟨c0, c1⟩ := remove_impl_cases t u n keycmp kb
  cases hr : t.ct_root with
  | none => rw [c0 hr]
  | some r =>
    have hk : keys t = leaves r := by simp [keys, hr]
    rw [hk] at hcmp hcmp2
    obtain ⟨cm, ch, cd⟩ := c1 r hr
    obtain ⟨_, sh, sd⟩ := remove_below_spec u n keycmp kb r
    cases hb : remove_below u n keycmp kb r with
    | mismatch => rw [cm hb]
    | hit k =>
      rw [ch k hb]
      obtain ⟨rfl, hc⟩ := sh k hb
      rw [get_impl_eq, get_impl_eq]
      simp only [hr, get_below, descend]
      rw [if_neg]
      intro h2
      have e1 := hcmp k (by simp [leaves]) hc
      have e2 := hcmp2 k (by simp [leaves]) h2
      exact hne (e1.symm.trans e2)
    | done r2 f k =>
      rw [cd r2 f k hb]
      rw [get_impl_eq, get_impl_eq]
      simp only [hr, critbit_node_free]
      exact remove_below_frame u n u2 n2 keycmp kb hne r (hg r hr) hcmp hcmp2 r2 f k hb

/-! ## Buffer domain -/

theorem probe_byte_eq_iff (a b : List Nat) (N : Nat) :
    probe_byte a N = probe_byte b N ↔ ∀ j, j < N → rd a j = rd b j := by
  constructor
  · intro h j hj
    have := congrFun h j
    simpa [probe_byte, hj] using this
  · intro h
    funext j
    unfold probe_byte
    split
    · rename_i hj; exact h j hj
    · rfl

theorem rd_take {a : List Nat} {N j : Nat} (hj : j < N) : rd (a.take N) j = rd a j := by
  unfold rd
  rw [List.getD_eq_getElem?_getD, List.getD_eq_getElem?_getD, List.getElem?_take_of_lt hj]

theorem take_eq_iff {a b : List Nat} {N : Nat} (ha : N ≤ a.length) (hb : N ≤ b.length) :
    a.take N = b.take N ↔ ∀ j, j < N → rd a j = rd b j := by
  constructor
  · intro h j hj
    rw [← rd_take hj, ← @rd_take b N j hj, h]
  · intro h
    have hla : (a.take N).length = N := by rw [List.length_take]; omega
    have hlb : (b.take N).length = N := by rw [List.length_take]; omega
    apply List.ext_getElem (by omega)
    intro j h1 h2
    have hj : j < N := by omega
    have := h j hj
    rw [← rd_take hj, ← @rd_take b N j hj, rd_of_lt h1, rd_of_lt h2] at this
    exact this

theorem buf_keycmp_eq_zero (a b : List Nat) (N : Nat) :
    critbit_buf_keycmp a b N = 0 ↔ probe_byte a N = probe_byte b N := by
  unfold critbit_buf_keycmp
  rw [memcmp_eq_zero, probe_byte_eq_iff]

theorem buf_view_eq_iff {N : Nat} {a : critbit_key} {p : List Nat} (ha : IsBuf N a.mem)
    (hp : IsBuf N p) : buf_view N a = probe_byte p N ↔ a.mem.take N = p.take N := by
  unfold buf_view
  rw [probe_byte_eq_iff, take_eq_iff ha.2.1 hp.2.1]

theorem buf_view_lt {N : Nat} {k : critbit_key} (h : IsBuf N k.mem) (i : Nat) :
    buf_view N k i < 256 := by
  unfold buf_view probe_byte
  split
  · exact rd_lt_of_bytes h.2.2 i
  · omega

theorem bufinv_init (self freearg N : Nat) : BufInv N (critbit_init self freearg N) := by
  refine ⟨rfl, fun r h => ?_, fun k hk => ?_⟩
  · simp [critbit_init] at h
  · simp [critbit_init, keys] at hk

/-- Insertion into a Buffer-domain tree: the invariant is kept, and either
the key was added and `NULL` returned, or a stored key that looks the same
was returned, the node released and the tree left as it was. -/
theorem buf_insert_spec {N : Nat} {t : critbit_tree} (hinv : BufInv N t) (nn : Nat)
    {X : critbit_key} (hX : IsBuf N X.mem) :
    BufInv N (critbit_buf_insert t nn X).1 ∧
    (((critbit_buf_insert t nn X).2 = none ∧
        (keys (critbit_buf_insert t nn X).1).Perm (X :: keys t)) ∨
      ∃ L ∈ keys t, buf_view N L = buf_view N X ∧
        critbit_buf_insert t nn X = (critbit_node_free t nn, some L)) := by
  obtain ⟨hkl, hg, hs⟩ := hinv
  have hfin : ∀ t2 : critbit_tree, t2.ct_keylen = N →
      (∀ r, t2.ct_root = some r → Good (buf_view N) (fun b => N ≤ b) r) →
      (keys t2).Perm (X :: keys t) → BufInv N t2 := by
    intro t2 hk2 hg2 hp
    refine ⟨hk2, hg2, fun k hk => ?_⟩
    rcases List.mem_cons.mp (hp.mem_iff.mp hk) with rfl | h
    · exact hX
    · exact hs k h
  unfold critbit_buf_insert
  obtain ⟨c0, c1⟩ := insert_impl_cases t nn X (critbit_buf_keylen t) critbit_buf_keybuf
  have hkl2 : critbit_buf_keylen t = N := hkl
  rw [hkl2] at c0 c1 ⊢
  cases hr : t.ct_root with
  | none =>
    rw [c0 hr]
    have hp : (keys (critbit_node_free { t with ct_root := some (.key X) } nn)).Perm
        (X :: keys t) := by simp [keys, critbit_node_free, hr, leaves]
    refine ⟨hfin _ hkl ?_ hp, Or.inl ⟨rfl, hp⟩⟩
    intro r h
    simp only [critbit_node_free, Option.some.injEq] at h
    subst h
    trivial
  | some r =>
    have hk : keys t = leaves r := by simp [keys, hr]
    obtain ⟨c2, c3⟩ := c1 r hr
    simp only [critbit_buf_keybuf] at c2 c3
    have hLm := descend_mem X.mem N r
    have hLk : descend X.mem N r ∈ keys t := by rw [hk]; exact hLm
    have hLs : IsBuf N (descend X.mem N r).mem := hs _ hLk
    cases hdb : different_byte (descend X.mem N r).mem X.mem 0 N with
    | none =>
      rw [c2 hdb]
      refine ⟨⟨hkl, hg, hs⟩, Or.inr ⟨_, hLk, ?_, rfl⟩⟩
      have := ((different_byte_spec _ _ 0 N).1 hdb).1
      unfold buf_view
      rw [probe_byte_eq_iff]
      intro j hj
      exact this j (Nat.zero_le _) (by omega)
    | some q =>
      obtain ⟨d, x⟩ := q
      rw [c3 d x hdb]
      obtain ⟨_, h2, h3⟩ := (different_byte_spec _ _ 0 N).2 d x hdb
      have hsp : Good (buf_view N) (fun b => N ≤ b) (splice nn X X.mem N d (msb_loop x ^^^ 255)
            (direction (msb_loop x ^^^ 255) (rd (descend X.mem N r).mem d)) r) ∧
          (leaves (splice nn X X.mem N d (msb_loop x ^^^ 255)
            (direction (msb_loop x ^^^ 255) (rd (descend X.mem N r).mem d)) r)).Perm
            (X :: leaves r) := by
        rcases h3 with ⟨h4, h5, h6⟩ | ⟨h4, h5, h6⟩
        · have hd : d < N := by omega
          have hvL : ∀ i, i < N → buf_view N (descend X.mem N r) i =
              rd (descend X.mem N r).mem i := fun i hi => by simp [buf_view, probe_byte, hi]
          have hvX : ∀ i, i < N → buf_view N X i = rd X.mem i :=
            fun i hi => by simp [buf_view, probe_byte, hi]
          obtain ⟨ha, hm, hdX, hdL⟩ := @first_diff_sim (buf_view N (descend X.mem N r))
            (buf_view N X) d x (buf_view_lt hLs) (buf_view_lt hX)
            (fun j hj => by rw [hvL j (by omega), hvX j (by omega)]; exact h2 j (Nat.zero_le _) hj)
            (by rw [hvL d hd, hvX d hd]; exact h5) (by rw [hvL d hd, hvX d hd]; exact h6)
          rw [hvL d hd] at hdX hdL
          exact @splice_spec (buf_view N) (fun b => N ≤ b)
            (fun _ _ h1 h2 => le_trans h1 h2) nn X X.mem N d (msb_loop x ^^^ 255)
            (direction (msb_loop x ^^^ 255) (rd (descend X.mem N r).mem d))
            rfl (buf_view_lt hX) r (hg r hr) ⟨fun h => absurd h (by omega), fun _ => ha⟩
            (fun _ => ⟨hm, by rw [hvL d hd], hdX, hdL⟩)
        · have hv : buf_view N (descend X.mem N r) = buf_view N X := by
            unfold buf_view
            rw [probe_byte_eq_iff]
            intro j hj
            exact h2 j (Nat.zero_le _) (by omega)
          exact @splice_spec (buf_view N) (fun b => N ≤ b)
            (fun _ _ h1 h2 => le_trans h1 h2) nn X X.mem N d (msb_loop x ^^^ 255)
            (direction (msb_loop x ^^^ 255) (rd (descend X.mem N r).mem d))
            rfl (buf_view_lt hX) r (hg r hr)
            ⟨fun _ => hv, fun h => absurd (show N ≤ d by omega) h⟩
            (fun h => absurd (show N ≤ d by omega) h)
      obtain ⟨sg, sp⟩ := hsp
      have hp : (keys { t with ct_root := some (splice nn X X.mem N d (msb_loop x ^^^ 255)
            (direction (msb_loop x ^^^ 255) (rd (descend X.mem N r).mem d)) r) }).Perm
          (X :: keys t) := by simpa [keys, hr] using sp
      refine ⟨hfin _ hkl ?_ hp, Or.inl ⟨rfl, hp⟩⟩
      intro r2 h
      simp only [Option.some.injEq] at h
      subst h
      exact sg

theorem buf_remove_inv {N : Nat} {t : critbit_tree} (hinv : BufInv N t) (p : List Nat) :
    BufInv N (critbit_buf_remove t p).1 := by
  obtain ⟨hkl, hg, hs⟩ := hinv
  obtain ⟨h1, h2, h3, _⟩ := remove_impl_sub t p (critbit_buf_keylen t) critbit_buf_keycmp
    critbit_buf_keybuf hg
  exact ⟨h3.trans hkl, h1, fun k hk => hs k (h2 k hk)⟩

theorem bufinv_of_reachable {N : Nat} {t : critbit_tree} (h : BufReachable N t) : BufInv N t := by
  obtain ⟨self, freearg, ops, hops, rfl⟩ := h
  have : ∀ (ops : List Op) (t : critbit_tree), BufInv N t → (∀ op ∈ ops, BufOp N op) →
      BufInv N (buf_run t ops) := by
    intro ops
    induction ops with
    | nil => intro t ht _; exact ht
    | cons op ops ih =>
      intro t ht hops
      simp only [buf_run, List.foldl_cons]
      apply ih
      · cases op with
        | insert nn X => exact (buf_insert_spec ht nn (hops _ (List.mem_cons_self _ _))).1
        | remove p => exact buf_remove_inv ht p
      · exact fun o ho => hops o (List.mem_cons_of_mem _ ho)
  exact this ops _ (bufinv_init self freearg N) hops

theorem str_probe_ne {k j : List Nat} (hk : IsStr k) (hj : IsStr j) (h : j ≠ k) :
    probe_byte k (strlen k) ≠ probe_byte j (strlen j) := by
  intro he
  apply h
  apply str_ext hj hk
  intro i
  have := congrFun he i
  rw [probe_byte_str hk, probe_byte_str hj] at this
  exact this.symm

theorem remove_impl_keylen (t : critbit_tree) (u : List Nat) (n : Nat)
    (keycmp : List Nat → List Nat → Nat → Int) (kb : critbit_key → List Nat) :
    (critbit_remove_impl t u n keycmp kb).1.ct_keylen = t.ct_keylen := by
  obtain ⟨c0, c1⟩ := remove_impl_cases t u n keycmp kb
  cases hr : t.ct_root with
  | none => rw [c0 hr]
  | some r =>
    obtain ⟨cm, ch, cd⟩ := c1 r hr
    cases hb : remove_below u n keycmp kb r with
    | mismatch => rw [cm hb]
    | hit k => rw [ch k hb]
    | done r2 f k => rw [cd r2 f k hb]; rfl

theorem remove_twice (t : critbit_tree) (u : List Nat) (n : Nat)
    (keycmp : List Nat → List Nat → Nat → Int) (kb : critbit_key → List Nat)
    (content : critbit_key → List Nat) (hn : ((keys t).map content).Nodup)
    (hcmp : ∀ k ∈ keys t, ∀ k2 ∈ keys t, keycmp (kb k) u n = 0 → keycmp (kb k2) u n = 0 →
      content k = content k2) :
    critbit_remove_impl (critbit_remove_impl t u n keycmp kb).1 u n keycmp kb =
      ((critbit_remove_impl t u n keycmp kb).1, none) := by
  obtain ⟨c0, c1⟩ := remove_impl_cases t u n keycmp kb
  cases hr : t.ct_root with
  | none => rw [c0 hr, c0 hr]
  | some r =>
    have hk : keys t = leaves r := by simp [keys, hr]
    rw [hk] at hn hcmp
    obtain ⟨cm, ch, cd⟩ := c1 r hr
    obtain ⟨_, sh, sd⟩ := remove_below_spec u n keycmp kb r
    cases hb : remove_below u n keycmp kb r with
    | mismatch => rw [cm hb, cm hb]
    | hit k =>
      rw [ch k hb]
      exact (remove_impl_cases _ u n keycmp kb).1 rfl
    | done r2 f k =>
      rw [cd r2 f k hb]
      obtain ⟨_, hc, hp, _⟩ := sd r2 f k hb
      apply remove_impl_absent
      intro k2 hk2 hc2
      simp only [keys, critbit_node_free] at hk2
      have hn2 := (hp.map content).nodup_iff.mp hn
      rw [List.map_cons, List.nodup_cons] at hn2
      apply hn2.1
      rw [hcmp k (hp.mem_iff.mpr (List.mem_cons_self _ _)) k2
        (hp.mem_iff.mpr (List.mem_cons_of_mem _ hk2)) hc hc2]
      exact List.mem_map.mpr ⟨k2, hk2, rfl⟩

/-- Removing every stored string once, in any order, returns each key and
ends with a null root. -/
theorem str_removes_all (σ : List critbit_key) (t : critbit_tree) (hinv : StrInv t)
    (hp : (keys t).Perm σ) :
    (str_removes t (σ.map (fun k => k.mem))).2 = σ.map some ∧
    (str_removes t (σ.map (fun k => k.mem))).1.ct_root = none := by
  induction σ generalizing t with
  | nil =>
    simp only [List.map_nil, str_removes, true_and]
    exact (keys_eq_nil_iff t).mp (List.perm_nil.mp hp)
  | cons K σ ih =>
    have hK : K ∈ keys t := hp.mem_iff.mpr (List.mem_cons_self _ _)
    obtain ⟨h1, h2, h3⟩ := str_remove_mem hinv hK
    have hp2 : (keys (critbit_str_remove t K.mem).1).Perm σ :=
      List.Perm.cons_inv (h3.symm.trans hp)
    obtain ⟨i1, i2⟩ := ih _ h2 hp2
    simp only [List.map_cons, str_removes]
    exact ⟨by rw [h1, i1], i2⟩

theorem buf_get_mem {N : Nat} {t : critbit_tree} (hinv : BufInv N t)
    (hn : ((keys t).map (fun k => k.mem.take N)).Nodup) {K : critbit_key} (hK : K ∈ keys t)
    {p : List Nat} (hp : IsBuf N p) (hpK : p.take N = K.mem.take N) :
    critbit_buf_get t p = some K := by
  obtain ⟨hkl, hg, hs⟩ := hinv
  unfold critbit_buf_get
  have e : critbit_buf_keylen t = N := hkl
  rw [get_impl_eq, e]
  cases hr : t.ct_root with
  | none => simp [keys, hr] at hK
  | some r =>
    have hk : keys t = leaves r := by simp [keys, hr]
    rw [hk] at hK hs hn
    have hv : buf_view N K = probe_byte p N := (buf_view_eq_iff (hs K hK) hp).mpr hpK.symm
    have h1 := descend_view p N r (hg r hr) K hK hv
    have hm := descend_mem p N r
    have h2 : descend p N r = K := by
      apply List.inj_on_of_nodup_map hn hm hK
      show (descend p N r).mem.take N = K.mem.take N
      rw [(buf_view_eq_iff (hs _ hm) hp).mp h1, hpK]
    simp only [get_below]
    rw [h2, if_pos]
    exact (buf_keycmp_eq_zero _ _ _).mpr hv

/-- Inserting buffers whose first `N` bytes are pairwise different, and
different from those of the stored keys, returns `NULL` every time and stores
all of them. -/
theorem buf_inserts_spec {N : Nat} (l : List (Nat × critbit_key)) (t : critbit_tree)
    (hinv : BufInv N t) (hwf : ∀ e ∈ l, IsBuf N e.2.mem)
    (hn : ((keys t).map (fun k => k.mem.take N) ++ l.map (fun e => e.2.mem.take N)).Nodup) :
    (buf_inserts t l).2 = l.map (fun _ => none) ∧ BufInv N (buf_inserts t l).1 ∧
    (keys (buf_inserts t l).1).Perm (l.map (fun e => e.2) ++ keys t) := by
  induction l generalizing t with
  | nil => exact ⟨rfl, hinv, by simp [buf_inserts]⟩
  | cons e l ih =>
    have he := hwf e (List.mem_cons_self _ _)
    obtain ⟨h1, h2⟩ := buf_insert_spec hinv e.1 he
    have hnew : ∀ L ∈ keys t, L.mem.take N ≠ e.2.mem.take N := by
      intro L hL hm
      have := List.disjoint_of_nodup_append hn (List.mem_map.mpr ⟨L, hL, rfl⟩)
      apply this
      rw [hm]
      simp
    rcases h2 with ⟨h3, h4⟩ | ⟨L, hL, hv, _⟩
    · have hn2 : ((keys (critbit_buf_insert t e.1 e.2).1).map (fun k => k.mem.take N) ++
          l.map (fun e => e.2.mem.take N)).Nodup := by
        have hp := (h4.map (fun k => k.mem.take N)).append_right
          (l.map (fun e => e.2.mem.take N))
        rw [hp.nodup_iff]
        have hp2 : ((keys t).map (fun k => k.mem.take N) ++
            (e :: l).map (fun e => e.2.mem.take N)).Perm
            (List.map (fun k => k.mem.take N) (e.2 :: keys t) ++
              l.map (fun e => e.2.mem.take N)) := by
          simp only [List.map_cons, List.cons_append]
          exact List.perm_middle
        exact hp2.nodup_iff.mp hn
      obtain ⟨i1, i2, i3⟩ := ih _ h1 (fun e2 he2 => hwf e2 (List.mem_cons_of_mem _ he2)) hn2
      simp only [buf_inserts, List.map_cons]
      refine ⟨by rw [h3, i1], i2, i3.trans ?_⟩
      refine (List.Perm.append_left _ h4).trans ?_
      simp only [List.cons_append]
      exact List.perm_middle
    · exfalso
      apply hnew L hL
      exact (buf_view_eq_iff (hinv.2.2 L hL) he).mp hv

theorem two_str_inserts (self freearg keylen n1 n2 : Nat) (a b : critbit_key)
    (ha : IsStr a.mem) (hb : IsStr b.mem) (hne : a.mem ≠ b.mem) :
    (critbit_str_insert (critbit_init self freearg keylen) n1 a).2 = none ∧
    (critbit_str_insert (critbit_str_insert (critbit_init self freearg keylen) n1 a).1 n2 b).2 =
      none ∧
    critbit_str_get
      (critbit_str_insert (critbit_str_insert (critbit_init self freearg keylen) n1 a).1 n2 b).1
      a.mem = some a ∧
    critbit_str_get
      (critbit_str_insert (critbit_str_insert (critbit_init self freearg keylen) n1 a).1 n2 b).1
      b.mem = some b := by
  obtain ⟨h1, h2, h3⟩ := str_insert_new (strinv_init self freearg keylen) n1 ha
    (fun K hK => by simp [critbit_init, keys] at hK)
  have hk1 : ∀ K ∈ keys (critbit_str_insert (critbit_init self freearg keylen) n1 a).1,
      K.mem ≠ b.mem := by
    intro K hK
    have := h3.mem_iff.mp hK
    simp only [critbit_init, keys, List.mem_singleton] at this
    rw [this]
    exact hne
  obtain ⟨h4, h5, h6⟩ := str_insert_new h2 n2 hb hk1
  refine ⟨h1, h4, str_get_mem h5 ?_, str_get_mem h5 ?_⟩
  · exact h6.mem_iff.mpr (List.mem_cons_of_mem _ (h3.mem_iff.mpr (List.mem_cons_self _ _)))
  · exact h6.mem_iff.mpr (List.mem_cons_self _ _)

set_option maxRecDepth 100000 in
theorem msb_loop_pow_aux : ∀ x, x < 256 → 0 < x → ∃ i, i < 8 ∧ msb_loop x = 2 ^ i ∧
    2 ^ i ≤ x ∧ x < 2 ^ (i + 1) ∧ x.testBit i = true := by
  decide

set_option maxRecDepth 100000 in
theorem direction_bit_test_aux : ∀ m ∈ [1, 2, 4, 8, 16, 32, 64, 128], ∀ c, c < 256 →
    direction (255 ^^^ m) c ≤ 1 ∧ direction (255 ^^^ m) c = if c &&& m ≠ 0 then 1 else 0 := by
  decide

theorem clear_low_bits_fuel (f1 f2 x : Nat) (h1 : x ≤ f1) (h2 : x ≤ f2) :
    clear_low_bits f1 x = clear_low_bits f2 x := by
  induction f1 generalizing f2 x with
  | zero =>
    have : x = 0 := by omega
    subst this
    cases f2 with
    | zero => rfl
    | succ f2 => simp [clear_low_bits]
  | succ f1 ih =>
    cases f2 with
    | zero =>
      have : x = 0 := by omega
      subst this
      simp [clear_low_bits]
    | succ f2 =>
      simp only [clear_low_bits]
      by_cases hx : x &&& (x - 1) = 0
      · simp [hx]
      · have hne : (x &&& (x - 1) != 0) = true := by simpa using hx
        simp only [hne, if_true]
        have h3 : x &&& (x - 1) ≤ x - 1 := Nat.and_le_right
        have h4 : 0 < x := by
          rcases Nat.eq_zero_or_pos x with h0 | h0
          · subst h0; simp at hx
          · exact h0
        exact ih _ _ (by omega) (by omega)

theorem remove_below_nodes (u : List Nat) (n : Nat) (keycmp : List Nat → List Nat → Nat → Int)
    (keybuf : critbit_key → List Nat) (r : critbit_ref) :
    ∀ r2 f k, remove_below u n keycmp keybuf r = .done r2 f k →
      (nodes r).Perm (f :: nodes r2) := by
  induction r with
  | key k0 =>
    intro r2 f k h
    simp only [remove_below] at h
    split at h <;> simp at h
  | node a c0 c1 byte ob ih0 ih1 =>
    intro r2 f k h
    obtain ⟨_, sh0, _⟩ := remove_below_spec u n keycmp keybuf c0
    obtain ⟨_, sh1, _⟩ := remove_below_spec u n keycmp keybuf c1
    by_cases hd : direction ob (probe_byte u n byte) = 0
    · simp only [remove_below, hd, if_true] at h
      cases hb : remove_below u n keycmp keybuf c0 with
      | mismatch => simp [hb] at h
      | hit k0 =>
        rw [hb] at h
        simp only [remove_result.done.injEq] at h
        obtain ⟨rfl, rfl, rfl⟩ := h
        obtain ⟨rfl, _⟩ := sh0 k0 hb
        simp [nodes]
      | done r0 f0 k0 =>
        rw [hb] at h
        simp only [remove_result.done.injEq] at h
        obtain ⟨rfl, rfl, rfl⟩ := h
        have := ih0 r0 f0 k0 hb
        simp only [nodes]
        refine (List.Perm.cons a (this.append_right (nodes c1))).trans ?_
        simp only [List.cons_append]
        exact List.Perm.swap _ _ _
    · simp only [remove_below, hd, if_false] at h
      cases hb : remove_below u n keycmp keybuf c1 with
      | mismatch => simp [hb] at h
      | hit k0 =>
        rw [hb] at h
        simp only [remove_result.done.injEq] at h
        obtain ⟨rfl, rfl, rfl⟩ := h
        obtain ⟨rfl, _⟩ := sh1 k0 hb
        simp [nodes]
      | done r0 f0 k0 =>
        rw [hb] at h
        simp only [remove_result.done.injEq] at h
        obtain ⟨rfl, rfl, rfl⟩ := h
        have := ih1 r0 f0 k0 hb
        simp only [nodes]
        refine (List.Perm.cons a ((this.append_left (nodes c0)).trans List.perm_middle)).trans ?_
        exact List.Perm.swap _ _ _

/-- Calls made by `critbit_insert_impl`, for every tree and every key. -/
theorem insert_impl_release (t : critbit_tree) (nn : Nat) (X : critbit_key) (n : Nat)
    (kb : critbit_key → List Nat) : InsertRelease t nn (critbit_insert_impl t nn X n kb) := by
  obtain ⟨c0, c1⟩ := insert_impl_cases t nn X n kb
  unfold InsertRelease
  cases hr : t.ct_root with
  | none =>
    rw [c0 hr]
    exact ⟨fun _ => ⟨rfl, rfl⟩, fun h => absurd rfl h, fun K h => by simp at h⟩
  | some r =>
    obtain ⟨c2, c3⟩ := c1 r hr
    cases hdb : different_byte (kb (descend (kb X) n r)) (kb X) 0 n with
    | none =>
      rw [c2 hdb]
      refine ⟨fun h => by simp at h, fun _ h => by simp at h, fun K _ => ⟨rfl, ?_⟩⟩
      simp [critbit_node_free, hr]
    | some q =>
      obtain ⟨d, x⟩ := q
      rw [c3 d x hdb]
      exact ⟨fun h => by simp at h, fun _ _ => rfl, fun K h => by simp at h⟩

/-- Effect of `critbit_remove_impl` on leaves, branch nodes and trace, for
every tree and every probe. -/
theorem remove_impl_release (t : critbit_tree) (u : List Nat) (n : Nat)
    (keycmp : List Nat → List Nat → Nat → Int) (kb : critbit_key → List Nat) :
    RemoveRelease t (critbit_remove_impl t u n keycmp kb) ∧
    RemoveShrinks t (critbit_remove_impl t u n keycmp kb) := by
  obtain ⟨c0, c1⟩ := remove_impl_cases t u n keycmp kb
  unfold RemoveRelease RemoveShrinks
  cases hr : t.ct_root with
  | none =>
    rw [c0 hr]
    exact ⟨Or.inl ⟨rfl, rfl⟩, fun k h => by simp at h⟩
  | some r =>
    obtain ⟨cm, ch, cd⟩ := c1 r hr
    obtain ⟨_, sh, sd⟩ := remove_below_spec u n keycmp kb r
    cases hb : remove_below u n keycmp kb r with
    | mismatch =>
      rw [cm hb]
      exact ⟨Or.inl ⟨rfl, rfl⟩, fun k h => by simp at h⟩
    | hit k =>
      rw [ch k hb]
      obtain ⟨rfl, _⟩ := sh k hb
      refine ⟨Or.inl ⟨by simp [tree_nodes, hr, nodes], rfl⟩, fun k2 h2 => ?_⟩
      simp only [Option.some.injEq] at h2
      subst h2
      refine ⟨by simp [keys, hr, leaves], by simp [keys, hr, leaves], fun k0 _ => ?_,
        fun a c0 c1 b ob h => by simp at h⟩
      exact ⟨rfl, by simp [tree_nodes, hr, nodes], by simp [tree_nodes], rfl⟩
    | done r2 f k =>
      rw [cd r2 f k hb]
      obtain ⟨_, _, hp, _⟩ := sd r2 f k hb
      have hn := remove_below_nodes u n keycmp kb r r2 f k hb
      have hn2 : (tree_nodes t).Perm (f :: tree_nodes (critbit_node_free
          { t with ct_root := some r2 } f)) := by
        simpa [tree_nodes, hr, critbit_node_free] using hn
      refine ⟨Or.inr ⟨f, hn2, rfl⟩, fun k2 h2 => ?_⟩
      simp only [Option.some.injEq] at h2
      subst h2
      have hp2 : (keys t).Perm (k :: keys (critbit_node_free { t with ct_root := some r2 } f)) := by
        simpa [keys, hr, critbit_node_free] using hp
      refine ⟨hp2, by have := hp2.length_eq; simpa using this.symm, fun k0 h0 => ?_,
        fun a c0 c1 b ob _ => ⟨f, hn2, by have := hn2.length_eq; simpa using this.symm, rfl⟩⟩
      simp only [Option.some.injEq] at h0
      subst h0
      simp only [remove_below] at hb
      split at hb <;> simp at hb

theorem calls_of_insert_release {t : critbit_tree} {nn : Nat}
    {r : critbit_tree × Option critbit_key} (h : InsertRelease t nn r) :
    ∃ l, r.1.calls = t.calls ++ l ∧ ∀ c ∈ l, c = (t.self, nn) := by
  obtain ⟨h1, h2, h3⟩ := h
  cases hr : r.2 with
  | some K => exact ⟨[(t.self, nn)], (h3 K hr).1, by simp⟩
  | none =>
    by_cases h0 : t.ct_root = none
    · exact ⟨[(t.self, nn)], (h1 h0).2, by simp⟩
    · exact ⟨[], by simpa using h2 h0 hr, by simp⟩

theorem calls_of_remove_release {t : critbit_tree} {r : critbit_tree × Option critbit_key}
    (h : RemoveRelease t r) :
    ∃ l, r.1.calls = t.calls ++ l ∧ ∀ c ∈ l, c.1 = t.self ∧ c.2 ∈ tree_nodes t := by
  rcases h with ⟨_, h2⟩ | ⟨f, h1, h2⟩
  · exact ⟨[], by simpa using h2, by simp⟩
  · refine ⟨[(t.self, f)], h2, ?_⟩
    intro c hc
    simp only [List.mem_singleton] at hc
    subst hc
    exact ⟨rfl, h1.mem_iff.mpr (List.mem_cons_self _ _)⟩

theorem buf_run_inserts_eq (t : critbit_tree) (l : List (Nat × critbit_key)) :
    buf_run t (inserts l) = (buf_inserts t l).1 := by
  induction l generalizing t with
  | nil => rfl
  | cons e l ih =>
    simp only [inserts, List.map_cons, buf_run, List.foldl_cons, buf_step, buf_inserts]
    exact ih _

theorem str_get_of_keys {t1 t2 : critbit_tree} (h1 : StrInv t1) (h2 : StrInv t2)
    (hp : (keys t1).Perm (keys t2)) {p : List Nat} (hs : IsStr p) :
    critbit_str_get t1 p = critbit_str_get t2 p := by
  by_cases hex : ∃ K ∈ keys t1, K.mem = p
  · obtain ⟨K, hK, rfl⟩ := hex
    rw [str_get_mem h1 hK, str_get_mem h2 (hp.mem_iff.mp hK)]
  · rw [str_get_absent h1.2.1 hs (fun K hK hm => hex ⟨K, hK, hm⟩),
      str_get_absent h2.2.1 hs (fun K hK hm => hex ⟨K, hp.mem_iff.mpr hK, hm⟩)]

theorem buf_get_absent {N : Nat} {t : critbit_tree} (hinv : BufInv N t) {p : List Nat}
    (hp : IsBuf N p) (h : ∀ K ∈ keys t, K.mem.take N ≠ p.take N) : critbit_buf_get t p = none := by
  unfold critbit_buf_get
  apply get_impl_absent
  intro k hk hc
  have e : critbit_buf_keylen t = N := hinv.1
  rw [e] at hc
  apply h k hk
  rw [take_eq_iff (hinv.2.2 k hk).2.1 hp.2.1]
  exact (probe_byte_eq_iff _ _ _).mp ((buf_keycmp_eq_zero _ _ _).mp hc)

theorem buf_get_of_keys {N : Nat} {t1 t2 : critbit_tree} (h1 : BufInv N t1) (h2 : BufInv N t2)
    (hn : ((keys t1).map (fun k => k.mem.take N)).Nodup)
    (hp : (keys t1).Perm (keys t2)) {p : List Nat} (hs : IsBuf N p) :
    critbit_buf_get t1 p = critbit_buf_get t2 p := by
  have hn2 : ((keys t2).map (fun k => k.mem.take N)).Nodup :=
    (hp.map (fun k => k.mem.take N)).nodup_iff.mp hn
  by_cases hex : ∃ K ∈ keys t1, K.mem.take N = p.take N
  · obtain ⟨K, hK, hKp⟩ := hex
    rw [buf_get_mem h1 hn hK hs hKp.symm, buf_get_mem h2 hn2 (hp.mem_iff.mp hK) hs hKp.symm]
  · rw [buf_get_absent h1 hs (fun K hK hm => hex ⟨K, hK, hm⟩),
      buf_get_absent h2 hs (fun K hK hm => hex ⟨K, hp.mem_iff.mpr hK, hm⟩)]

theorem attach_has_node (nn : Nat) (X : critbit_key) (d ob nd : Nat) (old : critbit_ref) :
    HasNode (attach nn X d ob nd old) nn d ob := by
  unfold attach
  split <;> simp [HasNode]

theorem splice_has_node (nn : Nat) (X : critbit_key) (u : List Nat) (n d ob nd : Nat)
    (r : critbit_ref) : HasNode (splice nn X u n d ob nd r) nn d ob := by
  induction r with
  | key k => exact attach_has_node _ _ _ _ _ _
  | node a c0 c1 byte obq ih0 ih1 =>
    simp only [splice]
    split
    · exact attach_has_node _ _ _ _ _ _
    · split
      · exact attach_has_node _ _ _ _ _ _
      · split
        · exact Or.inr (Or.inl ih0)
        · exact Or.inr (Or.inr ih1)

theorem memcmp_from_first_diff (a b : List Nat) (i n d : Nat) (hi : i ≤ d) (hd : d < i + n)
    (heq : ∀ j, i ≤ j → j < d → rd a j = rd b j) (hne : rd a d ≠ rd b d) :
    memcmp_from a b i n = (rd a d : Int) - (rd b d : Int) := by
  induction n generalizing i with
  | zero => omega
  | succ n ih =>
    simp only [memcmp_from]
    by_cases h : i = d
    · subst h
      have hne2 : (rd a i != rd b i) = true := by simpa using hne
      simp [hne2]
    · have he := heq i (le_refl _) (by omega)
      simp only [he, bne_self_eq_false, Bool.false_eq_true, if_false]
      exact ih (i + 1) (by omega) (by omega) (fun j h1 h2 => heq j (by omega) h2)

theorem above_attach (cl : Nat → Prop) (pb pob nn : Nat) (X : critbit_key) (d ob nd : Nat)
    (old : critbit_ref) (h : ¬ cl d → LexBefore (pb, pob) (d, ob)) :
    Above cl pb pob (attach nn X d ob nd old) := by
  unfold attach
  split <;> exact h

theorem ordered_attach (cl : Nat → Prop) (nn : Nat) (X : critbit_key) (d ob nd : Nat)
    (old : critbit_ref) (ho : Ordered cl old) (ha : Above cl d ob old) :
    Ordered cl (attach nn X d ob nd old) := by
  unfold attach
  split
  · exact ⟨ha, trivial, ho, trivial⟩
  · exact ⟨trivial, ha, trivial, ho⟩

/-- The splice keeps the order of the tests.  A test that was above the old
subtree and comes before the new test is above the new subtree. -/
theorem splice_ordered {view : critbit_key → Nat → Nat} {cl : Nat → Prop} (nn : Nat)
    (X : critbit_key) (u : List Nat) (n d ob nd : Nat) (hX : probe_byte u n = view X)
    (r : critbit_ref) (hg : Good view cl r) (ho : Ordered cl r)
    (hdir : ¬ cl d → IsMask ob ∧ direction ob (view (descend u n r) d) = nd ∧
      direction ob (view X d) = 1 - nd ∧ nd ≤ 1) :
    Ordered cl (splice nn X u n d ob nd r) ∧
    ∀ pb pob, Above cl pb pob r → (¬ cl d → LexBefore (pb, pob) (d, ob)) →
      Above cl pb pob (splice nn X u n d ob nd r) := by
  induction r with
  | key k =>
    simp only [splice]
    exact ⟨ordered_attach _ _ _ _ _ _ _ trivial trivial,
      fun pb pob _ h => above_attach _ _ _ _ _ _ _ _ _ h⟩
  | node a c0 c1 byte obq ih0 ih1 =>
    obtain ⟨_, hdirq, hg0, hg1⟩ := id hg
    obtain ⟨ha0, ha1, ho0, ho1⟩ := id ho
    simp only [splice]
    split
    · rename_i h1
      exact ⟨ordered_attach _ _ _ _ _ _ _ ho (fun _ => Or.inl h1),
        fun pb pob _ h => above_attach _ _ _ _ _ _ _ _ _ h⟩
    · rename_i h1
      split
      · rename_i h2
        exact ⟨ordered_attach _ _ _ _ _ _ _ ho (fun _ => Or.inr ⟨h2.1.symm, h2.2⟩),
          fun pb pob _ h => above_attach _ _ _ _ _ _ _ _ _ h⟩
      · rename_i h2
        have hle : byte < d ∨ (byte = d ∧ obq ≤ ob) := by
          by_cases h3 : byte = d
          · right
            refine ⟨h3, ?_⟩
            by_contra h4
            exact h2 ⟨h3, by omega⟩
          · left; omega
        split
        · rename_i hd
          have hdesc : descend u n (.node a c0 c1 byte obq) = descend u n c0 := by
            simp [descend, hd]
          rw [hdesc] at hdir
          obtain ⟨i1, i2⟩ := ih0 hg0 ho0 hdir
          have hstrict : ¬ cl d → LexBefore (byte, obq) (d, ob) := by
            intro hc
            rcases hle with h | ⟨h3, h4⟩
            · exact Or.inl h
            · refine Or.inr ⟨h3, ?_⟩
              rcases Nat.lt_or_eq_of_le h4 with h5 | h5
              · exact h5
              · exfalso
                subst h3 h5
                obtain ⟨_, hL, hXd, _⟩ := hdir hc
                have e1 := (hdirq hc).2.1 _ (descend_mem u n c0)
                rw [hX] at hd
                omega
          exact ⟨⟨i2 _ _ ha0 hstrict, ha1, i1, ho1⟩, fun pb pob h _ => h⟩
        · rename_i hd
          have hdesc : descend u n (.node a c0 c1 byte obq) = descend u n c1 := by
            simp [descend, hd]
          rw [hdesc] at hdir
          obtain ⟨i1, i2⟩ := ih1 hg1 ho1 hdir
          have hstrict : ¬ cl d → LexBefore (byte, obq) (d, ob) := by
            intro hc
            rcases hle with h | ⟨h3, h4⟩
            · exact Or.inl h
            · refine Or.inr ⟨h3, ?_⟩
              rcases Nat.lt_or_eq_of_le h4 with h5 | h5
              · exact h5
              · exfalso
                subst h3 h5
                obtain ⟨_, hL, hXd, _⟩ := hdir hc
                have e1 := (hdirq hc).2.2 _ (descend_mem u n c1)
                rw [hX] at hd
                omega
          exact ⟨⟨ha0, i2 _ _ ha1 hstrict, ho0, i1⟩, fun pb pob h _ => h⟩

theorem lexbefore_trans {p q s : Nat × Nat} (h1 : LexBefore p q) (h2 : LexBefore q s) :
    LexBefore p s := by
  unfold LexBefore at *
  omega

/-- The removal keeps the order of the tests. -/
theorem remove_below_ordered {cl : Nat → Prop} (hup : ∀ a b, cl a → a ≤ b → cl b)
    (u : List Nat) (n : Nat) (keycmp : List Nat → List Nat → Nat → Int)
    (keybuf : critbit_key → List Nat) (r : critbit_ref) (ho : Ordered cl r) :
    ∀ r2 f k, remove_below u n keycmp keybuf r = .done r2 f k →
      Ordered cl r2 ∧ ∀ pb pob, Above cl pb pob r → Above cl pb pob r2 := by
  induction r with
  | key k0 =>
    intro r2 f k h
    simp only [remove_below] at h
    split at h <;> simp at h
  | node a c0 c1 byte ob ih0 ih1 =>
    intro r2 f k h
    obtain ⟨ha0, ha1, ho0, ho1⟩ := ho
    have hsib : ∀ s : critbit_ref, Above cl byte ob s → ∀ pb pob,
        Above cl pb pob (.node a c0 c1 byte ob) → Above cl pb pob s := by
      intro s hs pb pob hp
      cases s with
      | key _ => trivial
      | node a2 d0 d1 b2 ob2 =>
        intro hc
        have h1 : LexBefore (byte, ob) (b2, ob2) := hs hc
        have h2 : ¬ cl byte := by
          intro hcb
          apply hc
          apply hup _ _ hcb
          unfold LexBefore at h1
          simp only at h1
          omega
        exact lexbefore_trans (hp h2) h1
    by_cases hd : direction ob (probe_byte u n byte) = 0
    · simp only [remove_below, hd, if_true] at h
      cases hb : remove_below u n keycmp keybuf c0 with
      | mismatch => simp [hb] at h
      | hit k0 =>
        rw [hb] at h
        simp only [remove_result.done.injEq] at h
        obtain ⟨rfl, rfl, rfl⟩ := h
        exact ⟨ho1, hsib _ ha1⟩
      | done r0 f0 k0 =>
        rw [hb] at h
        simp only [remove_result.done.injEq] at h
        obtain ⟨rfl, rfl, rfl⟩ := h
        obtain ⟨i1, i2⟩ := ih0 ho0 r0 f0 k0 hb
        exact ⟨⟨i2 _ _ ha0, ha1, i1, ho1⟩, fun pb pob hp => hp⟩
    · simp only [remove_below, hd, if_false] at h
      cases hb : remove_below u n keycmp keybuf c1 with
      | mismatch => simp [hb] at h
      | hit k0 =>
        rw [hb] at h
        simp only [remove_result.done.injEq] at h
        obtain ⟨rfl, rfl, rfl⟩ := h
        exact ⟨ho0, hsib _ ha0⟩
      | done r0 f0 k0 =>
        rw [hb] at h
        simp only [remove_result.done.injEq] at h
        obtain ⟨rfl, rfl, rfl⟩ := h
        obtain ⟨i1, i2⟩ := ih1 ho1 r0 f0 k0 hb
        exact ⟨⟨ha0, i2 _ _ ha1, ho0, i1⟩, fun pb pob hp => hp⟩

theorem mask_compl_lt_aux : ∀ i, i < 8 → ∀ j, j < 8 → 255 ^^^ 2 ^ i < 255 ^^^ 2 ^ j →
    (255 ^^^ 2 ^ j) ^^^ 255 < (255 ^^^ 2 ^ i) ^^^ 255 := by
  decide

theorem mask_compl_lt {a b : Nat} (ha : IsMask a) (hb : IsMask b) (h : a < b) :
    b ^^^ 255 < a ^^^ 255 := by
  obtain ⟨i, hi, rfl⟩ := ha
  obtain ⟨j, hj, rfl⟩ := hb
  exact mask_compl_lt_aux i hi j hj h

theorem paths_head (c : critbit_ref) (π : List (Nat × Nat)) (hπ : π ∈ paths c) (y : Nat × Nat)
    (hy : y ∈ π.head?) : ∃ a d0 d1, c = .node a d0 d1 y.1 y.2 := by
  cases c with
  | key k =>
    simp only [paths, List.mem_singleton] at hπ
    subst hπ
    simp at hy
  | node a d0 d1 b ob =>
    simp only [paths, List.mem_map] at hπ
    obtain ⟨π2, _, rfl⟩ := hπ
    simp only [List.head?_cons, Option.mem_def, Option.some.injEq] at hy
    subst hy
    exact ⟨a, d0, d1, rfl⟩

/-- Along every path below an ordered subtree that satisfies the invariant,
successive tests are in order, and every test of a byte inside the keys has a
well-formed mask. -/
theorem ordered_paths {view : critbit_key → Nat → Nat} {cl : Nat → Prop}
    (hup : ∀ a b, cl a → a ≤ b → cl b) (r : critbit_ref) (hg : Good view cl r)
    (ho : Ordered cl r) :
    ∀ π ∈ paths r, π.Chain' (fun p q => ¬ cl q.1 → LexBefore p q) ∧
      π.Chain' (fun p q => ¬ cl q.1 → TestBefore p q) ∧ ∀ e ∈ π, ¬ cl e.1 → IsMask e.2 := by
  induction r with
  | key k =>
    intro π hπ
    simp only [paths, List.mem_singleton] at hπ
    subst hπ
    simp
  | node a c0 c1 b ob ih0 ih1 =>
    intro π hπ
    obtain ⟨_, hdir, hg0, hg1⟩ := hg
    obtain ⟨ha0, ha1, ho0, ho1⟩ := ho
    simp only [paths, List.mem_map, List.mem_append] at hπ
    obtain ⟨π2, hπ2, rfl⟩ := hπ
    have key : ∀ c : critbit_ref, Good view cl c → Above cl b ob c → π2 ∈ paths c →
        (π2.Chain' (fun p q => ¬ cl q.1 → LexBefore p q) ∧
          π2.Chain' (fun p q => ¬ cl q.1 → TestBefore p q) ∧
          ∀ e ∈ π2, ¬ cl e.1 → IsMask e.2) →
        ((b, ob) :: π2).Chain' (fun p q => ¬ cl q.1 → LexBefore p q) ∧
          ((b, ob) :: π2).Chain' (fun p q => ¬ cl q.1 → TestBefore p q) ∧
          ∀ e ∈ (b, ob) :: π2, ¬ cl e.1 → IsMask e.2 := by
      intro c hgc hac hπc ⟨i1, i2, i3⟩
      refine ⟨List.chain'_cons'.mpr ⟨fun y hy hc => ?_, i1⟩,
        List.chain'_cons'.mpr ⟨fun y hy hc => ?_, i2⟩, fun e he hc => ?_⟩
      · obtain ⟨a2, d0, d1, rfl⟩ := paths_head c π2 hπc y hy
        exact hac hc
      · obtain ⟨a2, d0, d1, rfl⟩ := paths_head c π2 hπc y hy
        have hl : LexBefore (b, ob) (y.1, y.2) := hac hc
        have hb : ¬ cl b := by
          intro hcb
          apply hc
          apply hup _ _ hcb
          unfold LexBefore at hl
          simp only at hl
          omega
        rcases hl with h | ⟨h1, h2⟩
        · exact Or.inl h
        · exact Or.inr ⟨h1, mask_compl_lt (hdir hb).1 (hgc.2.1 hc).1 h2⟩
      · rcases List.mem_cons.mp he with rfl | he
        · exact (hdir hc).1
        · exact i3 e he hc
    rcases hπ2 with h | h
    · exact key c0 hg0 ha0 h (ih0 hg0 ho0 π2 h)
    · exact key c1 hg1 ha1 h (ih1 hg1 ho1 π2 h)

/-- Removal keeps the order of the tests, in every tree. -/
theorem remove_impl_ordered {cl : Nat → Prop} (hup : ∀ a b, cl a → a ≤ b → cl b)
    (t : critbit_tree) (u : List Nat) (n : Nat) (keycmp : List Nat → List Nat → Nat → Int)
    (kb : critbit_key → List Nat) (ho : ∀ r, t.ct_root = some r → Ordered cl r) :
    ∀ r, (critbit_remove_impl t u n keycmp kb).1.ct_root = some r → Ordered cl r := by
  obtain ⟨c0, c1⟩ := remove_impl_cases t u n keycmp kb
  cases hr : t.ct_root with
  | none => rw [c0 hr]; exact ho
  | some r =>
    obtain ⟨cm, ch, cd⟩ := c1 r hr
    cases hb : remove_below u n keycmp kb r with
    | mismatch => rw [cm hb]; exact ho
    | hit k =>
      rw [ch k hb]
      intro r2 h
      simp at h
    | done r2 f k =>
      rw [cd r2 f k hb]
      intro r3 h
      simp only [critbit_node_free, Option.some.injEq] at h
      subst h
      exact (remove_below_ordered hup u n keycmp kb r (ho r hr) r2 f k hb).1

theorem str_insert_ordered {t : critbit_tree} (hinv : StrInv t)
    (ho : ∀ r, t.ct_root = some r → Ordered (fun _ => False) r) (nn : Nat) {X : critbit_key}
    (hX : IsStr X.mem) :
    ∀ r, (critbit_str_insert t nn X).1.ct_root = some r → Ordered (fun _ => False) r := by
  obtain ⟨hg, hs, _⟩ := hinv
  unfold critbit_str_insert
  obtain ⟨c0, c1⟩ := insert_impl_cases t nn X (critbit_str_keylen X.mem) critbit_str_keybuf
  cases hr : t.ct_root with
  | none =>
    rw [c0 hr]
    intro r h
    simp only [critbit_node_free, Option.some.injEq] at h
    subst h
    trivial
  | some r =>
    have hk : keys t = leaves r := by simp [keys, hr]
    obtain ⟨c2, c3⟩ := c1 r hr
    simp only [critbit_str_keybuf, critbit_str_keylen] at c2 c3 ⊢
    have hLm := descend_mem X.mem (strlen X.mem) r
    have hLs : IsStr (descend X.mem (strlen X.mem) r).mem := hs _ (by rw [hk]; exact hLm)
    cases hdb : different_byte (descend X.mem (strlen X.mem) r).mem X.mem 0 (strlen X.mem) with
    | none =>
      rw [c2 hdb]
      intro r2 h
      exact ho r2 (by simpa [critbit_node_free] using h)
    | some q =>
      obtain ⟨d, x⟩ := q
      rw [c3 d x hdb]
      obtain ⟨h1, h2, h3⟩ := str_different_byte_some hX hdb
      have hvL : ∀ i, str_view (descend X.mem (strlen X.mem) r) i =
          rd (descend X.mem (strlen X.mem) r).mem i := fun i => probe_byte_str hLs i
      have hvX : ∀ i, str_view X i = rd X.mem i := fun i => probe_byte_str hX i
      obtain ⟨_, hm, hdX, hdL⟩ := @first_diff_sim (str_view (descend X.mem (strlen X.mem) r))
        (str_view X) d x (str_view_lt hLs) (str_view_lt hX)
        (fun j hj => by rw [hvL, hvX]; exact h1 j hj) (by rw [hvL, hvX]; exact h2)
        (by rw [hvL, hvX]; exact h3)
      rw [hvL] at hdX hdL
      intro r2 h
      simp only [Option.some.injEq] at h
      subst h
      exact (@splice_ordered str_view (fun _ => False) nn X X.mem (strlen X.mem) d
        (msb_loop x ^^^ 255) (direction (msb_loop x ^^^ 255)
          (rd (descend X.mem (strlen X.mem) r).mem d)) rfl r (hg r hr) (ho r hr)
        (fun _ => ⟨hm, by rw [hvL], hdX, hdL⟩)).1

theorem buf_insert_ordered {N : Nat} {t : critbit_tree} (hinv : BufInv N t)
    (ho : ∀ r, t.ct_root = some r → Ordered (fun b => N ≤ b) r) (nn : Nat) {X : critbit_key}
    (hX : IsBuf N X.mem) :
    ∀ r, (critbit_buf_insert t nn X).1.ct_root = some r → Ordered (fun b => N ≤ b) r := by
  obtain ⟨hkl, hg, hs⟩ := hinv
  unfold critbit_buf_insert
  obtain ⟨c0, c1⟩ := insert_impl_cases t nn X (critbit_buf_keylen t) critbit_buf_keybuf
  have hkl2 : critbit_buf_keylen t = N := hkl
  rw [hkl2] at c0 c1 ⊢
  cases hr : t.ct_root with
  | none =>
    rw [c0 hr]
    intro r h
    simp only [critbit_node_free, Option.some.injEq] at h
    subst h
    trivial
  | some r =>
    have hk : keys t = leaves r := by simp [keys, hr]
    obtain ⟨c2, c3⟩ := c1 r hr
    simp only [critbit_buf_keybuf] at c2 c3
    have hLm := descend_mem X.mem N r
    have hLs : IsBuf N (descend X.mem N r).mem := hs _ (by rw [hk]; exact hLm)
    cases hdb : different_byte (descend X.mem N r).mem X.mem 0 N with
    | none =>
      rw [c2 hdb]
      intro r2 h
      exact ho r2 (by simpa [critbit_node_free] using h)
    | some q =>
      obtain ⟨d, x⟩ := q
      rw [c3 d x hdb]
      obtain ⟨_, h2, h3⟩ := (different_byte_spec _ _ 0 N).2 d x hdb
      intro r2 h
      simp only [Option.some.injEq] at h
      subst h
      refine (@splice_ordered (buf_view N) (fun b => N ≤ b) nn X X.mem N d
        (msb_loop x ^^^ 255) (direction (msb_loop x ^^^ 255)
          (rd (descend X.mem N r).mem d)) rfl r (hg r hr) (ho r hr) ?_).1
      intro hc
      rcases h3 with ⟨h4, h5, h6⟩ | ⟨h4, _, _⟩
      · have hd : d < N := by omega
        have hvL : ∀ i, i < N → buf_view N (descend X.mem N r) i =
            rd (descend X.mem N r).mem i := fun i hi => by simp [buf_view, probe_byte, hi]
        have hvX : ∀ i, i < N → buf_view N X i = rd X.mem i :=
          fun i hi => by simp [buf_view, probe_byte, hi]
        obtain ⟨_, hm, hdX, hdL⟩ := @first_diff_sim (buf_view N (descend X.mem N r))
          (buf_view N X) d x (buf_view_lt hLs) (buf_view_lt hX)
          (fun j hj => by rw [hvL j (by omega), hvX j (by omega)]; exact h2 j (Nat.zero_le _) hj)
          (by rw [hvL d hd, hvX d hd]; exact h5) (by rw [hvL d hd, hvX d hd]; exact h6)
        rw [hvL d hd] at hdX hdL
        exact ⟨hm, by rw [hvL d hd], hdX, hdL⟩
      · exact absurd (show N ≤ d by omega) hc

/-- Trees with ordered tests. -/
theorem str_reachable_ordered {t : critbit_tree} (h : StrReachable t) :
    StrInv t ∧ ∀ r, t.ct_root = some r → Ordered (fun _ => False) r := by
  obtain ⟨self, freearg, keylen, ops, hops, rfl⟩ := h
  have : ∀ (ops : List Op) (t : critbit_tree), StrInv t →
      (∀ r, t.ct_root = some r → Ordered (fun _ => False) r) → (∀ op ∈ ops, StrOp op) →
      StrInv (str_run t ops) ∧
        ∀ r, (str_run t ops).ct_root = some r → Ordered (fun _ => False) r := by
    intro ops
    induction ops with
    | nil => intro t h1 h2 _; exact ⟨h1, h2⟩
    | cons op ops ih =>
      intro t h1 h2 hops
      simp only [str_run, List.foldl_cons]
      have hop := hops op (List.mem_cons_self _ _)
      apply ih
      · exact (rep_step (s := keys t) ⟨h1, List.Perm.refl _⟩ hop).1
      · cases op with
        | insert nn X => exact str_insert_ordered h1 h2 nn hop
        | remove p => exact remove_impl_ordered (fun _ _ h _ => h) t p _ _ _ h2
      · exact fun o ho => hops o (List.mem_cons_of_mem _ ho)
  exact this ops _ (strinv_init self freearg keylen) (fun r h => by simp [critbit_init] at h) hops

theorem buf_reachable_ordered {N : Nat} {t : critbit_tree} (h : BufReachable N t) :
    BufInv N t ∧ ∀ r, t.ct_root = some r → Ordered (fun b => N ≤ b) r := by
  obtain ⟨self, freearg, ops, hops, rfl⟩ := h
  have : ∀ (ops : List Op) (t : critbit_tree), BufInv N t →
      (∀ r, t.ct_root = some r → Ordered (fun b => N ≤ b) r) → (∀ op ∈ ops, BufOp N op) →
      BufInv N (buf_run t ops) ∧
        ∀ r, (buf_run t ops).ct_root = some r → Ordered (fun b => N ≤ b) r := by
    intro ops
    induction ops with
    | nil => intro t h1 h2 _; exact ⟨h1, h2⟩
    | cons op ops ih =>
      intro t h1 h2 hops
      simp only [buf_run, List.foldl_cons]
      have hop := hops op (List.mem_cons_self _ _)
      apply ih
      · cases op with
        | insert nn X => exact (buf_insert_spec h1 nn hop).1
        | remove p => exact buf_remove_inv h1 p
      · cases op with
        | insert nn X => exact buf_insert_ordered h1 h2 nn hop
        | remove p =>
          exact remove_impl_ordered (fun _ _ h1 h2 => le_trans h1 h2) t p _ _ _ h2
      · exact fun o ho => hops o (List.mem_cons_of_mem _ ho)
  exact this ops _ (bufinv_init self freearg N) (fun r h => by simp [critbit_init] at h) hops

theorem splice_eq_slot_set (nn : Nat) (X : critbit_key) (u : List Nat) (n d ob nd : Nat)
    (r : critbit_ref) :
    ∃ sub, slot_at r (splice_slot u n d ob r) = some sub ∧
      splice nn X u n d ob nd r =
        slot_set r (splice_slot u n d ob r) (attach nn X d ob nd sub) := by
  induction r with
  | key k => exact ⟨.key k, rfl, rfl⟩
  | node a c0 c1 byte obq ih0 ih1 =>
    simp only [splice, splice_slot]
    split
    · exact ⟨_, rfl, rfl⟩
    · split
      · exact ⟨_, rfl, rfl⟩
      · split
        · obtain ⟨sub, h1, h2⟩ := ih0
          exact ⟨sub, by simpa [slot_at] using h1, by simp [slot_set, h2]⟩
        · obtain ⟨sub, h1, h2⟩ := ih1
          exact ⟨sub, by simpa [slot_at] using h1, by simp [slot_set, h2]⟩

/-! ## Leaf order, node conservation and the insert-remove round trip -/

/-- Two bytes that agree on all bits above the one a mask tests, and take the
directions 0 and 1 there, are in ascending order. -/
theorem byte_lt_of_directions {a b ob : Nat} (ha : a < 256) (hb : b < 256) (hm : IsMask ob)
    (hhi : ∀ m, m < ob → IsMask m → direction m a = direction m b)
    (h0 : direction ob a = 0) (h1 : direction ob b = 1) : a < b := by
  obtain ⟨i, hi, rfl⟩ := hm
  rw [direction_mask_aux i hi a ha] at h0
  rw [direction_mask_aux i hi b hb] at h1
  refine Nat.lt_of_testBit i (by revert h0; cases a.testBit i <;> simp)
    (by revert h1; cases b.testBit i <;> simp) ?_
  intro j hj
  by_cases hj8 : j < 8
  · have := hhi (255 ^^^ 2 ^ j) ((mask_lt_aux i hi j hj8).mpr hj) ⟨j, hj8, rfl⟩
    rw [direction_mask_aux j hj8 a ha, direction_mask_aux j hj8 b hb] at this
    revert this
    cases a.testBit j <;> cases b.testBit j <;> simp
  · have h256 : 256 ≤ 2 ^ j := by
      have : 2 ^ 8 ≤ 2 ^ j := Nat.pow_le_pow_right (by decide) (by omega)
      simpa using this
    rw [Nat.testBit_lt_two_pow (lt_of_lt_of_le ha h256),
      Nat.testBit_lt_two_pow (lt_of_lt_of_le hb h256)]

theorem rd_cons_succ (x : Nat) (a : List Nat) (j : Nat) : rd (x :: a) (j + 1) = rd a j := by
  simp [rd]

theorem str_lt_of_first_diff : ∀ (a b : List Nat) (d : Nat),
    (∀ j, j < d → rd a j = rd b j) → rd a d < rd b d → str_lt a b
  | [], [], d, _, h => by simp [rd] at h
  | [], _ :: _, _, _, _ => List.Lex.nil
  | _ :: _, [], d, _, h => by simp [rd] at h
  | x :: a, y :: b, 0, _, h => List.Lex.rel (by simpa [rd] using h)
  | x :: a, y :: b, d + 1, heq, h => by
    have hxy : x = y := by simpa [rd] using heq 0 (Nat.succ_pos d)
    subst hxy
    refine List.Lex.cons (str_lt_of_first_diff a b d (fun j hj => ?_) ?_)
    · have := heq (j + 1) (by omega)
      rwa [rd_cons_succ, rd_cons_succ] at this
    · rwa [rd_cons_succ, rd_cons_succ] at h

/-- In a String-domain subtree the leaves read from child 0 to child 1 are
in ascending lexicographic order. -/
theorem good_leaves_sorted (r : critbit_ref) (hg : Good str_view (fun _ => False) r)
    (hs : ∀ k ∈ leaves r, IsStr k.mem) :
    (leaves r).Pairwise (fun k k' => str_lt k.mem k'.mem) := by
  induction r with
  | key k => simp [leaves]
  | node a c0 c1 byte ob ih0 ih1 =>
    obtain ⟨hsim, hdir, hg0, hg1⟩ := hg
    obtain ⟨hm, hd0, hd1⟩ := hdir (fun h => h)
    simp only [leaves] at hs hsim ⊢
    rw [List.pairwise_append]
    refine ⟨ih0 hg0 (fun k hk => hs k (List.mem_append_left _ hk)),
      ih1 hg1 (fun k hk => hs k (List.mem_append_right _ hk)), ?_⟩
    intro k hk k' hk'
    have hsk := hs k (List.mem_append_left _ hk)
    have hsk' := hs k' (List.mem_append_right _ hk')
    obtain ⟨heq, hhi⟩ := (hsim k (List.mem_append_left _ hk) k'
      (List.mem_append_right _ hk')).2 (fun h => h)
    have hlt := byte_lt_of_directions (str_view_lt hsk byte) (str_view_lt hsk' byte) hm hhi
      (hd0 k hk) (hd1 k' hk')
    have hv : ∀ i, str_view k i = rd k.mem i := fun i => probe_byte_str hsk i
    have hv' : ∀ i, str_view k' i = rd k'.mem i := fun i => probe_byte_str hsk' i
    refine str_lt_of_first_diff k.mem k'.mem byte (fun j hj => ?_) ?_
    · rw [← hv, ← hv']; exact heq j hj
    · rw [← hv, ← hv']; exact hlt

theorem nodes_attach (newnode : Nat) (X : critbit_key) (d ob nd : Nat) (old : critbit_ref) :
    nodes (attach newnode X d ob nd old) = newnode :: nodes old := by
  unfold attach
  split <;> simp [nodes]

theorem splice_nodes (nn : Nat) (X : critbit_key) (u : List Nat) (n d ob nd : Nat)
    (r : critbit_ref) : (nodes (splice nn X u n d ob nd r)).Perm (nn :: nodes r) := by
  induction r with
  | key k => simp only [splice, nodes_attach]; exact List.Perm.refl _
  | node a c0 c1 byte obq ih0 ih1 =>
    simp only [splice]
    split
    · rw [nodes_attach]
    · split
      · rw [nodes_attach]
      · split
        · simp only [nodes]
          refine ((ih0.append_right _).cons a).trans ?_
          exact List.Perm.swap _ _ _
        · simp only [nodes]
          refine ((ih1.append_left _).cons a).trans ?_
          refine (List.Perm.cons a List.perm_middle).trans ?_
          exact List.Perm.swap _ _ _

theorem insert_impl_conserve (t : critbit_tree) (nn : Nat) (X : critbit_key) (n : Nat)
    (kb : critbit_key → List Nat) :
    (tree_nodes (critbit_insert_impl t nn X n kb).1 ++
      released (critbit_insert_impl t nn X n kb).1).Perm (nn :: (tree_nodes t ++ released t)) := by
  obtain ⟨c0, c1⟩ := insert_impl_cases t nn X n kb
  cases hr : t.ct_root with
  | none =>
    rw [c0 hr]
    simp only [tree_nodes, released, critbit_node_free, hr, List.map_append, List.map_cons,
      List.map_nil, List.nil_append, nodes]
    exact (List.perm_append_comm).trans (List.Perm.refl _)
  | some r =>
    obtain ⟨c2, c3⟩ := c1 r hr
    cases hdb : different_byte (kb (descend (kb X) n r)) (kb X) 0 n with
    | none =>
      rw [c2 hdb]
      simp only [tree_nodes, released, critbit_node_free, hr, List.map_append, List.map_cons,
        List.map_nil]
      rw [← List.append_assoc]
      exact List.perm_append_comm
    | some p =>
      obtain ⟨d, x⟩ := p
      rw [c3 d x hdb]
      simp only [tree_nodes, released, hr]
      exact (splice_nodes _ _ _ _ _ _ _ r).append_right _

theorem remove_impl_conserve (t : critbit_tree) (u : List Nat) (n : Nat)
    (keycmp : List Nat → List Nat → Nat → Int) (kb : critbit_key → List Nat) :
    (tree_nodes (critbit_remove_impl t u n keycmp kb).1 ++
      released (critbit_remove_impl t u n keycmp kb).1).Perm (tree_nodes t ++ released t) := by
  rcases (remove_impl_release t u n keycmp kb).1 with ⟨h1, h2⟩ | ⟨f, h1, h2⟩
  · simp only [released, h1, h2]
    exact List.Perm.refl _
  · simp only [released, h2, List.map_append, List.map_cons, List.map_nil]
    refine List.Perm.trans ?_ (h1.append_right _).symm
    rw [← List.append_assoc]
    exact (List.perm_append_comm).trans (List.Perm.refl _)

theorem run_conserve (step : critbit_tree → Op → critbit_tree)
    (hi : ∀ t nn X, (tree_nodes (step t (.insert nn X)) ++ released (step t (.insert nn X))).Perm
      (nn :: (tree_nodes t ++ released t)))
    (hr : ∀ t u, (tree_nodes (step t (.remove u)) ++ released (step t (.remove u))).Perm
      (tree_nodes t ++ released t)) :
    ∀ (ops : List Op) (t : critbit_tree),
      (tree_nodes (ops.foldl step t) ++ released (ops.foldl step t)).Perm
        (supplied ops ++ (tree_nodes t ++ released t)) := by
  intro ops
  induction ops with
  | nil => intro t; exact List.Perm.refl _
  | cons op ops ih =>
    intro t
    simp only [List.foldl_cons]
    refine (ih (step t op)).trans ?_
    cases op with
    | insert nn X =>
      simp only [supplied, List.filterMap_cons]
      exact ((hi t nn X).append_left _).trans List.perm_middle
    | remove u =>
      simp only [supplied, List.filterMap_cons]
      exact (hr t u).append_left _

theorem conserved_of_perm {s : List Nat} {t : critbit_tree} (hs : s.Nodup)
    (hp : (tree_nodes t ++ released t).Perm s) : Conserved s t := by
  have hn : (tree_nodes t ++ released t).Nodup := hp.nodup_iff.mpr hs
  refine ⟨fun x hx => ?_, fun x hx => hp.mem_iff.mp (List.mem_append.mpr hx)⟩
  have hc : (tree_nodes t ++ released t).count x = 1 :=
    List.count_eq_one_of_mem hn (hp.mem_iff.mpr hx)
  rw [List.count_append] at hc
  omega

theorem supplied_take (ops : List Op) (n : Nat) :
    (supplied (ops.take n)).Sublist (supplied ops) :=
  (List.take_sublist n ops).filterMap _

theorem remove_below_splice (nn : Nat) (X : critbit_key) (u : List Nat) (n d ob nd : Nat)
    (keycmp : List Nat → List Nat → Nat → Int) (kb : critbit_key → List Nat)
    (hcmp : keycmp (kb X) u n = 0) (hdir : direction ob (probe_byte u n d) = 1 - nd)
    (hnd : nd ≤ 1) (r : critbit_ref) :
    remove_below u n keycmp kb (splice nn X u n d ob nd r) = .done r nn X := by
  have hat : ∀ old, remove_below u n keycmp kb (attach nn X d ob nd old) = .done old nn X := by
    intro old
    unfold attach
    by_cases h0 : nd = 0
    · have h1 : direction ob (probe_byte u n d) ≠ 0 := by omega
      simp [h0, remove_below, h1, hcmp]
    · have h1 : direction ob (probe_byte u n d) = 0 := by omega
      simp [h0, remove_below, h1, hcmp]
  induction r with
  | key k => simp only [splice]; exact hat _
  | node a c0 c1 byte obq ih0 ih1 =>
    simp only [splice]
    split
    · exact hat _
    · split
      · exact hat _
      · split
        · next hd => simp only [remove_below, hd, if_true, ih0]
        · next hd => simp only [remove_below, hd, if_false, ih1]

/-- Removing a string right after its insertion as a new key undoes the
insertion; the supplied node has been released by one of the two calls. -/
theorem str_insert_then_remove {t : critbit_tree} (hinv : StrInv t) (nn : Nat)
    {X : critbit_key} (hX : IsStr X.mem) (hnew : ∀ K ∈ keys t, K.mem ≠ X.mem) :
    critbit_str_remove (critbit_str_insert t nn X).1 X.mem = (critbit_node_free t nn, some X) := by
  obtain ⟨hg, hs, hn⟩ := hinv
  have hcmp : critbit_str_keycmp (critbit_str_keybuf X) X.mem (strlen X.mem) = 0 :=
    (str_keycmp_eq_zero hX hX).mpr rfl
  unfold critbit_str_insert critbit_str_remove
  obtain ⟨c0, c1⟩ := insert_impl_cases t nn X (critbit_str_keylen X.mem) critbit_str_keybuf
  cases hr : t.ct_root with
  | none =>
    rw [c0 hr]
    obtain ⟨_, r1⟩ := remove_impl_cases
      (critbit_node_free { t with ct_root := some (.key X) } nn) X.mem
      (critbit_str_keylen X.mem) critbit_str_keycmp critbit_str_keybuf
    obtain ⟨_, rh, _⟩ := r1 (.key X) rfl
    rw [rh X (by simp [remove_below, critbit_str_keylen, hcmp])]
    cases t
    simp only [critbit_node_free] at hr ⊢
    subst hr
    rfl
  | some r =>
    have hk : keys t = leaves r := by simp [keys, hr]
    obtain ⟨_, c3⟩ := c1 r hr
    simp only [critbit_str_keybuf, critbit_str_keylen] at c3 hcmp ⊢
    have hLm := descend_mem X.mem (strlen X.mem) r
    have hLs : IsStr (descend X.mem (strlen X.mem) r).mem := hs _ (by rw [hk]; exact hLm)
    cases hdb : different_byte (descend X.mem (strlen X.mem) r).mem X.mem 0 (strlen X.mem) with
    | none =>
      exact absurd (str_different_byte_none hLs hX hdb) (hnew _ (by rw [hk]; exact hLm))
    | some p =>
      obtain ⟨d, x⟩ := p
      rw [c3 d x hdb]
      obtain ⟨h1, h2, h3⟩ := str_different_byte_some hX hdb
      have hvL : ∀ i, str_view (descend X.mem (strlen X.mem) r) i =
          rd (descend X.mem (strlen X.mem) r).mem i := fun i => probe_byte_str hLs i
      have hvX : ∀ i, str_view X i = rd X.mem i := fun i => probe_byte_str hX i
      obtain ⟨_, _, hdX, hdL⟩ := @first_diff_sim (str_view (descend X.mem (strlen X.mem) r))
        (str_view X) d x (str_view_lt hLs) (str_view_lt hX)
        (fun j hj => by rw [hvL, hvX]; exact h1 j hj) (by rw [hvL, hvX]; exact h2)
        (by rw [hvL, hvX]; exact h3)
      rw [hvL] at hdX hdL
      have hb := remove_below_splice nn X X.mem (strlen X.mem) d (msb_loop x ^^^ 255)
        (direction (msb_loop x ^^^ 255) (rd (descend X.mem (strlen X.mem) r).mem d))
        critbit_str_keycmp critbit_str_keybuf hcmp hdX hdL r
      obtain ⟨_, r1⟩ := remove_impl_cases
        { t with ct_root := some (splice nn X X.mem (strlen X.mem) d (msb_loop x ^^^ 255)
          (direction (msb_loop x ^^^ 255) (rd (descend X.mem (strlen X.mem) r).mem d)) r) }
        X.mem (strlen X.mem) critbit_str_keycmp critbit_str_keybuf
      obtain ⟨_, _, rd3⟩ := r1 _ rfl
      rw [rd3 r nn X hb]
      cases t
      simp only [critbit_node_free] at hr ⊢
      subst hr
      rfl

theorem chain_both {α : Type} {R S : α → α → Prop} :
    ∀ (l : List α), l.Chain' R → l.Chain' S → l.Chain' (fun a b => R a b ∧ S a b)
  | [], _, _ => List.chain'_nil
  | [_], _, _ => List.chain'_singleton _
  | a :: b :: l, h1, h2 => by
    rw [List.chain'_cons] at h1 h2 ⊢
    exact ⟨⟨h1.1, h2.1⟩, chain_both (b :: l) h1.2 h2.2⟩

/-! # Claims -/

/-- C1: String domain.  After inserting pairwise different strings, each
with its own node, into a freshly initialised tree, the lookup of a probe
equal to one of them returns the key stored for it (reference included), and
the lookup of a probe that was never inserted returns `none`. -/
theorem C1_lookup_after_inserts (self freearg keylen : Nat) (l : List (Nat × critbit_key))
    (p : List Nat) (hwf : ∀ e ∈ l, IsStr e.2.mem) (hdist : (l.map (fun e => e.2.mem)).Nodup)
    (hp : IsStr p) :
    (∀ e ∈ l, e.2.mem = p →
      critbit_str_get (str_run (critbit_init self freearg keylen) (inserts l)) p = some e.2) ∧
    ((∀ e ∈ l, e.2.mem ≠ p) →
      critbit_str_get (str_run (critbit_init self freearg keylen) (inserts l)) p = none) := by
  obtain ⟨hinv, hperm⟩ := str_run_inserts (strinv_init self freearg keylen) l hwf hdist
    (fun e _ K hK => by simp [critbit_init, keys] at hK)
  have hmem : ∀ K, K ∈ keys (str_run (critbit_init self freearg keylen) (inserts l)) ↔
      ∃ e ∈ l, e.2 = K := by
    intro K
    rw [hperm.mem_iff]
    simp [critbit_init, keys]
  constructor
  · intro e he hep
    rw [← hep]
    exact str_get_mem hinv ((hmem e.2).mpr ⟨e, he, rfl⟩)
  · intro hab
    apply str_get_absent hinv.2.1 hp
    intro K hK
    obtain ⟨e, he, rfl⟩ := (hmem K).mp hK
    exact hab e he

theorem C1_lookup_after_inserts_witness :
    (∀ e ∈ [(11, (⟨100, [97]⟩ : critbit_key)), (13, ⟨102, [97, 97]⟩), (15, ⟨104, [98]⟩)],
      IsStr e.2.mem) ∧
    ([(11, (⟨100, [97]⟩ : critbit_key)), (13, ⟨102, [97, 97]⟩), (15, ⟨104, [98]⟩)].map
      (fun e => e.2.mem)).Nodup ∧ IsStr [97, 97] ∧
    ((∀ e ∈ [(11, (⟨100, [97]⟩ : critbit_key)), (13, ⟨102, [97, 97]⟩), (15, ⟨104, [98]⟩)],
      e.2.mem = [97, 97] →
      critbit_str_get (str_run (critbit_init 1000 0 8)
        (inserts [(11, ⟨100, [97]⟩), (13, ⟨102, [97, 97]⟩), (15, ⟨104, [98]⟩)])) [97, 97]
        = some e.2) ∧
    ((∀ e ∈ [(11, (⟨100, [97]⟩ : critbit_key)), (13, ⟨102, [97, 97]⟩), (15, ⟨104, [98]⟩)],
      e.2.mem ≠ [97, 97]) →
      critbit_str_get (str_run (critbit_init 1000 0 8)
        (inserts [(11, ⟨100, [97]⟩), (13, ⟨102, [97, 97]⟩), (15, ⟨104, [98]⟩)])) [97, 97]
        = none)) :=
  ⟨by decide, by decide, by decide,
    C1_lookup_after_inserts 1000 0 8 [(11, ⟨100, [97]⟩), (13, ⟨102, [97, 97]⟩), (15, ⟨104, [98]⟩)]
      [97, 97] (by decide) (by decide) (by decide)⟩

/-- C2: String domain.  After every step of any sequence of Insert and
Remove calls on an initially empty tree, and for every probe, the lookup
returns the key that the reference set (keys inserted and not removed since)
holds for the probe, and `none` when the reference set holds no such key. -/
theorem C2_lookup_matches_reference_set (self freearg keylen : Nat) (ops : List Op)
    (hops : ∀ op ∈ ops, StrOp op) (n : Nat) (p : List Nat) (hp : IsStr p) :
    (∀ k ∈ ref_run (ops.take n), k.mem = p →
      critbit_str_get (str_run (critbit_init self freearg keylen) (ops.take n)) p = some k) ∧
    ((∀ k ∈ ref_run (ops.take n), k.mem ≠ p) →
      critbit_str_get (str_run (critbit_init self freearg keylen) (ops.take n)) p = none) := by
  obtain ⟨hinv, hperm⟩ := rep_init_run self freearg keylen (ops.take n)
    (fun op hop => hops op (List.mem_of_mem_take hop))
  constructor
  · intro k hk hkp
    rw [← hkp]
    exact str_get_mem hinv (hperm.mem_iff.mpr hk)
  · intro hab
    exact str_get_absent hinv.2.1 hp (fun K hK => hab K (hperm.mem_iff.mp hK))

theorem C2_lookup_matches_reference_set_witness :
    (∀ op ∈ [Op.insert 11 ⟨100, [97]⟩, Op.insert 13 ⟨102, [97, 97]⟩, Op.remove [97],
      Op.insert 15 ⟨104, [97]⟩], StrOp op) ∧ IsStr [97] ∧
    ((∀ k ∈ ref_run ([Op.insert 11 ⟨100, [97]⟩, Op.insert 13 ⟨102, [97, 97]⟩, Op.remove [97],
      Op.insert 15 ⟨104, [97]⟩].take 4), k.mem = [97] →
      critbit_str_get (str_run (critbit_init 1000 0 8)
        ([Op.insert 11 ⟨100, [97]⟩, Op.insert 13 ⟨102, [97, 97]⟩, Op.remove [97],
          Op.insert 15 ⟨104, [97]⟩].take 4)) [97] = some k) ∧
    ((∀ k ∈ ref_run ([Op.insert 11 ⟨100, [97]⟩, Op.insert 13 ⟨102, [97, 97]⟩, Op.remove [97],
      Op.insert 15 ⟨104, [97]⟩].take 4), k.mem ≠ [97]) →
      critbit_str_get (str_run (critbit_init 1000 0 8)
        ([Op.insert 11 ⟨100, [97]⟩, Op.insert 13 ⟨102, [97, 97]⟩, Op.remove [97],
          Op.insert 15 ⟨104, [97]⟩].take 4)) [97] = none)) :=
  ⟨by decide, by decide,
    C2_lookup_matches_reference_set 1000 0 8
      [Op.insert 11 ⟨100, [97]⟩, Op.insert 13 ⟨102, [97, 97]⟩, Op.remove [97],
        Op.insert 15 ⟨104, [97]⟩] (by decide) 4 [97] (by decide)⟩

/-- C3: String domain.  In a tree reachable from empty by Insert and Remove,
the removal of a key that is present returns the stored key (its reference,
not `none`), and a lookup of that key made afterwards returns `none`. -/
theorem C3_remove_present (t : critbit_tree) (ht : StrReachable t) (K : critbit_key)
    (hK : K ∈ keys t) :
    (critbit_str_remove t K.mem).2 = some K ∧
    critbit_str_get (critbit_str_remove t K.mem).1 K.mem = none := by
  have hinv := strinv_of_reachable ht
  obtain ⟨h1, h2, h3⟩ := str_remove_mem hinv hK
  refine ⟨h1, str_get_absent h2.2.1 (hinv.2.1 K hK) ?_⟩
  intro K2 hK2 hm
  have hn := (h3.map (fun k => k.mem)).nodup_iff.mp hinv.2.2
  rw [List.map_cons, List.nodup_cons] at hn
  exact hn.1 (List.mem_map.mpr ⟨K2, hK2, hm⟩)

theorem C3_remove_present_witness :
    StrReachable (str_run (critbit_init 1000 0 8)
      [Op.insert 11 ⟨100, [97]⟩, Op.insert 13 ⟨102, [97, 97]⟩]) ∧
    (⟨100, [97]⟩ : critbit_key) ∈ keys (str_run (critbit_init 1000 0 8)
      [Op.insert 11 ⟨100, [97]⟩, Op.insert 13 ⟨102, [97, 97]⟩]) ∧
    ((critbit_str_remove (str_run (critbit_init 1000 0 8)
      [Op.insert 11 ⟨100, [97]⟩, Op.insert 13 ⟨102, [97, 97]⟩])
        (⟨100, [97]⟩ : critbit_key).mem).2 = some ⟨100, [97]⟩ ∧
    critbit_str_get (critbit_str_remove (str_run (critbit_init 1000 0 8)
      [Op.insert 11 ⟨100, [97]⟩, Op.insert 13 ⟨102, [97, 97]⟩])
        (⟨100, [97]⟩ : critbit_key).mem).1 (⟨100, [97]⟩ : critbit_key).mem = none) :=
  ⟨⟨1000, 0, 8, _, by decide, rfl⟩, by decide,
    C3_remove_present _ ⟨1000, 0, 8, _, by decide, rfl⟩ ⟨100, [97]⟩ (by decide)⟩

/-- C4: String domain.  In a tree reachable from empty by Insert and Remove,
inserting a key whose string is already present returns the key stored
originally (not the one offered), leaves the root, hence every branch node,
unchanged, and calls the release callback exactly once, on the supplied
node. -/
theorem C4_insert_duplicate (t : critbit_tree) (ht : StrReachable t) (K : critbit_key)
    (hK : K ∈ keys t) (newnode : Nat) (X : critbit_key) (hX : X.mem = K.mem) :
    (critbit_str_insert t newnode X).2 = some K ∧
    (critbit_str_insert t newnode X).1.ct_root = t.ct_root ∧
    (critbit_str_insert t newnode X).1.calls = t.calls ++ [(t.self, newnode)] := by
  rw [str_insert_dup (strinv_of_reachable ht) newnode hK hX]
  exact ⟨rfl, rfl, rfl⟩

theorem C4_insert_duplicate_witness :
    StrReachable (str_run (critbit_init 1000 0 8)
      [Op.insert 11 ⟨100, [97]⟩, Op.insert 13 ⟨102, [97, 97]⟩]) ∧
    (⟨100, [97]⟩ : critbit_key) ∈ keys (str_run (critbit_init 1000 0 8)
      [Op.insert 11 ⟨100, [97]⟩, Op.insert 13 ⟨102, [97, 97]⟩]) ∧
    (⟨106, [97]⟩ : critbit_key).mem = (⟨100, [97]⟩ : critbit_key).mem ∧
    ((critbit_str_insert (str_run (critbit_init 1000 0 8)
      [Op.insert 11 ⟨100, [97]⟩, Op.insert 13 ⟨102, [97, 97]⟩]) 17 ⟨106, [97]⟩).2
        = some ⟨100, [97]⟩ ∧
    (critbit_str_insert (str_run (critbit_init 1000 0 8)
      [Op.insert 11 ⟨100, [97]⟩, Op.insert 13 ⟨102, [97, 97]⟩]) 17 ⟨106, [97]⟩).1.ct_root =
      (str_run (critbit_init 1000 0 8)
        [Op.insert 11 ⟨100, [97]⟩, Op.insert 13 ⟨102, [97, 97]⟩]).ct_root ∧
    (critbit_str_insert (str_run (critbit_init 1000 0 8)
      [Op.insert 11 ⟨100, [97]⟩, Op.insert 13 ⟨102, [97, 97]⟩]) 17 ⟨106, [97]⟩).1.calls =
      (str_run (critbit_init 1000 0 8)
        [Op.insert 11 ⟨100, [97]⟩, Op.insert 13 ⟨102, [97, 97]⟩]).calls ++
      [((str_run (critbit_init 1000 0 8)
        [Op.insert 11 ⟨100, [97]⟩, Op.insert 13 ⟨102, [97, 97]⟩]).self, 17)]) :=
  ⟨⟨1000, 0, 8, _, by decide, rfl⟩, by decide, rfl,
    C4_insert_duplicate _ ⟨1000, 0, 8, _, by decide, rfl⟩ ⟨100, [97]⟩ (by decide) 17
      ⟨106, [97]⟩ rfl⟩

/-- C5: removing a key does not change the lookup of any other key.  String
domain: in a tree reachable from empty, for strings `j ≠ k` the lookup of
`j` after the removal of `k` equals the lookup of `j` before.  Buffer domain
with key length `N`: the same for probes that differ in their first `N`
bytes.  Example of the claim: after removing `"a"` from the eight strings,
the lookup of `"aa"` still returns its key. -/
theorem C5_remove_frame (t : critbit_tree) (ht : StrReachable t) (k j : List Nat) (hk : IsStr k)
    (hj : IsStr j) (hjk : j ≠ k) (N : Nat) (tb : critbit_tree) (htb : BufReachable N tb)
    (kb jb : List Nat) (hkb : IsBuf N kb) (hjb : IsBuf N jb) (hjkb : jb.take N ≠ kb.take N) :
    critbit_str_get (critbit_str_remove t k).1 j = critbit_str_get t j ∧
    critbit_buf_get (critbit_buf_remove tb kb).1 jb = critbit_buf_get tb jb ∧
    (critbit_str_get (critbit_str_remove (str_run (critbit_init 1000 0 8) (inserts elems))
        [97]).1 [97, 97] = some ⟨102, [97, 97]⟩ ∧
      critbit_str_get (str_run (critbit_init 1000 0 8) (inserts elems)) [97, 97] =
        some ⟨102, [97, 97]⟩) := by
  refine ⟨?_, ?_, by decide⟩
  · obtain ⟨hg, hs, _⟩ := strinv_of_reachable ht
    refine @remove_impl_frame str_view (fun _ => False) t k (strlen k) j (strlen j)
      critbit_str_keycmp critbit_str_keybuf hg (str_probe_ne hk hj hjk) ?_ ?_
    · intro K hK hc
      have := (str_keycmp_eq_zero (hs K hK) hk).mp hc
      simp only [critbit_str_keybuf] at this
      unfold str_view
      rw [this]
    · intro K hK hc
      have := (str_keycmp_eq_zero (hs K hK) hj).mp hc
      simp only [critbit_str_keybuf] at this
      unfold str_view
      rw [this]
  · obtain ⟨hkl, hg, hs⟩ := bufinv_of_reachable htb
    have hkeep := (remove_impl_sub tb kb (critbit_buf_keylen tb) critbit_buf_keycmp
      critbit_buf_keybuf hg).2.2.1
    unfold critbit_buf_get critbit_buf_remove
    have e1 : critbit_buf_keylen (critbit_remove_impl tb kb (critbit_buf_keylen tb)
        critbit_buf_keycmp critbit_buf_keybuf).1 = critbit_buf_keylen tb := hkeep
    rw [e1]
    have e2 : critbit_buf_keylen tb = N := hkl
    rw [e2]
    refine @remove_impl_frame (buf_view N) (fun b => N ≤ b) tb kb N jb N
      critbit_buf_keycmp critbit_buf_keybuf hg ?_ ?_ ?_
    · intro he
      apply hjkb
      rw [take_eq_iff hjb.2.1 hkb.2.1]
      intro i hi
      exact ((probe_byte_eq_iff kb jb N).mp he i hi).symm
    · intro K _ hc
      exact (buf_keycmp_eq_zero _ _ _).mp hc
    · intro K _ hc
      exact (buf_keycmp_eq_zero _ _ _).mp hc

theorem C5_remove_frame_witness :
    StrReachable (str_run (critbit_init 1000 0 8) (inserts elems)) ∧ IsStr [97] ∧
    IsStr [97, 98] ∧ [97, 98] ≠ [97] ∧
    BufReachable 2 (buf_run (critbit_init 2000 0 2)
      [Op.insert 11 ⟨100, [1, 0, 7]⟩, Op.insert 13 ⟨102, [1, 1, 0]⟩]) ∧
    IsBuf 2 [1, 0] ∧ IsBuf 2 [1, 1] ∧ [1, 1].take 2 ≠ [1, 0].take 2 ∧
    (critbit_str_get (critbit_str_remove (str_run (critbit_init 1000 0 8) (inserts elems))
        [97]).1 [97, 98] =
      critbit_str_get (str_run (critbit_init 1000 0 8) (inserts elems)) [97, 98] ∧
    critbit_buf_get (critbit_buf_remove (buf_run (critbit_init 2000 0 2)
        [Op.insert 11 ⟨100, [1, 0, 7]⟩, Op.insert 13 ⟨102, [1, 1, 0]⟩]) [1, 0]).1 [1, 1] =
      critbit_buf_get (buf_run (critbit_init 2000 0 2)
        [Op.insert 11 ⟨100, [1, 0, 7]⟩, Op.insert 13 ⟨102, [1, 1, 0]⟩]) [1, 1] ∧
    (critbit_str_get (critbit_str_remove (str_run (critbit_init 1000 0 8) (inserts elems))
        [97]).1 [97, 97] = some ⟨102, [97, 97]⟩ ∧
      critbit_str_get (str_run (critbit_init 1000 0 8) (inserts elems)) [97, 97] =
        some ⟨102, [97, 97]⟩)) :=
  ⟨⟨1000, 0, 8, inserts elems, by decide, rfl⟩, by decide, by decide, by decide,
    ⟨2000, 0, _, by decide, rfl⟩, by decide, by decide, by decide,
    C5_remove_frame _ ⟨1000, 0, 8, inserts elems, by decide, rfl⟩ [97] [97, 98] (by decide)
      (by decide) (by decide) 2 _ ⟨2000, 0, _, by decide, rfl⟩ [1, 0] [1, 1] (by decide)
      (by decide) (by decide)⟩

/-- C6: a removal that finds no key equal to the probe returns `none` and
gives back the tree as it was: same root, same branch nodes, no call of the
release callback.  This holds for every tree, whatever its shape, in the
String domain (first part) and in the Buffer domain (second part); it covers
the removal from an empty tree (third part), and the second of two removals
of the same probe whenever the stored keys are pairwise different (fourth
and fifth part). -/
theorem C6_remove_absent (t : critbit_tree) (p : List Nat) :
    ((∀ k ∈ keys t, IsStr k.mem) → IsStr p → (∀ k ∈ keys t, k.mem ≠ p) →
      critbit_str_remove t p = (t, none)) ∧
    ((∀ k ∈ keys t, IsBuf t.ct_keylen k.mem) → IsBuf t.ct_keylen p →
      (∀ k ∈ keys t, k.mem.take t.ct_keylen ≠ p.take t.ct_keylen) →
      critbit_buf_remove t p = (t, none)) ∧
    (t.ct_root = none → critbit_str_remove t p = (t, none) ∧ critbit_buf_remove t p = (t, none)) ∧
    ((∀ k ∈ keys t, IsStr k.mem) → IsStr p → ((keys t).map (fun k => k.mem)).Nodup →
      critbit_str_remove (critbit_str_remove t p).1 p = ((critbit_str_remove t p).1, none)) ∧
    ((∀ k ∈ keys t, IsBuf t.ct_keylen k.mem) → IsBuf t.ct_keylen p →
      ((keys t).map (fun k => k.mem.take t.ct_keylen)).Nodup →
      critbit_buf_remove (critbit_buf_remove t p).1 p = ((critbit_buf_remove t p).1, none)) := by
  refine ⟨fun hs hp hab => str_remove_absent hs hp hab, fun hs hp hab => ?_, fun hr => ?_,
    fun hs hp hn => ?_, fun hs hp hn => ?_⟩
  · unfold critbit_buf_remove
    apply remove_impl_absent
    intro k hk hc
    apply hab k hk
    rw [take_eq_iff (hs k hk).2.1 hp.2.1]
    exact (probe_byte_eq_iff _ _ _).mp ((buf_keycmp_eq_zero _ _ _).mp hc)
  · exact ⟨(remove_impl_cases t p _ _ _).1 hr, (remove_impl_cases t p _ _ _).1 hr⟩
  · unfold critbit_str_remove
    apply remove_twice t p _ _ _ (fun k => k.mem) hn
    intro k hk k2 hk2 hc hc2
    rw [(str_keycmp_eq_zero (hs k hk) hp).mp hc, (str_keycmp_eq_zero (hs k2 hk2) hp).mp hc2]
  · unfold critbit_buf_remove
    have hkeep : critbit_buf_keylen (critbit_remove_impl t p (critbit_buf_keylen t)
        critbit_buf_keycmp critbit_buf_keybuf).1 = critbit_buf_keylen t :=
      remove_impl_keylen t p _ _ _
    rw [hkeep]
    apply remove_twice t p _ _ _ (fun k => k.mem.take t.ct_keylen) hn
    intro k hk k2 hk2 hc hc2
    simp only [critbit_buf_keylen, critbit_buf_keybuf] at hc hc2
    rw [take_eq_iff (hs k hk).2.1 (hs k2 hk2).2.1]
    intro i hi
    rw [(probe_byte_eq_iff _ _ _).mp ((buf_keycmp_eq_zero _ _ _).mp hc) i hi,
      (probe_byte_eq_iff _ _ _).mp ((buf_keycmp_eq_zero _ _ _).mp hc2) i hi]

theorem C6_remove_absent_witness :
    critbit_str_remove (str_run (critbit_init 1000 0 8) (inserts elems)) [97, 97, 97] =
      (str_run (critbit_init 1000 0 8) (inserts elems), none) ∧
    critbit_buf_remove (buf_run (critbit_init 2000 0 2)
        [Op.insert 11 ⟨100, [1, 0, 7]⟩, Op.insert 13 ⟨102, [1, 1, 0]⟩]) [0, 1] =
      (buf_run (critbit_init 2000 0 2)
        [Op.insert 11 ⟨100, [1, 0, 7]⟩, Op.insert 13 ⟨102, [1, 1, 0]⟩], none) ∧
    critbit_str_remove (critbit_str_remove (str_run (critbit_init 1000 0 8) (inserts elems))
        [97]).1 [97] =
      ((critbit_str_remove (str_run (critbit_init 1000 0 8) (inserts elems)) [97]).1, none) :=
  ⟨(C6_remove_absent (str_run (critbit_init 1000 0 8) (inserts elems)) [97, 97, 97]).1
      (by decide) (by decide) (by decide),
    (C6_remove_absent (buf_run (critbit_init 2000 0 2)
        [Op.insert 11 ⟨100, [1, 0, 7]⟩, Op.insert 13 ⟨102, [1, 1, 0]⟩]) [0, 1]).2.1
      (by decide) (by decide) (by decide),
    (C6_remove_absent (str_run (critbit_init 1000 0 8) (inserts elems)) [97]).2.2.2.1
      (by decide) (by decide) (by decide)⟩

/-- C7: String domain.  After pairwise different strings have been inserted
into an empty tree, removing each of them once, in any order `σ`, returns
each key in turn and leaves a null root; the next insertion of any key then
returns `none`. -/
theorem C7_remove_all (self freearg keylen : Nat) (l : List (Nat × critbit_key))
    (σ : List critbit_key) (hwf : ∀ e ∈ l, IsStr e.2.mem)
    (hdist : (l.map (fun e => e.2.mem)).Nodup) (hσ : σ.Perm (l.map (fun e => e.2))) :
    (str_removes (str_run (critbit_init self freearg keylen) (inserts l))
      (σ.map (fun k => k.mem))).2 = σ.map some ∧
    (str_removes (str_run (critbit_init self freearg keylen) (inserts l))
      (σ.map (fun k => k.mem))).1.ct_root = none ∧
    ∀ (newnode : Nat) (X : critbit_key),
      (critbit_str_insert (str_removes (str_run (critbit_init self freearg keylen) (inserts l))
        (σ.map (fun k => k.mem))).1 newnode X).2 = none := by
  obtain ⟨hinv, hperm⟩ := str_run_inserts (strinv_init self freearg keylen) l hwf hdist
    (fun e _ K hK => by simp [critbit_init, keys] at hK)
  have hp : (keys (str_run (critbit_init self freearg keylen) (inserts l))).Perm σ := by
    refine hperm.trans ?_
    simp only [critbit_init, keys, List.append_nil]
    exact hσ.symm
  obtain ⟨h1, h2⟩ := str_removes_all σ _ hinv hp
  refine ⟨h1, h2, fun newnode X => ?_⟩
  unfold critbit_str_insert
  rw [(insert_impl_cases _ newnode X _ _).1 h2]

theorem C7_remove_all_witness :
    (∀ e ∈ [(11, (⟨100, [97]⟩ : critbit_key)), (13, ⟨102, [97, 97]⟩), (15, ⟨104, [98]⟩)],
      IsStr e.2.mem) ∧
    ([(11, (⟨100, [97]⟩ : critbit_key)), (13, ⟨102, [97, 97]⟩), (15, ⟨104, [98]⟩)].map
      (fun e => e.2.mem)).Nodup ∧
    ([(⟨104, [98]⟩ : critbit_key), ⟨100, [97]⟩, ⟨102, [97, 97]⟩]).Perm
      ([(11, (⟨100, [97]⟩ : critbit_key)), (13, ⟨102, [97, 97]⟩), (15, ⟨104, [98]⟩)].map
        (fun e => e.2)) ∧
    ((str_removes (str_run (critbit_init 1000 0 8)
        (inserts [(11, ⟨100, [97]⟩), (13, ⟨102, [97, 97]⟩), (15, ⟨104, [98]⟩)]))
      ([(⟨104, [98]⟩ : critbit_key), ⟨100, [97]⟩, ⟨102, [97, 97]⟩].map (fun k => k.mem))).2 =
      [(⟨104, [98]⟩ : critbit_key), ⟨100, [97]⟩, ⟨102, [97, 97]⟩].map some ∧
    (str_removes (str_run (critbit_init 1000 0 8)
        (inserts [(11, ⟨100, [97]⟩), (13, ⟨102, [97, 97]⟩), (15, ⟨104, [98]⟩)]))
      ([(⟨104, [98]⟩ : critbit_key), ⟨100, [97]⟩, ⟨102, [97, 97]⟩].map
        (fun k => k.mem))).1.ct_root = none ∧
    ∀ (newnode : Nat) (X : critbit_key),
      (critbit_str_insert (str_removes (str_run (critbit_init 1000 0 8)
          (inserts [(11, ⟨100, [97]⟩), (13, ⟨102, [97, 97]⟩), (15, ⟨104, [98]⟩)]))
        ([(⟨104, [98]⟩ : critbit_key), ⟨100, [97]⟩, ⟨102, [97, 97]⟩].map
          (fun k => k.mem))).1 newnode X).2 = none) :=
  ⟨by decide, by decide, by decide,
    C7_remove_all 1000 0 8 [(11, ⟨100, [97]⟩), (13, ⟨102, [97, 97]⟩), (15, ⟨104, [98]⟩)]
      [⟨104, [98]⟩, ⟨100, [97]⟩, ⟨102, [97, 97]⟩] (by decide) (by decide) (by decide)⟩

/-- C8: Buffer domain with key length `N`.  When buffers whose first `N`
bytes are pairwise different are inserted into a freshly initialised tree,
whatever storage follows those `N` bytes, every insertion returns `none` and
the lookup of a probe with the `N` bytes of an inserted key returns that very
key.  In particular (second part, `0 < N`) two keys that differ in byte
`N - 1`, so also two keys that differ only there, are both stored and each is
found as itself. -/
theorem C8_buffer_inserts (N self freearg : Nat) (l : List (Nat × critbit_key))
    (hwf : ∀ e ∈ l, IsBuf N e.2.mem) (hdist : (l.map (fun e => e.2.mem.take N)).Nodup)
    (n1 n2 : Nat) (a b : critbit_key) (hN : 0 < N) (ha : IsBuf N a.mem) (hb : IsBuf N b.mem)
    (hlast : rd a.mem (N - 1) ≠ rd b.mem (N - 1)) :
    ((buf_inserts (critbit_init self freearg N) l).2 = l.map (fun _ => none) ∧
      ∀ e ∈ l, ∀ p, IsBuf N p → p.take N = e.2.mem.take N →
        critbit_buf_get (buf_inserts (critbit_init self freearg N) l).1 p = some e.2) ∧
    ((buf_inserts (critbit_init self freearg N) [(n1, a), (n2, b)]).2 = [none, none] ∧
      critbit_buf_get (buf_inserts (critbit_init self freearg N) [(n1, a), (n2, b)]).1 a.mem =
        some a ∧
      critbit_buf_get (buf_inserts (critbit_init self freearg N) [(n1, a), (n2, b)]).1 b.mem =
        some b) := by
  have main : ∀ l : List (Nat × critbit_key), (∀ e ∈ l, IsBuf N e.2.mem) →
      (l.map (fun e => e.2.mem.take N)).Nodup →
      (buf_inserts (critbit_init self freearg N) l).2 = l.map (fun _ => none) ∧
      ∀ e ∈ l, ∀ p, IsBuf N p → p.take N = e.2.mem.take N →
        critbit_buf_get (buf_inserts (critbit_init self freearg N) l).1 p = some e.2 := by
    intro l hwf hdist
    obtain ⟨h1, h2, h3⟩ := buf_inserts_spec l _ (bufinv_init self freearg N) hwf
      (by simpa [critbit_init, keys] using hdist)
    refine ⟨h1, fun e he p hp hpe => ?_⟩
    have hn : ((keys (buf_inserts (critbit_init self freearg N) l).1).map
        (fun k => k.mem.take N)).Nodup := by
      rw [(h3.map (fun k => k.mem.take N)).nodup_iff]
      simpa [critbit_init, keys] using hdist
    refine buf_get_mem h2 hn (h3.mem_iff.mpr ?_) hp hpe
    exact List.mem_append_left _ (List.mem_map.mpr ⟨e, he, rfl⟩)
  refine ⟨main l hwf hdist, ?_⟩
  have hne : a.mem.take N ≠ b.mem.take N := by
    intro h
    exact hlast ((take_eq_iff ha.2.1 hb.2.1).mp h (N - 1) (by omega))
  obtain ⟨m1, m2⟩ := main [(n1, a), (n2, b)]
    (by
      intro e he
      simp only [List.mem_cons, List.mem_singleton, List.not_mem_nil, or_false] at he
      rcases he with rfl | rfl
      · exact ha
      · exact hb)
    (by simp [hne])
  exact ⟨m1, m2 (n1, a) (by simp) a.mem ha rfl, m2 (n2, b) (by simp) b.mem hb rfl⟩

theorem C8_buffer_inserts_witness :
    (∀ e ∈ [(11, (⟨100, [0, 0, 0, 0, 0, 0, 0, 0, 9]⟩ : critbit_key)),
        (13, ⟨200, [1, 0, 0, 0, 0, 0, 0, 0, 9]⟩), (15, ⟨300, [2, 0, 0, 0, 0, 0, 0, 0, 9]⟩)],
      IsBuf 8 e.2.mem) ∧
    ([(11, (⟨100, [0, 0, 0, 0, 0, 0, 0, 0, 9]⟩ : critbit_key)),
        (13, ⟨200, [1, 0, 0, 0, 0, 0, 0, 0, 9]⟩),
        (15, ⟨300, [2, 0, 0, 0, 0, 0, 0, 0, 9]⟩)].map (fun e => e.2.mem.take 8)).Nodup ∧
    0 < 8 ∧ IsBuf 8 (⟨400, [0, 0, 0, 0, 0, 0, 0, 1, 255]⟩ : critbit_key).mem ∧
    IsBuf 8 (⟨500, [0, 0, 0, 0, 0, 0, 0, 2, 255]⟩ : critbit_key).mem ∧
    rd (⟨400, [0, 0, 0, 0, 0, 0, 0, 1, 255]⟩ : critbit_key).mem (8 - 1) ≠
      rd (⟨500, [0, 0, 0, 0, 0, 0, 0, 2, 255]⟩ : critbit_key).mem (8 - 1) ∧
    (((buf_inserts (critbit_init 2000 0 8)
        [(11, ⟨100, [0, 0, 0, 0, 0, 0, 0, 0, 9]⟩), (13, ⟨200, [1, 0, 0, 0, 0, 0, 0, 0, 9]⟩),
          (15, ⟨300, [2, 0, 0, 0, 0, 0, 0, 0, 9]⟩)]).2 =
        [(11, (⟨100, [0, 0, 0, 0, 0, 0, 0, 0, 9]⟩ : critbit_key)),
          (13, ⟨200, [1, 0, 0, 0, 0, 0, 0, 0, 9]⟩),
          (15, ⟨300, [2, 0, 0, 0, 0, 0, 0, 0, 9]⟩)].map (fun _ => none) ∧
      ∀ e ∈ [(11, (⟨100, [0, 0, 0, 0, 0, 0, 0, 0, 9]⟩ : critbit_key)),
          (13, ⟨200, [1, 0, 0, 0, 0, 0, 0, 0, 9]⟩), (15, ⟨300, [2, 0, 0, 0, 0, 0, 0, 0, 9]⟩)],
        ∀ p, IsBuf 8 p → p.take 8 = e.2.mem.take 8 →
          critbit_buf_get (buf_inserts (critbit_init 2000 0 8)
            [(11, ⟨100, [0, 0, 0, 0, 0, 0, 0, 0, 9]⟩), (13, ⟨200, [1, 0, 0, 0, 0, 0, 0, 0, 9]⟩),
              (15, ⟨300, [2, 0, 0, 0, 0, 0, 0, 0, 9]⟩)]).1 p = some e.2) ∧
    ((buf_inserts (critbit_init 2000 0 8)
        [(17, ⟨400, [0, 0, 0, 0, 0, 0, 0, 1, 255]⟩),
          (19, ⟨500, [0, 0, 0, 0, 0, 0, 0, 2, 255]⟩)]).2 = [none, none] ∧
      critbit_buf_get (buf_inserts (critbit_init 2000 0 8)
        [(17, ⟨400, [0, 0, 0, 0, 0, 0, 0, 1, 255]⟩),
          (19, ⟨500, [0, 0, 0, 0, 0, 0, 0, 2, 255]⟩)]).1
        (⟨400, [0, 0, 0, 0, 0, 0, 0, 1, 255]⟩ : critbit_key).mem =
        some ⟨400, [0, 0, 0, 0, 0, 0, 0, 1, 255]⟩ ∧
      critbit_buf_get (buf_inserts (critbit_init 2000 0 8)
        [(17, ⟨400, [0, 0, 0, 0, 0, 0, 0, 1, 255]⟩),
          (19, ⟨500, [0, 0, 0, 0, 0, 0, 0, 2, 255]⟩)]).1
        (⟨500, [0, 0, 0, 0, 0, 0, 0, 2, 255]⟩ : critbit_key).mem =
        some ⟨500, [0, 0, 0, 0, 0, 0, 0, 2, 255]⟩)) :=
  ⟨by decide, by decide, by decide, by decide, by decide, by decide,
    C8_buffer_inserts 8 2000 0
      [(11, ⟨100, [0, 0, 0, 0, 0, 0, 0, 0, 9]⟩), (13, ⟨200, [1, 0, 0, 0, 0, 0, 0, 0, 9]⟩),
        (15, ⟨300, [2, 0, 0, 0, 0, 0, 0, 0, 9]⟩)] (by decide) (by decide) 17 19
      ⟨400, [0, 0, 0, 0, 0, 0, 0, 1, 255]⟩ ⟨500, [0, 0, 0, 0, 0, 0, 0, 2, 255]⟩ (by decide)
      (by decide) (by decide) (by decide)⟩

/-- C9 (the code at the failing input): Buffer domain with `N = 1`.  The tree
holds the key at 100 whose byte is 5 and whose storage goes on with a byte 1.
Inserting a second key with the same byte 5 reads `pkey[1]`, finds it
non-zero, and takes the exit of a new key: it returns `none`, does not
release node 13, and links node 13 (with `byte = 1`) above both keys.  With a
byte 0 after the stored key the same call returns the stored key and releases
the node. -/
theorem C9_buffer_duplicate_reads_past_key :
    critbit_buf_insert (critbit_buf_insert (critbit_init 2000 0 1) 11 ⟨100, [5, 1]⟩).1 13
        ⟨102, [5, 1]⟩ =
      ({ self := 2000, ct_keylen := 1, ct_free_arg := 0, calls := [(2000, 11)],
         ct_root := some (.node 13 (.key ⟨102, [5, 1]⟩) (.key ⟨100, [5, 1]⟩) 1 254) }, none) ∧
    (critbit_buf_insert (critbit_init 2000 0 1) 11 ⟨100, [5, 1]⟩).1.ct_root =
      some (.key ⟨100, [5, 1]⟩) ∧
    critbit_buf_insert (critbit_buf_insert (critbit_init 2000 0 1) 11 ⟨100, [5, 0]⟩).1 13
        ⟨102, [5, 1]⟩ =
      ({ self := 2000, ct_keylen := 1, ct_free_arg := 0, calls := [(2000, 11), (2000, 13)],
         ct_root := some (.key ⟨100, [5, 0]⟩) }, some ⟨100, [5, 0]⟩) := by
  decide

/-- C10: String domain.  For a string `s` and a proper prefix `p` of it (the
empty string included), inserting both into an empty tree, in either order,
returns `none` both times, and afterwards the lookup of each string returns
its own key. -/
theorem C10_proper_prefix (self freearg keylen n1 n2 : Nat) (p s : critbit_key)
    (hs : IsStr s.mem) (hpre : p.mem <+: s.mem) (hne : p.mem ≠ s.mem) :
    ((critbit_str_insert (critbit_init self freearg keylen) n1 p).2 = none ∧
      (critbit_str_insert (critbit_str_insert (critbit_init self freearg keylen) n1 p).1
        n2 s).2 = none ∧
      critbit_str_get (critbit_str_insert
        (critbit_str_insert (critbit_init self freearg keylen) n1 p).1 n2 s).1 p.mem = some p ∧
      critbit_str_get (critbit_str_insert
        (critbit_str_insert (critbit_init self freearg keylen) n1 p).1 n2 s).1 s.mem = some s) ∧
    ((critbit_str_insert (critbit_init self freearg keylen) n1 s).2 = none ∧
      (critbit_str_insert (critbit_str_insert (critbit_init self freearg keylen) n1 s).1
        n2 p).2 = none ∧
      critbit_str_get (critbit_str_insert
        (critbit_str_insert (critbit_init self freearg keylen) n1 s).1 n2 p).1 p.mem = some p ∧
      critbit_str_get (critbit_str_insert
        (critbit_str_insert (critbit_init self freearg keylen) n1 s).1 n2 p).1 s.mem = some s) := by
  have hp : IsStr p.mem := by
    refine ⟨lt_of_le_of_lt hpre.length_le hs.1, fun b hb => hs.2 b (hpre.subset hb)⟩
  obtain ⟨a1, a2, a3, a4⟩ := two_str_inserts self freearg keylen n1 n2 p s hp hs hne
  obtain ⟨b1, b2, b3, b4⟩ := two_str_inserts self freearg keylen n1 n2 s p hs hp (Ne.symm hne)
  exact ⟨⟨a1, a2, a3, a4⟩, ⟨b1, b2, b4, b3⟩⟩

theorem C10_proper_prefix_witness :
    IsStr (⟨102, [97, 98]⟩ : critbit_key).mem ∧
    (⟨100, []⟩ : critbit_key).mem <+: (⟨102, [97, 98]⟩ : critbit_key).mem ∧
    (⟨100, []⟩ : critbit_key).mem ≠ (⟨102, [97, 98]⟩ : critbit_key).mem ∧
    (((critbit_str_insert (critbit_init 1000 0 8) 11 ⟨100, []⟩).2 = none ∧
      (critbit_str_insert (critbit_str_insert (critbit_init 1000 0 8) 11 ⟨100, []⟩).1
        13 ⟨102, [97, 98]⟩).2 = none ∧
      critbit_str_get (critbit_str_insert
        (critbit_str_insert (critbit_init 1000 0 8) 11 ⟨100, []⟩).1 13 ⟨102, [97, 98]⟩).1
        (⟨100, []⟩ : critbit_key).mem = some ⟨100, []⟩ ∧
      critbit_str_get (critbit_str_insert
        (critbit_str_insert (critbit_init 1000 0 8) 11 ⟨100, []⟩).1 13 ⟨102, [97, 98]⟩).1
        (⟨102, [97, 98]⟩ : critbit_key).mem = some ⟨102, [97, 98]⟩) ∧
    ((critbit_str_insert (critbit_init 1000 0 8) 11 ⟨102, [97, 98]⟩).2 = none ∧
      (critbit_str_insert (critbit_str_insert (critbit_init 1000 0 8) 11 ⟨102, [97, 98]⟩).1
        13 ⟨100, []⟩).2 = none ∧
      critbit_str_get (critbit_str_insert
        (critbit_str_insert (critbit_init 1000 0 8) 11 ⟨102, [97, 98]⟩).1 13 ⟨100, []⟩).1
        (⟨100, []⟩ : critbit_key).mem = some ⟨100, []⟩ ∧
      critbit_str_get (critbit_str_insert
        (critbit_str_insert (critbit_init 1000 0 8) 11 ⟨102, [97, 98]⟩).1 13 ⟨100, []⟩).1
        (⟨102, [97, 98]⟩ : critbit_key).mem = some ⟨102, [97, 98]⟩)) :=
  ⟨by decide, ⟨[97, 98], rfl⟩, by decide,
    C10_proper_prefix 1000 0 8 11 13 ⟨100, []⟩ ⟨102, [97, 98]⟩ (by decide) ⟨[97, 98], rfl⟩
      (by decide)⟩

/-- Counterexample to C11 as stated: the first insertion into a fresh tree
returns `none` and yet calls the release callback on the node it was given. -/
theorem C11_insert_into_empty_releases :
    (critbit_init 1000 0 8).calls = [] ∧
    (critbit_str_insert (critbit_init 1000 0 8) 11 ⟨100, [97]⟩).2 = none ∧
    (critbit_str_insert (critbit_init 1000 0 8) 11 ⟨100, [97]⟩).1.calls = [(1000, 11)] ∧
    (critbit_str_insert (critbit_init 1000 0 8) 11 ⟨100, [97]⟩).1.ct_root =
      some (.key ⟨100, [97]⟩) := by
  decide

/-- C11 (amended): for every tree, key and probe, in both key domains, the
release callback is called in exactly three situations.  An insertion into
an empty tree returns `none` and makes one call, on the supplied node; an
insertion that returns a stored key (a duplicate) makes one call, on the
supplied node, and leaves the root as it was; a removal that takes a branch
node out of the tree makes one call, on that node.  An insertion into a
non-empty tree that returns `none` makes no call, and a removal that takes no
branch node out makes no call. -/
theorem C11_release_situations (t : critbit_tree) (newnode : Nat) (X : critbit_key)
    (p : List Nat) :
    InsertRelease t newnode (critbit_str_insert t newnode X) ∧
    InsertRelease t newnode (critbit_buf_insert t newnode X) ∧
    RemoveRelease t (critbit_str_remove t p) ∧ RemoveRelease t (critbit_buf_remove t p) :=
  ⟨insert_impl_release t newnode X _ _, insert_impl_release t newnode X _ _,
    (remove_impl_release t p _ _ _).1, (remove_impl_release t p _ _ _).1⟩

/-- Counterexample to C12 as stated: removing the only key of a tree returns
the key, but no branch node exists before or after and the callback is not
called. -/
theorem C12_remove_last_key_releases_nothing :
    (critbit_str_insert (critbit_init 1000 0 8) 11 ⟨100, [97]⟩).1.ct_root =
      some (.key ⟨100, [97]⟩) ∧
    (critbit_str_remove (critbit_str_insert (critbit_init 1000 0 8) 11 ⟨100, [97]⟩).1 [97]).2 =
      some ⟨100, [97]⟩ ∧
    tree_nodes (critbit_str_insert (critbit_init 1000 0 8) 11 ⟨100, [97]⟩).1 = [] ∧
    tree_nodes (critbit_str_remove (critbit_str_insert (critbit_init 1000 0 8) 11
      ⟨100, [97]⟩).1 [97]).1 = [] ∧
    (critbit_str_remove (critbit_str_insert (critbit_init 1000 0 8) 11 ⟨100, [97]⟩).1
      [97]).1.calls =
      (critbit_str_insert (critbit_init 1000 0 8) 11 ⟨100, [97]⟩).1.calls := by
  decide

/-- C12 (amended): for every tree and probe, in both key domains, a removal
that returns a key reduces the leaves of the tree by exactly that key.  When
the root was a branch node, exactly one branch node leaves the tree and the
callback is called exactly once, on it.  When the root was a leaf (the key
removed was the only one), the root becomes null, there is no branch node to
remove and the callback is not called. -/
theorem C12_remove_shrinks (t : critbit_tree) (p : List Nat) :
    RemoveShrinks t (critbit_str_remove t p) ∧ RemoveShrinks t (critbit_buf_remove t p) :=
  ⟨(remove_impl_release t p _ _ _).2, (remove_impl_release t p _ _ _).2⟩

/-- C13 (what the code does): the tree at address 1000 was initialised with
the context value 7.  The call made by an insertion, and the call made by a
removal, carry the address of the tree, 1000, as first argument, not 7.  In
general every call made by Insert or Remove has the address of the tree as
its first argument; its second argument is the supplied node for Insert and a
branch node of the tree for Remove. -/
theorem C13_release_context_is_tree :
    ((critbit_init 1000 7 8).ct_free_arg = 7 ∧
      (critbit_str_insert (critbit_init 1000 7 8) 11 ⟨100, [97]⟩).1.calls = [(1000, 11)] ∧
      (critbit_str_remove (str_run (critbit_init 1000 7 8)
        [Op.insert 11 ⟨100, [97]⟩, Op.insert 13 ⟨102, [98]⟩]) [97]).1.calls =
        [(1000, 11), (1000, 13)]) ∧
    ∀ (t : critbit_tree) (newnode : Nat) (X : critbit_key) (p : List Nat),
      (∃ l, (critbit_str_insert t newnode X).1.calls = t.calls ++ l ∧
        ∀ c ∈ l, c = (t.self, newnode)) ∧
      (∃ l, (critbit_buf_insert t newnode X).1.calls = t.calls ++ l ∧
        ∀ c ∈ l, c = (t.self, newnode)) ∧
      (∃ l, (critbit_str_remove t p).1.calls = t.calls ++ l ∧
        ∀ c ∈ l, c.1 = t.self ∧ c.2 ∈ tree_nodes t) ∧
      (∃ l, (critbit_buf_remove t p).1.calls = t.calls ++ l ∧
        ∀ c ∈ l, c.1 = t.self ∧ c.2 ∈ tree_nodes t) := by
  refine ⟨by decide, fun t newnode X p => ⟨?_, ?_, ?_, ?_⟩⟩
  · exact calls_of_insert_release (insert_impl_release t newnode X _ _)
  · exact calls_of_insert_release (insert_impl_release t newnode X _ _)
  · exact calls_of_remove_release (remove_impl_release t p _ _ _).1
  · exact calls_of_remove_release (remove_impl_release t p _ _ _).1

/-- C14: membership does not depend on the order of insertion.  String
domain: when the same pairwise different strings are inserted into two empty
trees in two orders (`l1`, `l2`, each with nodes of its own), every probe
has the same lookup result in both trees, so it is found in one exactly when
it is found in the other.  Buffer domain with key length `N`: the same for
buffers whose first `N` bytes are pairwise different. -/
theorem C14_order_independent (self1 free1 len1 self2 free2 len2 : Nat)
    (l1 l2 : List (Nat × critbit_key)) (p : List Nat)
    (hwf : ∀ e ∈ l1, IsStr e.2.mem) (hdist : (l1.map (fun e => e.2.mem)).Nodup)
    (hperm : (l1.map (fun e => e.2)).Perm (l2.map (fun e => e.2))) (hp : IsStr p)
    (N bself1 bfree1 bself2 bfree2 : Nat) (m1 m2 : List (Nat × critbit_key)) (q : List Nat)
    (hbwf : ∀ e ∈ m1, IsBuf N e.2.mem) (hbdist : (m1.map (fun e => e.2.mem.take N)).Nodup)
    (hbperm : (m1.map (fun e => e.2)).Perm (m2.map (fun e => e.2))) (hq : IsBuf N q) :
    (((critbit_str_get (str_run (critbit_init self1 free1 len1) (inserts l1)) p).isSome ↔
        (critbit_str_get (str_run (critbit_init self2 free2 len2) (inserts l2)) p).isSome) ∧
      critbit_str_get (str_run (critbit_init self1 free1 len1) (inserts l1)) p =
        critbit_str_get (str_run (critbit_init self2 free2 len2) (inserts l2)) p) ∧
    (((critbit_buf_get (buf_run (critbit_init bself1 bfree1 N) (inserts m1)) q).isSome ↔
        (critbit_buf_get (buf_run (critbit_init bself2 bfree2 N) (inserts m2)) q).isSome) ∧
      critbit_buf_get (buf_run (critbit_init bself1 bfree1 N) (inserts m1)) q =
        critbit_buf_get (buf_run (critbit_init bself2 bfree2 N) (inserts m2)) q) := by
  have hs : critbit_str_get (str_run (critbit_init self1 free1 len1) (inserts l1)) p =
      critbit_str_get (str_run (critbit_init self2 free2 len2) (inserts l2)) p := by
    have hwf2 : ∀ e ∈ l2, IsStr e.2.mem := by
      intro e he
      obtain ⟨e1, he1, h⟩ := List.mem_map.mp
        (hperm.mem_iff.mpr (List.mem_map.mpr ⟨e, he, rfl⟩))
      have := hwf e1 he1
      rwa [h] at this
    have hdist2 : (l2.map (fun e => e.2.mem)).Nodup := by
      have h1 : l1.map (fun e => e.2.mem) = (l1.map (fun e => e.2)).map (fun k => k.mem) := by
        simp
      have h2 : l2.map (fun e => e.2.mem) = (l2.map (fun e => e.2)).map (fun k => k.mem) := by
        simp
      rw [h2]
      rw [h1] at hdist
      exact (hperm.map (fun k => k.mem)).nodup_iff.mp hdist
    obtain ⟨i1, p1⟩ := str_run_inserts (strinv_init self1 free1 len1) l1 hwf hdist
      (fun e _ K hK => by simp [critbit_init, keys] at hK)
    obtain ⟨i2, p2⟩ := str_run_inserts (strinv_init self2 free2 len2) l2 hwf2 hdist2
      (fun e _ K hK => by simp [critbit_init, keys] at hK)
    refine str_get_of_keys i1 i2 ?_ hp
    refine p1.trans (List.Perm.trans ?_ p2.symm)
    simpa [critbit_init, keys] using hperm
  have hb : critbit_buf_get (buf_run (critbit_init bself1 bfree1 N) (inserts m1)) q =
      critbit_buf_get (buf_run (critbit_init bself2 bfree2 N) (inserts m2)) q := by
    have hwf2 : ∀ e ∈ m2, IsBuf N e.2.mem := by
      intro e he
      obtain ⟨e1, he1, h⟩ := List.mem_map.mp
        (hbperm.mem_iff.mpr (List.mem_map.mpr ⟨e, he, rfl⟩))
      have := hbwf e1 he1
      rwa [h] at this
    have hdist2 : (m2.map (fun e => e.2.mem.take N)).Nodup := by
      have h1 : m1.map (fun e => e.2.mem.take N) =
          (m1.map (fun e => e.2)).map (fun k => k.mem.take N) := by simp
      have h2 : m2.map (fun e => e.2.mem.take N) =
          (m2.map (fun e => e.2)).map (fun k => k.mem.take N) := by simp
      rw [h2]
      rw [h1] at hbdist
      exact (hbperm.map (fun k => k.mem.take N)).nodup_iff.mp hbdist
    obtain ⟨_, i1, p1⟩ := buf_inserts_spec m1 _ (bufinv_init bself1 bfree1 N) hbwf
      (by simpa [critbit_init, keys] using hbdist)
    obtain ⟨_, i2, p2⟩ := buf_inserts_spec m2 _ (bufinv_init bself2 bfree2 N) hwf2
      (by simpa [critbit_init, keys] using hdist2)
    rw [buf_run_inserts_eq, buf_run_inserts_eq]
    refine buf_get_of_keys i1 i2 ?_ ?_ hq
    · rw [(p1.map (fun k => k.mem.take N)).nodup_iff]
      simpa [critbit_init, keys] using hbdist
    · refine p1.trans (List.Perm.trans ?_ p2.symm)
      simpa [critbit_init, keys] using hbperm
  exact ⟨⟨by rw [hs], hs⟩, ⟨by rw [hb], hb⟩⟩

theorem C14_order_independent_witness :
    (∀ e ∈ [(11, (⟨100, [97]⟩ : critbit_key)), (13, ⟨102, [97, 97]⟩), (15, ⟨104, [98]⟩)],
      IsStr e.2.mem) ∧
    ([(11, (⟨100, [97]⟩ : critbit_key)), (13, ⟨102, [97, 97]⟩), (15, ⟨104, [98]⟩)].map
      (fun e => e.2.mem)).Nodup ∧
    ([(11, (⟨100, [97]⟩ : critbit_key)), (13, ⟨102, [97, 97]⟩), (15, ⟨104, [98]⟩)].map
      (fun e => e.2)).Perm
      ([(21, (⟨104, [98]⟩ : critbit_key)), (23, ⟨100, [97]⟩), (25, ⟨102, [97, 97]⟩)].map
        (fun e => e.2)) ∧ IsStr [97, 97] ∧
    (∀ e ∈ [(11, (⟨100, [1, 0, 7]⟩ : critbit_key)), (13, ⟨102, [1, 1, 0]⟩)], IsBuf 2 e.2.mem) ∧
    ([(11, (⟨100, [1, 0, 7]⟩ : critbit_key)), (13, ⟨102, [1, 1, 0]⟩)].map
      (fun e => e.2.mem.take 2)).Nodup ∧
    ([(11, (⟨100, [1, 0, 7]⟩ : critbit_key)), (13, ⟨102, [1, 1, 0]⟩)].map (fun e => e.2)).Perm
      ([(21, (⟨102, [1, 1, 0]⟩ : critbit_key)), (23, ⟨100, [1, 0, 7]⟩)].map (fun e => e.2)) ∧
    IsBuf 2 [1, 1] ∧
    ((((critbit_str_get (str_run (critbit_init 1000 0 8)
          (inserts [(11, ⟨100, [97]⟩), (13, ⟨102, [97, 97]⟩), (15, ⟨104, [98]⟩)]))
          [97, 97]).isSome ↔
        (critbit_str_get (str_run (critbit_init 3000 0 8)
          (inserts [(21, ⟨104, [98]⟩), (23, ⟨100, [97]⟩), (25, ⟨102, [97, 97]⟩)]))
          [97, 97]).isSome) ∧
      critbit_str_get (str_run (critbit_init 1000 0 8)
          (inserts [(11, ⟨100, [97]⟩), (13, ⟨102, [97, 97]⟩), (15, ⟨104, [98]⟩)])) [97, 97] =
        critbit_str_get (str_run (critbit_init 3000 0 8)
          (inserts [(21, ⟨104, [98]⟩), (23, ⟨100, [97]⟩), (25, ⟨102, [97, 97]⟩)])) [97, 97]) ∧
    (((critbit_buf_get (buf_run (critbit_init 2000 0 2)
          (inserts [(11, ⟨100, [1, 0, 7]⟩), (13, ⟨102, [1, 1, 0]⟩)])) [1, 1]).isSome ↔
        (critbit_buf_get (buf_run (critbit_init 4000 0 2)
          (inserts [(21, ⟨102, [1, 1, 0]⟩), (23, ⟨100, [1, 0, 7]⟩)])) [1, 1]).isSome) ∧
      critbit_buf_get (buf_run (critbit_init 2000 0 2)
          (inserts [(11, ⟨100, [1, 0, 7]⟩), (13, ⟨102, [1, 1, 0]⟩)])) [1, 1] =
        critbit_buf_get (buf_run (critbit_init 4000 0 2)
          (inserts [(21, ⟨102, [1, 1, 0]⟩), (23, ⟨100, [1, 0, 7]⟩)])) [1, 1])) :=
  ⟨by decide, by decide, by decide, by decide, by decide, by decide, by decide, by decide,
    C14_order_independent 1000 0 8 3000 0 8
      [(11, ⟨100, [97]⟩), (13, ⟨102, [97, 97]⟩), (15, ⟨104, [98]⟩)]
      [(21, ⟨104, [98]⟩), (23, ⟨100, [97]⟩), (25, ⟨102, [97, 97]⟩)] [97, 97]
      (by decide) (by decide) (by decide) (by decide) 2 2000 0 4000 0
      [(11, ⟨100, [1, 0, 7]⟩), (13, ⟨102, [1, 1, 0]⟩)]
      [(21, ⟨102, [1, 1, 0]⟩), (23, ⟨100, [1, 0, 7]⟩)] [1, 1]
      (by decide) (by decide) (by decide) (by decide)⟩

/-- C15: tagged references round-trip.  For an even node address `n` (below
`2 ^ 64`) the reference written by `critbit_ref_set_node` is internal and
`critbit_ref_get_node` gives `n` back; for an even key address `k` the
reference written by `critbit_ref_set_key` is not internal and
`critbit_ref_get_key` gives `k` back.  Hence a node reference is never a key
reference, and every reference is exactly one of the two. -/
theorem C15_tagged_roundtrip (n k : Nat) (hn : n < 2 ^ 64) (hne : n % 2 = 0) (hke : k % 2 = 0) :
    critbit_ref_is_internal (critbit_ref_set_node n) = 1 ∧
    critbit_ref_get_node (critbit_ref_set_node n) = n ∧
    critbit_ref_is_internal (critbit_ref_set_key k) = 0 ∧
    critbit_ref_get_key (critbit_ref_set_key k) = k ∧
    critbit_ref_set_node n ≠ critbit_ref_set_key k ∧
    ∀ r, (critbit_ref_is_internal r = 0 ∨ critbit_ref_is_internal r = 1) ∧
      ¬ (critbit_ref_is_internal r = 0 ∧ critbit_ref_is_internal r = 1) := by
  have h1 : (n + 1) % 2 ^ 64 = n + 1 := Nat.mod_eq_of_lt (by omega)
  refine ⟨?_, ?_, ?_, rfl, ?_, fun r => ?_⟩
  · simp only [critbit_ref_is_internal, critbit_ref_set_node, h1, Nat.and_one_is_mod]
    omega
  · simp only [critbit_ref_get_node, critbit_ref_set_node, h1]
    have : n + 1 + 2 ^ 64 - 1 = n + 2 ^ 64 := by omega
    rw [this, Nat.add_mod_right]
    exact Nat.mod_eq_of_lt hn
  · simp only [critbit_ref_is_internal, critbit_ref_set_key, Nat.and_one_is_mod]
    exact hke
  · simp only [critbit_ref_set_node, critbit_ref_set_key, h1]
    omega
  · simp only [critbit_ref_is_internal, Nat.and_one_is_mod]
    omega

theorem C15_tagged_roundtrip_witness :
    4096 < 2 ^ 64 ∧ 4096 % 2 = 0 ∧ 8200 % 2 = 0 ∧
    (critbit_ref_is_internal (critbit_ref_set_node 4096) = 1 ∧
    critbit_ref_get_node (critbit_ref_set_node 4096) = 4096 ∧
    critbit_ref_is_internal (critbit_ref_set_key 8200) = 0 ∧
    critbit_ref_get_key (critbit_ref_set_key 8200) = 8200 ∧
    critbit_ref_set_node 4096 ≠ critbit_ref_set_key 8200 ∧
    ∀ r, (critbit_ref_is_internal r = 0 ∨ critbit_ref_is_internal r = 1) ∧
      ¬ (critbit_ref_is_internal r = 0 ∧ critbit_ref_is_internal r = 1)) :=
  ⟨by decide, by decide, by decide, C15_tagged_roundtrip 4096 8200 (by decide) (by decide)
    (by decide)⟩

/-- C18: for every byte `c` and every single-bit mask `m`, with
`otherbits = 255 XOR m`, the branch-free direction `(1 + (otherbits | c)) >> 8`
used by the three algorithms is 0 or 1 and equals the plain bit test: 1 when
`c AND m` is not zero, else 0. -/
theorem C18_direction_is_bit_test (c m : Nat) (hc : c < 256)
    (hm : m ∈ [1, 2, 4, 8, 16, 32, 64, 128]) :
    (direction (255 ^^^ m) c = 0 ∨ direction (255 ^^^ m) c = 1) ∧
    direction (255 ^^^ m) c = if c &&& m ≠ 0 then 1 else 0 := by
  obtain ⟨h1, h2⟩ := direction_bit_test_aux m hm c hc
  exact ⟨by omega, h2⟩

theorem C18_direction_is_bit_test_witness :
    97 < 256 ∧ 32 ∈ [1, 2, 4, 8, 16, 32, 64, 128] ∧
    ((direction (255 ^^^ 32) 97 = 0 ∨ direction (255 ^^^ 32) 97 = 1) ∧
    direction (255 ^^^ 32) 97 = if 97 &&& 32 ≠ 0 then 1 else 0) :=
  ⟨by decide, by decide, C18_direction_is_bit_test 97 32 (by decide) (by decide)⟩

/-- C19: for every `x` in 1..255 the loop that clears the lowest set bit
terminates (the value returned satisfies the exit condition, and any larger
bound on the number of iterations gives the same value) and leaves the most
significant set bit of `x`: a power of two `2 ^ i` with `2 ^ i ≤ x <
2 ^ (i + 1)`, where bit `i` of `x` is set and no higher bit is.  The node
linked by an insertion whose differing bytes have XOR `x` stores
`otherbits = 2 ^ i XOR 255`. -/
theorem C19_msb_loop (x : Nat) (h0 : 0 < x) (hx : x < 256) :
    (msb_loop x &&& (msb_loop x - 1) = 0 ∧
      ∀ fuel, x ≤ fuel → clear_low_bits fuel x = msb_loop x) ∧
    ∃ i, i < 8 ∧ msb_loop x = 2 ^ i ∧ 2 ^ i ≤ x ∧ x < 2 ^ (i + 1) ∧ x.testBit i = true ∧
      (∀ j, i < j → x.testBit j = false) ∧
      ∀ (t : critbit_tree) (r : critbit_ref) (newnode : Nat) (X : critbit_key) (n d : Nat)
        (kb : critbit_key → List Nat), t.ct_root = some r →
        different_byte (kb (descend (kb X) n r)) (kb X) 0 n = some (d, x) →
        ∃ r2, (critbit_insert_impl t newnode X n kb).1.ct_root = some r2 ∧
          HasNode r2 newnode d (2 ^ i ^^^ 255) := by
  refine ⟨⟨msb_loop_done x, fun fuel hf => clear_low_bits_fuel fuel x x hf (le_refl x)⟩, ?_⟩
  obtain ⟨i, hi, h1, h2, h3, h4⟩ := msb_loop_pow_aux x hx h0
  refine ⟨i, hi, h1, h2, h3, h4, fun j hj => ?_, ?_⟩
  · apply Nat.testBit_lt_two_pow
    exact lt_of_lt_of_le h3 (Nat.pow_le_pow_right (by omega) hj)
  · intro t r newnode X n d kb hr hdb
    rw [((insert_impl_cases t newnode X n kb).2 r hr).2 d x hdb, h1]
    exact ⟨_, rfl, splice_has_node _ _ _ _ _ _ _ _⟩

theorem C19_msb_loop_witness :
    0 < 3 ∧ 3 < 256 ∧
    ((msb_loop 3 &&& (msb_loop 3 - 1) = 0 ∧
      ∀ fuel, 3 ≤ fuel → clear_low_bits fuel 3 = msb_loop 3) ∧
    ∃ i, i < 8 ∧ msb_loop 3 = 2 ^ i ∧ 2 ^ i ≤ 3 ∧ 3 < 2 ^ (i + 1) ∧ (3 : Nat).testBit i = true ∧
      (∀ j, i < j → (3 : Nat).testBit j = false) ∧
      ∀ (t : critbit_tree) (r : critbit_ref) (newnode : Nat) (X : critbit_key) (n d : Nat)
        (kb : critbit_key → List Nat), t.ct_root = some r →
        different_byte (kb (descend (kb X) n r)) (kb X) 0 n = some (d, 3) →
        ∃ r2, (critbit_insert_impl t newnode X n kb).1.ct_root = some r2 ∧
          HasNode r2 newnode d (2 ^ i ^^^ 255)) :=
  ⟨by decide, by decide, C19_msb_loop 3 (by decide) (by decide)⟩

/-- Counterexample to C20 as stated: `"b"` compared with `"aa"` gives -1,
the length difference, while the first differing byte is larger in `"b"`. -/
theorem C20_str_keycmp_sign_by_length :
    IsStr [98] ∧ IsStr [97, 97] ∧ rd [98] 0 ≠ rd [97, 97] 0 ∧
    critbit_str_keycmp [98] [97, 97] (strlen [97, 97]) = -1 ∧
    (rd [98] 0 : Int) - (rd [97, 97] 0 : Int) = 1 ∧
    Int.sign (critbit_str_keycmp [98] [97, 97] (strlen [97, 97])) ≠
      Int.sign ((rd [98] 0 : Int) - (rd [97, 97] 0 : Int)) := by
  decide

/-- C20 (amended): in both key domains the comparison returns 0 exactly when
the two keys have the same byte at every index.  Buffer domain (key length
`N`): a non-zero result has the sign of the difference of the bytes at the
first index where the keys differ.  String domain: when the lengths differ
the result is the difference of the lengths; when they are equal a non-zero
result has the sign of the difference of the bytes at the first index where
the strings differ. -/
theorem C20_compare (a b : List Nat) (N : Nat) (s t : List Nat) (hs : IsStr s) (ht : IsStr t) :
    ((critbit_buf_keycmp a b N = 0 ↔ ∀ i, probe_byte a N i = probe_byte b N i) ∧
      ∀ d, (∀ j, j < d → probe_byte a N j = probe_byte b N j) →
        probe_byte a N d ≠ probe_byte b N d →
        Int.sign (critbit_buf_keycmp a b N) =
          Int.sign ((probe_byte a N d : Int) - (probe_byte b N d : Int))) ∧
    ((critbit_str_keycmp s t (strlen t) = 0 ↔ ∀ i, rd s i = rd t i) ∧
      (s.length ≠ t.length →
        critbit_str_keycmp s t (strlen t) = (s.length : Int) - (t.length : Int)) ∧
      (s.length = t.length → ∀ d, (∀ j, j < d → rd s j = rd t j) → rd s d ≠ rd t d →
        Int.sign (critbit_str_keycmp s t (strlen t)) =
          Int.sign ((rd s d : Int) - (rd t d : Int)))) := by
  refine ⟨⟨?_, ?_⟩, ?_, ?_, ?_⟩
  · rw [buf_keycmp_eq_zero]
    exact ⟨fun h i => congrFun h i, fun h => funext h⟩
  · intro d heq hne
    have hd : d < N := by
      by_contra hc
      simp [probe_byte, hc] at hne
    have e : ∀ j, j ≤ d → probe_byte a N j = rd a j ∧ probe_byte b N j = rd b j := by
      intro j hj
      have : j < N := by omega
      simp [probe_byte, this]
    unfold critbit_buf_keycmp memcmp
    rw [memcmp_from_first_diff a b 0 N d (Nat.zero_le _) (by omega)
      (fun j _ hj => by rw [← (e j (by omega)).1, ← (e j (by omega)).2]; exact heq j hj)
      (by rw [← (e d (le_refl _)).1, ← (e d (le_refl _)).2]; exact hne)]
    rw [(e d (le_refl _)).1, (e d (le_refl _)).2]
  · rw [str_keycmp_eq_zero hs ht]
    exact ⟨fun h i => by rw [h], fun h => str_ext hs ht h⟩
  · intro hl
    unfold critbit_str_keycmp
    simp only [strlen_eq_length hs, strlen_eq_length ht]
    have hne : ((s.length : Int) - (t.length : Int) != 0) = true := by
      simp; omega
    simp [hne]
  · intro hl d heq hne
    have hd : d < t.length := by
      by_contra hc
      rw [rd_of_le (by omega), rd_of_le (by omega)] at hne
      exact hne rfl
    unfold critbit_str_keycmp memcmp
    simp only [strlen_eq_length hs, strlen_eq_length ht, hl, sub_self, bne_self_eq_false,
      Bool.false_eq_true, if_false]
    rw [memcmp_from_first_diff s t 0 t.length d (Nat.zero_le _) (by omega)
      (fun j _ hj => heq j hj) hne]

theorem C20_compare_witness :
    IsStr [97, 98] ∧ IsStr [97, 99] ∧
    (((critbit_buf_keycmp [1, 2, 9] [1, 3, 0] 2 = 0 ↔
        ∀ i, probe_byte [1, 2, 9] 2 i = probe_byte [1, 3, 0] 2 i) ∧
      ∀ d, (∀ j, j < d → probe_byte [1, 2, 9] 2 j = probe_byte [1, 3, 0] 2 j) →
        probe_byte [1, 2, 9] 2 d ≠ probe_byte [1, 3, 0] 2 d →
        Int.sign (critbit_buf_keycmp [1, 2, 9] [1, 3, 0] 2) =
          Int.sign ((probe_byte [1, 2, 9] 2 d : Int) - (probe_byte [1, 3, 0] 2 d : Int))) ∧
    ((critbit_str_keycmp [97, 98] [97, 99] (strlen [97, 99]) = 0 ↔
        ∀ i, rd [97, 98] i = rd [97, 99] i) ∧
      ([97, 98].length ≠ [97, 99].length →
        critbit_str_keycmp [97, 98] [97, 99] (strlen [97, 99]) =
          (([97, 98] : List Nat).length : Int) - (([97, 99] : List Nat).length : Int)) ∧
      ([97, 98].length = [97, 99].length →
        ∀ d, (∀ j, j < d → rd [97, 98] j = rd [97, 99] j) → rd [97, 98] d ≠ rd [97, 99] d →
        Int.sign (critbit_str_keycmp [97, 98] [97, 99] (strlen [97, 99])) =
          Int.sign ((rd [97, 98] d : Int) - (rd [97, 99] d : Int))))) :=
  ⟨by decide, by decide, C20_compare [1, 2, 9] [1, 3, 0] 2 [97, 98] [97, 99] (by decide)
    (by decide)⟩

/-- Counterexample to C16 as stated: after inserting `"a"`, `"b"`, `"c"` a
path tests byte 0 twice, first bit 2 and below it bit 1, so the deeper bit is
not the more significant one. -/
theorem C16_deeper_bit_is_less_significant :
    StrReachable (str_run (critbit_init 1000 0 8)
      [Op.insert 11 ⟨100, [97]⟩, Op.insert 13 ⟨102, [98]⟩, Op.insert 15 ⟨104, [99]⟩]) ∧
    [(0, 253), (0, 254)] ∈ tree_paths (str_run (critbit_init 1000 0 8)
      [Op.insert 11 ⟨100, [97]⟩, Op.insert 13 ⟨102, [98]⟩, Op.insert 15 ⟨104, [99]⟩]) ∧
    253 ^^^ 255 = 2 ∧ 254 ^^^ 255 = 1 ∧
    ¬ ([(0, 253), (0, 254)] : List (Nat × Nat)).Chain'
      (fun p q => p.1 < q.1 ∨ (p.1 = q.1 ∧ p.2 ^^^ 255 < q.2 ^^^ 255)) := by
  refine ⟨⟨1000, 0, 8, _, by decide, rfl⟩, by decide, by decide, by decide, ?_⟩
  simp [List.chain'_cons]

/-- C16 (amended): in every tree reachable from empty by Insert and Remove,
along every root-to-leaf path the tests of successive branch nodes are in
order: the byte index ascends, and where two successive nodes have the same
byte index the deeper node's discriminating bit (`otherbits XOR 255`) has the
lower significance.  String domain: for all successive nodes, and every
`otherbits` is the complement of one bit.  Buffer domain with key length `N`:
for successive nodes whose deeper node tests a byte inside the key. -/
theorem C16_tests_ordered (t : critbit_tree) (ht : StrReachable t) (N : Nat)
    (tb : critbit_tree) (htb : BufReachable N tb) :
    (∀ π ∈ tree_paths t, π.Chain' TestBefore ∧ ∀ e ∈ π, IsMask e.2) ∧
    (∀ π ∈ tree_paths tb, π.Chain' (fun p q => q.1 < N → TestBefore p q) ∧
      ∀ e ∈ π, e.1 < N → IsMask e.2) := by
  constructor
  · intro π hπ
    obtain ⟨hinv, ho⟩ := str_reachable_ordered ht
    cases hr : t.ct_root with
    | none => simp [tree_paths, hr] at hπ
    | some r =>
      simp only [tree_paths, hr] at hπ
      obtain ⟨_, h2, h3⟩ := @ordered_paths str_view (fun _ => False) (fun _ _ h _ => h) r
        (hinv.1 r hr) (ho r hr) π hπ
      exact ⟨h2.imp (fun _ _ h => h (fun hf => hf)), fun e he => h3 e he (fun hf => hf)⟩
  · intro π hπ
    obtain ⟨hinv, ho⟩ := buf_reachable_ordered htb
    cases hr : tb.ct_root with
    | none => simp [tree_paths, hr] at hπ
    | some r =>
      simp only [tree_paths, hr] at hπ
      obtain ⟨_, h2, h3⟩ := @ordered_paths (buf_view N) (fun b => N ≤ b)
        (fun _ _ h1 h2 => le_trans h1 h2) r (hinv.2.1 r hr) (ho r hr) π hπ
      exact ⟨h2.imp (fun _ _ h hq => h (by omega)), fun e he hq => h3 e he (by omega)⟩

theorem C16_tests_ordered_witness :
    StrReachable (str_run (critbit_init 1000 0 8)
      [Op.insert 11 ⟨100, [97]⟩, Op.insert 13 ⟨102, [98]⟩, Op.insert 15 ⟨104, [99]⟩]) ∧
    BufReachable 2 (buf_run (critbit_init 2000 0 2)
      [Op.insert 11 ⟨100, [1, 0, 7]⟩, Op.insert 13 ⟨102, [1, 1, 0]⟩]) ∧
    ((∀ π ∈ tree_paths (str_run (critbit_init 1000 0 8)
        [Op.insert 11 ⟨100, [97]⟩, Op.insert 13 ⟨102, [98]⟩, Op.insert 15 ⟨104, [99]⟩]),
      π.Chain' TestBefore ∧ ∀ e ∈ π, IsMask e.2) ∧
    (∀ π ∈ tree_paths (buf_run (critbit_init 2000 0 2)
        [Op.insert 11 ⟨100, [1, 0, 7]⟩, Op.insert 13 ⟨102, [1, 1, 0]⟩]),
      π.Chain' (fun p q => q.1 < 2 → TestBefore p q) ∧ ∀ e ∈ π, e.1 < 2 → IsMask e.2)) :=
  ⟨⟨1000, 0, 8, _, by decide, rfl⟩, ⟨2000, 0, _, by decide, rfl⟩,
    C16_tests_ordered _ ⟨1000, 0, 8, _, by decide, rfl⟩ 2 _ ⟨2000, 0, _, by decide, rfl⟩⟩

/-- C17: String domain, insertion into a non-empty tree that returns `none`.
With `existing` the key reached by the descent on the new key, there are a
byte index `d`, a bit index `i` and a subtree `sub` such that: `d` is the
first index at which `existing` and the key differ; bit `i` is the most
significant set bit of the XOR of their bytes at `d`; `sub` is what the slot
where the second descent stops held; and the tree after the call is the tree
before it with that slot rewritten to the supplied node, everything else
unchanged.  The supplied node has `byte = d`, `otherbits = 255 XOR 2 ^ i`,
the old content `sub` of the slot in `child[existingDirection]` and the new
key in `child[1 - existingDirection]`, where `existingDirection` is the
direction of the byte of `existing` at `d`, which is 0 or 1. -/
theorem C17_insert_splice (t : critbit_tree) (r : critbit_ref) (newnode : Nat)
    (X : critbit_key) (hr : t.ct_root = some r) (hstr : ∀ k ∈ keys t, IsStr k.mem)
    (hX : IsStr X.mem) (hres : (critbit_str_insert t newnode X).2 = none) :
    ∃ d i sub,
      (∀ j, j < d → rd (descend X.mem (strlen X.mem) r).mem j = rd X.mem j) ∧
      rd (descend X.mem (strlen X.mem) r).mem d ≠ rd X.mem d ∧
      i < 8 ∧ (rd (descend X.mem (strlen X.mem) r).mem d ^^^ rd X.mem d).testBit i = true ∧
      (∀ j, i < j → (rd (descend X.mem (strlen X.mem) r).mem d ^^^ rd X.mem d).testBit j = false) ∧
      slot_at r (splice_slot X.mem (strlen X.mem) d (255 ^^^ 2 ^ i) r) = some sub ∧
      ((direction (255 ^^^ 2 ^ i) (rd (descend X.mem (strlen X.mem) r).mem d) = 0 ∧
          (critbit_str_insert t newnode X).1 =
            { t with ct_root := some (slot_set r
                (splice_slot X.mem (strlen X.mem) d (255 ^^^ 2 ^ i) r)
                (.node newnode sub (.key X) d (255 ^^^ 2 ^ i))) }) ∨
        (direction (255 ^^^ 2 ^ i) (rd (descend X.mem (strlen X.mem) r).mem d) = 1 ∧
          (critbit_str_insert t newnode X).1 =
            { t with ct_root := some (slot_set r
                (splice_slot X.mem (strlen X.mem) d (255 ^^^ 2 ^ i) r)
                (.node newnode (.key X) sub d (255 ^^^ 2 ^ i))) })) := by
  have hk : keys t = leaves r := by simp [keys, hr]
  have hLs : IsStr (descend X.mem (strlen X.mem) r).mem :=
    hstr _ (by rw [hk]; exact descend_mem _ _ _)
  obtain ⟨c2, c3⟩ := (insert_impl_cases t newnode X (critbit_str_keylen X.mem)
    critbit_str_keybuf).2 r hr
  simp only [critbit_str_keybuf, critbit_str_keylen] at c2 c3
  unfold critbit_str_insert at hres ⊢
  simp only [critbit_str_keylen] at hres ⊢
  cases hdb : different_byte (descend X.mem (strlen X.mem) r).mem X.mem 0 (strlen X.mem) with
  | none =>
    rw [c2 hdb] at hres
    simp at hres
  | some q =>
    obtain ⟨d, x⟩ := q
    obtain ⟨h1, h2, h3⟩ := str_different_byte_some hX hdb
    have hbL := rd_lt_of_bytes (fun b hb => (hLs.2 b hb).2) d
    have hbX := rd_lt_of_bytes (fun b hb => (hX.2 b hb).2) d
    have hx : x < 256 := by rw [h3]; exact @Nat.xor_lt_two_pow _ _ 8 hbL hbX
    have hx0 : 0 < x := by
      rcases Nat.eq_zero_or_pos x with h | h
      · rw [h3] at h
        exact absurd (Nat.xor_eq_zero.mp h) h2
      · exact h
    obtain ⟨i, hi, e1, _, e3, e4⟩ := msb_loop_pow_aux x hx hx0
    obtain ⟨sub, s1, s2⟩ := splice_eq_slot_set newnode X X.mem (strlen X.mem) d
      (msb_loop x ^^^ 255) (direction (msb_loop x ^^^ 255)
        (rd (descend X.mem (strlen X.mem) r).mem d)) r
    rw [e1, Nat.xor_comm (2 ^ i) 255] at s1 s2
    rw [c3 d x hdb, e1, Nat.xor_comm (2 ^ i) 255, s2]
    have hdir := direction_le_one ⟨i, hi, rfl⟩ hbL
    refine ⟨d, i, sub, h1, h2, hi, by rw [← h3]; exact e4, fun j hj => ?_, s1, ?_⟩
    · rw [← h3]
      apply Nat.testBit_lt_two_pow
      exact lt_of_lt_of_le e3 (Nat.pow_le_pow_right (by omega) hj)
    · by_cases h0 : direction (255 ^^^ 2 ^ i) (rd (descend X.mem (strlen X.mem) r).mem d) = 0
      · exact Or.inl ⟨h0, by simp [attach, h0]⟩
      · exact Or.inr ⟨by omega, by simp [attach, h0]⟩

theorem C17_insert_splice_witness :
    (str_run (critbit_init 1000 0 8)
      [Op.insert 11 ⟨100, [97]⟩, Op.insert 13 ⟨102, [97, 97]⟩]).ct_root =
      some (.node 13 (.key ⟨100, [97]⟩) (.key ⟨102, [97, 97]⟩) 1 191) ∧
    (∀ k ∈ keys (str_run (critbit_init 1000 0 8)
      [Op.insert 11 ⟨100, [97]⟩, Op.insert 13 ⟨102, [97, 97]⟩]), IsStr k.mem) ∧
    IsStr (⟨104, [97, 98]⟩ : critbit_key).mem ∧
    (critbit_str_insert (str_run (critbit_init 1000 0 8)
      [Op.insert 11 ⟨100, [97]⟩, Op.insert 13 ⟨102, [97, 97]⟩]) 15 ⟨104, [97, 98]⟩).2 = none ∧
    ∃ d i sub,
      (∀ j, j < d → rd (descend (⟨104, [97, 98]⟩ : critbit_key).mem (strlen (⟨104, [97, 98]⟩ : critbit_key).mem)
        (.node 13 (.key ⟨100, [97]⟩) (.key ⟨102, [97, 97]⟩) 1 191)).mem j = rd (⟨104, [97, 98]⟩ : critbit_key).mem j) ∧
      rd (descend (⟨104, [97, 98]⟩ : critbit_key).mem (strlen (⟨104, [97, 98]⟩ : critbit_key).mem)
        (.node 13 (.key ⟨100, [97]⟩) (.key ⟨102, [97, 97]⟩) 1 191)).mem d ≠ rd (⟨104, [97, 98]⟩ : critbit_key).mem d ∧
      i < 8 ∧ (rd (descend (⟨104, [97, 98]⟩ : critbit_key).mem (strlen (⟨104, [97, 98]⟩ : critbit_key).mem)
        (.node 13 (.key ⟨100, [97]⟩) (.key ⟨102, [97, 97]⟩) 1 191)).mem d ^^^ rd (⟨104, [97, 98]⟩ : critbit_key).mem d).testBit i = true ∧
      (∀ j, i < j → (rd (descend (⟨104, [97, 98]⟩ : critbit_key).mem (strlen (⟨104, [97, 98]⟩ : critbit_key).mem)
        (.node 13 (.key ⟨100, [97]⟩) (.key ⟨102, [97, 97]⟩) 1 191)).mem d ^^^ rd (⟨104, [97, 98]⟩ : critbit_key).mem d).testBit j = false) ∧
      slot_at (.node 13 (.key ⟨100, [97]⟩) (.key ⟨102, [97, 97]⟩) 1 191) (splice_slot (⟨104, [97, 98]⟩ : critbit_key).mem (strlen (⟨104, [97, 98]⟩ : critbit_key).mem) d (255 ^^^ 2 ^ i)
        (.node 13 (.key ⟨100, [97]⟩) (.key ⟨102, [97, 97]⟩) 1 191)) = some sub ∧
      ((direction (255 ^^^ 2 ^ i) (rd (descend (⟨104, [97, 98]⟩ : critbit_key).mem (strlen (⟨104, [97, 98]⟩ : critbit_key).mem)
        (.node 13 (.key ⟨100, [97]⟩) (.key ⟨102, [97, 97]⟩) 1 191)).mem d) = 0 ∧
          (critbit_str_insert (str_run (critbit_init 1000 0 8)
      [Op.insert 11 ⟨100, [97]⟩, Op.insert 13 ⟨102, [97, 97]⟩]) 15 ⟨104, [97, 98]⟩).1 =
            { (str_run (critbit_init 1000 0 8)
      [Op.insert 11 ⟨100, [97]⟩, Op.insert 13 ⟨102, [97, 97]⟩]) with ct_root := some (slot_set (.node 13 (.key ⟨100, [97]⟩) (.key ⟨102, [97, 97]⟩) 1 191)
                (splice_slot (⟨104, [97, 98]⟩ : critbit_key).mem (strlen (⟨104, [97, 98]⟩ : critbit_key).mem) d (255 ^^^ 2 ^ i)
        (.node 13 (.key ⟨100, [97]⟩) (.key ⟨102, [97, 97]⟩) 1 191))
                (.node 15 sub (.key ⟨104, [97, 98]⟩) d (255 ^^^ 2 ^ i))) }) ∨
        (direction (255 ^^^ 2 ^ i) (rd (descend (⟨104, [97, 98]⟩ : critbit_key).mem (strlen (⟨104, [97, 98]⟩ : critbit_key).mem)
        (.node 13 (.key ⟨100, [97]⟩) (.key ⟨102, [97, 97]⟩) 1 191)).mem d) = 1 ∧
          (critbit_str_insert (str_run (critbit_init 1000 0 8)
      [Op.insert 11 ⟨100, [97]⟩, Op.insert 13 ⟨102, [97, 97]⟩]) 15 ⟨104, [97, 98]⟩).1 =
            { (str_run (critbit_init 1000 0 8)
      [Op.insert 11 ⟨100, [97]⟩, Op.insert 13 ⟨102, [97, 97]⟩]) with ct_root := some (slot_set (.node 13 (.key ⟨100, [97]⟩) (.key ⟨102, [97, 97]⟩) 1 191)
                (splice_slot (⟨104, [97, 98]⟩ : critbit_key).mem (strlen (⟨104, [97, 98]⟩ : critbit_key).mem) d (255 ^^^ 2 ^ i)
        (.node 13 (.key ⟨100, [97]⟩) (.key ⟨102, [97, 97]⟩) 1 191))
                (.node 15 (.key ⟨104, [97, 98]⟩) sub d (255 ^^^ 2 ^ i))) })) :=
  ⟨by decide, by decide, by decide, by decide,
    C17_insert_splice (str_run (critbit_init 1000 0 8)
      [Op.insert 11 ⟨100, [97]⟩, Op.insert 13 ⟨102, [97, 97]⟩])
      (.node 13 (.key ⟨100, [97]⟩) (.key ⟨102, [97, 97]⟩) 1 191) 15 ⟨104, [97, 98]⟩
      (by decide) (by decide) (by decide) (by decide)⟩

theorem C11_release_situations_witness :
    ((critbit_str_insert (critbit_init 1000 0 8) 11 ⟨100, [97]⟩).2 = none ∧
      (critbit_str_insert (critbit_init 1000 0 8) 11 ⟨100, [97]⟩).1.calls =
        (critbit_init 1000 0 8).calls ++ [((critbit_init 1000 0 8).self, 11)]) ∧
    (critbit_str_insert (str_run (critbit_init 1000 0 8) [Op.insert 11 ⟨100, [97]⟩]) 13
        ⟨102, [98]⟩).1.calls =
      (str_run (critbit_init 1000 0 8) [Op.insert 11 ⟨100, [97]⟩]).calls ∧
    ((critbit_str_insert (str_run (critbit_init 1000 0 8) [Op.insert 11 ⟨100, [97]⟩]) 13
        ⟨102, [97]⟩).1.calls =
      (str_run (critbit_init 1000 0 8) [Op.insert 11 ⟨100, [97]⟩]).calls ++
        [((str_run (critbit_init 1000 0 8) [Op.insert 11 ⟨100, [97]⟩]).self, 13)] ∧
      (critbit_str_insert (str_run (critbit_init 1000 0 8) [Op.insert 11 ⟨100, [97]⟩]) 13
        ⟨102, [97]⟩).1.ct_root =
      (str_run (critbit_init 1000 0 8) [Op.insert 11 ⟨100, [97]⟩]).ct_root) :=
  ⟨(C11_release_situations (critbit_init 1000 0 8) 11 ⟨100, [97]⟩ []).1.1 (by decide),
    (C11_release_situations (str_run (critbit_init 1000 0 8) [Op.insert 11 ⟨100, [97]⟩]) 13
      ⟨102, [98]⟩ []).1.2.1 (by decide) (by decide),
    (C11_release_situations (str_run (critbit_init 1000 0 8) [Op.insert 11 ⟨100, [97]⟩]) 13
      ⟨102, [97]⟩ []).1.2.2 ⟨100, [97]⟩ (by decide)⟩

theorem C12_remove_shrinks_witness :
    (keys (str_run (critbit_init 1000 0 8)
        [Op.insert 11 ⟨100, [97]⟩, Op.insert 13 ⟨102, [98]⟩])).Perm
      (⟨100, [97]⟩ :: keys (critbit_str_remove (str_run (critbit_init 1000 0 8)
        [Op.insert 11 ⟨100, [97]⟩, Op.insert 13 ⟨102, [98]⟩]) [97]).1) ∧
    ∃ f, (tree_nodes (str_run (critbit_init 1000 0 8)
        [Op.insert 11 ⟨100, [97]⟩, Op.insert 13 ⟨102, [98]⟩])).Perm
        (f :: tree_nodes (critbit_str_remove (str_run (critbit_init 1000 0 8)
          [Op.insert 11 ⟨100, [97]⟩, Op.insert 13 ⟨102, [98]⟩]) [97]).1) ∧
      (tree_nodes (critbit_str_remove (str_run (critbit_init 1000 0 8)
          [Op.insert 11 ⟨100, [97]⟩, Op.insert 13 ⟨102, [98]⟩]) [97]).1).length + 1 =
        (tree_nodes (str_run (critbit_init 1000 0 8)
          [Op.insert 11 ⟨100, [97]⟩, Op.insert 13 ⟨102, [98]⟩])).length ∧
      (critbit_str_remove (str_run (critbit_init 1000 0 8)
          [Op.insert 11 ⟨100, [97]⟩, Op.insert 13 ⟨102, [98]⟩]) [97]).1.calls =
        (str_run (critbit_init 1000 0 8)
          [Op.insert 11 ⟨100, [97]⟩, Op.insert 13 ⟨102, [98]⟩]).calls ++
        [((str_run (critbit_init 1000 0 8)
          [Op.insert 11 ⟨100, [97]⟩, Op.insert 13 ⟨102, [98]⟩]).self, f)] :=
  ⟨((C12_remove_shrinks (str_run (critbit_init 1000 0 8)
      [Op.insert 11 ⟨100, [97]⟩, Op.insert 13 ⟨102, [98]⟩]) [97]).1 ⟨100, [97]⟩ (by decide)).1,
    ((C12_remove_shrinks (str_run (critbit_init 1000 0 8)
      [Op.insert 11 ⟨100, [97]⟩, Op.insert 13 ⟨102, [98]⟩]) [97]).1 ⟨100, [97]⟩
      (by decide)).2.2.2 13 (.key ⟨100, [97]⟩) (.key ⟨102, [98]⟩) 0 253 (by decide)⟩

/-- C21: String domain.  In every tree reachable from empty by Insert and
Remove the stored strings are pairwise distinct, and in the left-to-right
sequence of leaves (the `child[0]` subtree before the `child[1]` subtree at
every branch node) every leaf is below every later leaf in the lexicographic
order of unsigned bytes; in particular the sequence is strictly ascending
from each leaf to the next. -/
theorem C21_leaves_ascending (t : critbit_tree) (ht : StrReachable t) :
    ((keys t).map (fun k => k.mem)).Nodup ∧
    ((keys t).map (fun k => k.mem)).Pairwise str_lt ∧
    ((keys t).map (fun k => k.mem)).Chain' str_lt := by
  obtain ⟨hg, hs, hn⟩ := strinv_of_reachable ht
  have hp : ((keys t).map (fun k => k.mem)).Pairwise str_lt := by
    rw [List.pairwise_map]
    cases hr : t.ct_root with
    | none => simp [keys, hr]
    | some r =>
      have hk : keys t = leaves r := by simp [keys, hr]
      rw [hk] at hs ⊢
      exact good_leaves_sorted r (hg r hr) hs
  exact ⟨hn, hp, List.Pairwise.chain' hp⟩

theorem C21_leaves_ascending_witness :
    StrReachable (str_run (critbit_init 700 0 0)
      [Op.insert 31 ⟨5, [98, 97]⟩, Op.insert 32 ⟨6, [97]⟩, Op.insert 33 ⟨7, [98]⟩,
        Op.insert 34 ⟨8, [97, 200]⟩, Op.remove [98], Op.insert 35 ⟨9, [97, 3]⟩]) ∧
    ((keys (str_run (critbit_init 700 0 0)
      [Op.insert 31 ⟨5, [98, 97]⟩, Op.insert 32 ⟨6, [97]⟩, Op.insert 33 ⟨7, [98]⟩,
        Op.insert 34 ⟨8, [97, 200]⟩, Op.remove [98], Op.insert 35 ⟨9, [97, 3]⟩])).map
        (fun k => k.mem) = [[97], [97, 3], [97, 200], [98, 97]]) ∧
    (((keys (str_run (critbit_init 700 0 0)
      [Op.insert 31 ⟨5, [98, 97]⟩, Op.insert 32 ⟨6, [97]⟩, Op.insert 33 ⟨7, [98]⟩,
        Op.insert 34 ⟨8, [97, 200]⟩, Op.remove [98], Op.insert 35 ⟨9, [97, 3]⟩])).map
        (fun k => k.mem)).Nodup ∧
    ((keys (str_run (critbit_init 700 0 0)
      [Op.insert 31 ⟨5, [98, 97]⟩, Op.insert 32 ⟨6, [97]⟩, Op.insert 33 ⟨7, [98]⟩,
        Op.insert 34 ⟨8, [97, 200]⟩, Op.remove [98], Op.insert 35 ⟨9, [97, 3]⟩])).map
        (fun k => k.mem)).Pairwise str_lt ∧
    ((keys (str_run (critbit_init 700 0 0)
      [Op.insert 31 ⟨5, [98, 97]⟩, Op.insert 32 ⟨6, [97]⟩, Op.insert 33 ⟨7, [98]⟩,
        Op.insert 34 ⟨8, [97, 200]⟩, Op.remove [98], Op.insert 35 ⟨9, [97, 3]⟩])).map
        (fun k => k.mem)).Chain' str_lt) :=
  ⟨⟨700, 0, 0, _, by decide, rfl⟩, by decide,
    C21_leaves_ascending _ ⟨700, 0, 0, _, by decide, rfl⟩⟩

/-- C22: node conservation, in both key domains.  For every sequence of
Insert and Remove calls on an initially empty tree in which the nodes given
to Insert are pairwise distinct, after every number `n` of calls the branch
nodes linked in the tree followed by the nodes released through the callback
are a rearrangement of the nodes supplied by these `n` calls; so each node
supplied so far is either linked once and not released, or not linked and
released exactly once, and nothing that was not supplied is linked or
released. -/
theorem C22_node_conservation (self freearg keylen : Nat) (ops : List Op)
    (hfresh : (supplied ops).Nodup) (n : Nat) :
    ((tree_nodes (str_run (critbit_init self freearg keylen) (ops.take n)) ++
        released (str_run (critbit_init self freearg keylen) (ops.take n))).Perm
        (supplied (ops.take n)) ∧
      Conserved (supplied (ops.take n))
        (str_run (critbit_init self freearg keylen) (ops.take n))) ∧
    ((tree_nodes (buf_run (critbit_init self freearg keylen) (ops.take n)) ++
        released (buf_run (critbit_init self freearg keylen) (ops.take n))).Perm
        (supplied (ops.take n)) ∧
      Conserved (supplied (ops.take n))
        (buf_run (critbit_init self freearg keylen) (ops.take n))) := by
  have hs : (supplied (ops.take n)).Nodup := hfresh.sublist (supplied_take ops n)
  have h0 : tree_nodes (critbit_init self freearg keylen) ++
      released (critbit_init self freearg keylen) = [] := rfl
  have p1 := run_conserve str_step
    (fun t nn X => insert_impl_conserve t nn X _ _)
    (fun t u => remove_impl_conserve t u _ _ _) (ops.take n) (critbit_init self freearg keylen)
  have p2 := run_conserve buf_step
    (fun t nn X => insert_impl_conserve t nn X _ _)
    (fun t u => remove_impl_conserve t u _ _ _) (ops.take n) (critbit_init self freearg keylen)
  rw [h0, List.append_nil] at p1 p2
  exact ⟨⟨p1, conserved_of_perm hs p1⟩, ⟨p2, conserved_of_perm hs p2⟩⟩

theorem C22_node_conservation_witness :
    (supplied [Op.insert 51 ⟨1, [1, 2]⟩, Op.insert 52 ⟨2, [1, 3]⟩, Op.insert 53 ⟨3, [1, 2]⟩,
      Op.insert 54 ⟨4, [2, 2]⟩, Op.remove [1, 3], Op.insert 55 ⟨5, [3, 1]⟩]).Nodup ∧
    (released (str_run (critbit_init 900 0 2)
      ([Op.insert 51 ⟨1, [1, 2]⟩, Op.insert 52 ⟨2, [1, 3]⟩, Op.insert 53 ⟨3, [1, 2]⟩,
        Op.insert 54 ⟨4, [2, 2]⟩, Op.remove [1, 3], Op.insert 55 ⟨5, [3, 1]⟩].take 5)) =
      [51, 53, 52]) ∧
    (((tree_nodes (str_run (critbit_init 900 0 2)
          ([Op.insert 51 ⟨1, [1, 2]⟩, Op.insert 52 ⟨2, [1, 3]⟩, Op.insert 53 ⟨3, [1, 2]⟩,
            Op.insert 54 ⟨4, [2, 2]⟩, Op.remove [1, 3], Op.insert 55 ⟨5, [3, 1]⟩].take 5)) ++
        released (str_run (critbit_init 900 0 2)
          ([Op.insert 51 ⟨1, [1, 2]⟩, Op.insert 52 ⟨2, [1, 3]⟩, Op.insert 53 ⟨3, [1, 2]⟩,
            Op.insert 54 ⟨4, [2, 2]⟩, Op.remove [1, 3], Op.insert 55 ⟨5, [3, 1]⟩].take 5))).Perm
        (supplied ([Op.insert 51 ⟨1, [1, 2]⟩, Op.insert 52 ⟨2, [1, 3]⟩, Op.insert 53 ⟨3, [1, 2]⟩,
            Op.insert 54 ⟨4, [2, 2]⟩, Op.remove [1, 3], Op.insert 55 ⟨5, [3, 1]⟩].take 5)) ∧
      Conserved
        (supplied ([Op.insert 51 ⟨1, [1, 2]⟩, Op.insert 52 ⟨2, [1, 3]⟩, Op.insert 53 ⟨3, [1, 2]⟩,
            Op.insert 54 ⟨4, [2, 2]⟩, Op.remove [1, 3], Op.insert 55 ⟨5, [3, 1]⟩].take 5))
        (str_run (critbit_init 900 0 2)
          ([Op.insert 51 ⟨1, [1, 2]⟩, Op.insert 52 ⟨2, [1, 3]⟩, Op.insert 53 ⟨3, [1, 2]⟩,
            Op.insert 54 ⟨4, [2, 2]⟩, Op.remove [1, 3], Op.insert 55 ⟨5, [3, 1]⟩].take 5))) ∧
    ((tree_nodes (buf_run (critbit_init 900 0 2)
          ([Op.insert 51 ⟨1, [1, 2]⟩, Op.insert 52 ⟨2, [1, 3]⟩, Op.insert 53 ⟨3, [1, 2]⟩,
            Op.insert 54 ⟨4, [2, 2]⟩, Op.remove [1, 3], Op.insert 55 ⟨5, [3, 1]⟩].take 5)) ++
        released (buf_run (critbit_init 900 0 2)
          ([Op.insert 51 ⟨1, [1, 2]⟩, Op.insert 52 ⟨2, [1, 3]⟩, Op.insert 53 ⟨3, [1, 2]⟩,
            Op.insert 54 ⟨4, [2, 2]⟩, Op.remove [1, 3], Op.insert 55 ⟨5, [3, 1]⟩].take 5))).Perm
        (supplied ([Op.insert 51 ⟨1, [1, 2]⟩, Op.insert 52 ⟨2, [1, 3]⟩, Op.insert 53 ⟨3, [1, 2]⟩,
            Op.insert 54 ⟨4, [2, 2]⟩, Op.remove [1, 3], Op.insert 55 ⟨5, [3, 1]⟩].take 5)) ∧
      Conserved
        (supplied ([Op.insert 51 ⟨1, [1, 2]⟩, Op.insert 52 ⟨2, [1, 3]⟩, Op.insert 53 ⟨3, [1, 2]⟩,
            Op.insert 54 ⟨4, [2, 2]⟩, Op.remove [1, 3], Op.insert 55 ⟨5, [3, 1]⟩].take 5))
        (buf_run (critbit_init 900 0 2)
          ([Op.insert 51 ⟨1, [1, 2]⟩, Op.insert 52 ⟨2, [1, 3]⟩, Op.insert 53 ⟨3, [1, 2]⟩,
            Op.insert 54 ⟨4, [2, 2]⟩, Op.remove [1, 3], Op.insert 55 ⟨5, [3, 1]⟩].take 5)))) :=
  ⟨by decide, by decide, C22_node_conservation 900 0 2 _ (by decide) 5⟩

/-- C23: Insert followed by Remove is a round trip on the tree.  For every
String-domain tree reachable from empty (the empty tree included), every
supplied node and every well-formed string `X` not present in the tree, the
insertion stores `X`, and `Remove(X)` applied right after it returns the
reference of `X` and leaves the root, and with it every branch node and every
link below the root, exactly as before the insertion.  The whole tree object
is as before except that the supplied node has been passed to the release
callback once. -/
theorem C23_insert_remove_round_trip (t : critbit_tree) (ht : StrReachable t) (newnode : Nat)
    (X : critbit_key) (hX : IsStr X.mem) (hnew : ∀ K ∈ keys t, K.mem ≠ X.mem) :
    (critbit_str_insert t newnode X).2 = none ∧
    (critbit_str_remove (critbit_str_insert t newnode X).1 X.mem).2 = some X ∧
    (critbit_str_remove (critbit_str_insert t newnode X).1 X.mem).1.ct_root = t.ct_root ∧
    tree_nodes (critbit_str_remove (critbit_str_insert t newnode X).1 X.mem).1 = tree_nodes t ∧
    (critbit_str_remove (critbit_str_insert t newnode X).1 X.mem).1 =
      critbit_node_free t newnode := by
  have hinv := strinv_of_reachable ht
  rw [str_insert_then_remove hinv newnode hX hnew]
  exact ⟨(str_insert_new hinv newnode hX hnew).1, rfl, rfl, rfl, rfl⟩

theorem C23_insert_remove_round_trip_witness :
    StrReachable (str_run (critbit_init 300 0 0)
      [Op.insert 41 ⟨1, [97, 98]⟩, Op.insert 42 ⟨2, [97, 99]⟩, Op.insert 43 ⟨3, [98]⟩]) ∧
    IsStr (critbit_key.mk 4 [97]).mem ∧
    (critbit_str_insert (str_run (critbit_init 300 0 0)
      [Op.insert 41 ⟨1, [97, 98]⟩, Op.insert 42 ⟨2, [97, 99]⟩, Op.insert 43 ⟨3, [98]⟩])
      44 ⟨4, [97]⟩).1.ct_root ≠ (str_run (critbit_init 300 0 0)
      [Op.insert 41 ⟨1, [97, 98]⟩, Op.insert 42 ⟨2, [97, 99]⟩, Op.insert 43 ⟨3, [98]⟩]).ct_root ∧
    ((critbit_str_insert (str_run (critbit_init 300 0 0)
      [Op.insert 41 ⟨1, [97, 98]⟩, Op.insert 42 ⟨2, [97, 99]⟩, Op.insert 43 ⟨3, [98]⟩])
      44 ⟨4, [97]⟩).2 = none ∧
    (critbit_str_remove (critbit_str_insert (str_run (critbit_init 300 0 0)
      [Op.insert 41 ⟨1, [97, 98]⟩, Op.insert 42 ⟨2, [97, 99]⟩, Op.insert 43 ⟨3, [98]⟩])
      44 ⟨4, [97]⟩).1 (critbit_key.mk 4 [97]).mem).2 = some ⟨4, [97]⟩ ∧
    (critbit_str_remove (critbit_str_insert (str_run (critbit_init 300 0 0)
      [Op.insert 41 ⟨1, [97, 98]⟩, Op.insert 42 ⟨2, [97, 99]⟩, Op.insert 43 ⟨3, [98]⟩])
      44 ⟨4, [97]⟩).1 (critbit_key.mk 4 [97]).mem).1.ct_root = (str_run (critbit_init 300 0 0)
      [Op.insert 41 ⟨1, [97, 98]⟩, Op.insert 42 ⟨2, [97, 99]⟩, Op.insert 43 ⟨3, [98]⟩]).ct_root ∧
    tree_nodes (critbit_str_remove (critbit_str_insert (str_run (critbit_init 300 0 0)
      [Op.insert 41 ⟨1, [97, 98]⟩, Op.insert 42 ⟨2, [97, 99]⟩, Op.insert 43 ⟨3, [98]⟩])
      44 ⟨4, [97]⟩).1 (critbit_key.mk 4 [97]).mem).1 = tree_nodes (str_run (critbit_init 300 0 0)
      [Op.insert 41 ⟨1, [97, 98]⟩, Op.insert 42 ⟨2, [97, 99]⟩, Op.insert 43 ⟨3, [98]⟩]) ∧
    (critbit_str_remove (critbit_str_insert (str_run (critbit_init 300 0 0)
      [Op.insert 41 ⟨1, [97, 98]⟩, Op.insert 42 ⟨2, [97, 99]⟩, Op.insert 43 ⟨3, [98]⟩])
      44 ⟨4, [97]⟩).1 (critbit_key.mk 4 [97]).mem).1 =
      critbit_node_free (str_run (critbit_init 300 0 0)
      [Op.insert 41 ⟨1, [97, 98]⟩, Op.insert 42 ⟨2, [97, 99]⟩, Op.insert 43 ⟨3, [98]⟩]) 44) :=
  ⟨⟨300, 0, 0, _, by decide, rfl⟩, by decide, by decide,
    C23_insert_remove_round_trip _ ⟨300, 0, 0, _, by decide, rfl⟩ 44 ⟨4, [97]⟩ (by decide)
      (by decide)⟩

/-- C24: in every String-domain tree reachable from empty by Insert and
Remove, along every root-to-leaf path the pairs `(byte, otherbits)` of
successive branch nodes increase strictly in the lexicographic order: the
byte index of the deeper node is never smaller, and where the two byte
indices are equal the deeper node has the larger `otherbits` and its
discriminating bit `otherbits XOR 255` is the less significant one. -/
theorem C24_pairs_increase (t : critbit_tree) (ht : StrReachable t) :
    ∀ π ∈ tree_paths t, π.Chain' LexBefore ∧
      π.Chain' (fun p q => p.1 ≤ q.1 ∧ (p.1 = q.1 → p.2 < q.2 ∧ q.2 ^^^ 255 < p.2 ^^^ 255)) := by
  intro π hπ
  obtain ⟨hinv, ho⟩ := str_reachable_ordered ht
  cases hr : t.ct_root with
  | none => simp [tree_paths, hr] at hπ
  | some r =>
    simp only [tree_paths, hr] at hπ
    obtain ⟨h1, h2, _⟩ := @ordered_paths str_view (fun _ => False) (fun _ _ h _ => h) r
      (hinv.1 r hr) (ho r hr) π hπ
    have l1 : π.Chain' LexBefore := h1.imp (fun _ _ h => h (fun hf => hf))
    have l2 : π.Chain' TestBefore := h2.imp (fun _ _ h => h (fun hf => hf))
    refine ⟨l1, (chain_both π l1 l2).imp ?_⟩
    rintro p q ⟨hl, ht⟩
    unfold LexBefore at hl
    unfold TestBefore at ht
    refine ⟨by omega, fun he => ⟨by omega, by omega⟩⟩

theorem C24_pairs_increase_witness :
    StrReachable (str_run (critbit_init 500 0 0)
      [Op.insert 21 ⟨1, [104, 105]⟩, Op.insert 22 ⟨2, [104]⟩, Op.insert 23 ⟨3, [104, 111]⟩,
        Op.insert 24 ⟨4, [103]⟩, Op.remove [104]]) ∧
    ∀ π ∈ tree_paths (str_run (critbit_init 500 0 0)
      [Op.insert 21 ⟨1, [104, 105]⟩, Op.insert 22 ⟨2, [104]⟩, Op.insert 23 ⟨3, [104, 111]⟩,
        Op.insert 24 ⟨4, [103]⟩, Op.remove [104]]),
      π.Chain' LexBefore ∧
        π.Chain' (fun p q => p.1 ≤ q.1 ∧ (p.1 = q.1 → p.2 < q.2 ∧ q.2 ^^^ 255 < p.2 ^^^ 255)) :=
  ⟨⟨500, 0, 0, _, by decide, rfl⟩, C24_pairs_increase _ ⟨500, 0, 0, _, by decide, rfl⟩⟩

end Critbit
